import Mathlib

/-!
# amalgo: filter chain, directory scanner, extension arguments and Markdown output

A shallow embedding of the packages `filter` and `scanner` of amalgo, of the functions of
the package `cmd` that read the extension arguments, and of `LoadFiles` and the Markdown
processor of the package `processor`.

Go strings are modelled as `List Char` (`Str`), the runes of a string that is valid
UTF-8; every function of the Go standard
library that the code calls (`strings.Split`, `strings.ToLower`, `filepath.Base`, `filepath.Ext`,
`filepath.Clean`, `filepath.Join`, `filepath.Rel`, `filepath.Match`, `filepath.WalkDir`,
`sort.Slice`) is modelled for a Unix target, where `filepath.Separator` is `/`.
A `map[string]struct{}` is modelled by the list of its keys, a byte slice by the text it
holds, and `os.ReadFile` by a function from the path to the content or the error.

The package `gitignore` of go-git, which the sources import, is a parameter of the
filter (`GitignoreLib`); `goGit` is a model of it, used where a statement is about what
the patterns match.  The order on strings is the lexicographic order of their characters,
which is the order of their bytes in UTF-8.
-/

namespace Amalgo

/-- A Go string. -/
abbrev Str := List Char

/-! ## Standard library: `unicode` -/

namespace unicode

/-- The constant `unicode.MaxASCII`. -/
def MaxASCII : Nat := 0x7F

/-- The entry of a row of `unicode.CaseRanges` for `LowerCase`: the mark `UpperLower` of
a row of pairs of an upper-case and a lower-case letter, or the signed delta that
is added to the rune, written as what to add or what to take away. -/
inductive Delta where
  | upperLower
  | add (n : Nat)
  | sub (n : Nat)

/-- Go type `unicode.CaseRange`, with the entry of `Delta` for `LowerCase`. -/
structure CaseRange where
  Lo : Nat
  Hi : Nat
  Delta : Delta

/-- The table `unicode.CaseRanges` for `LowerCase`: the simple lower-case mappings of the
Unicode Character Database in the version 15.0.0, the version of the tables of Go since
1.21.  The rows whose delta for `LowerCase` is zero are left out, and neighbouring rows of
one delta are written as one row. -/
def caseRanges : List CaseRange :=
  [
   CaseRange.mk 0x0041 0x005A (.add 32), CaseRange.mk 0x00C0 0x00D6 (.add 32),
   CaseRange.mk 0x00D8 0x00DE (.add 32), CaseRange.mk 0x0100 0x012F .upperLower,
   CaseRange.mk 0x0130 0x0130 (.sub 199), CaseRange.mk 0x0132 0x0137 .upperLower,
   CaseRange.mk 0x0139 0x0148 .upperLower, CaseRange.mk 0x014A 0x0177 .upperLower,
   CaseRange.mk 0x0178 0x0178 (.sub 121), CaseRange.mk 0x0179 0x017E .upperLower,
   CaseRange.mk 0x0181 0x0181 (.add 210), CaseRange.mk 0x0182 0x0185 .upperLower,
   CaseRange.mk 0x0186 0x0186 (.add 206), CaseRange.mk 0x0187 0x0187 (.add 1),
   CaseRange.mk 0x0189 0x018A (.add 205), CaseRange.mk 0x018B 0x018B (.add 1),
   CaseRange.mk 0x018E 0x018E (.add 79), CaseRange.mk 0x018F 0x018F (.add 202),
   CaseRange.mk 0x0190 0x0190 (.add 203), CaseRange.mk 0x0191 0x0191 (.add 1),
   CaseRange.mk 0x0193 0x0193 (.add 205), CaseRange.mk 0x0194 0x0194 (.add 207),
   CaseRange.mk 0x0196 0x0196 (.add 211), CaseRange.mk 0x0197 0x0197 (.add 209),
   CaseRange.mk 0x0198 0x0198 (.add 1), CaseRange.mk 0x019C 0x019C (.add 211),
   CaseRange.mk 0x019D 0x019D (.add 213), CaseRange.mk 0x019F 0x019F (.add 214),
   CaseRange.mk 0x01A0 0x01A5 .upperLower, CaseRange.mk 0x01A6 0x01A6 (.add 218),
   CaseRange.mk 0x01A7 0x01A7 (.add 1), CaseRange.mk 0x01A9 0x01A9 (.add 218),
   CaseRange.mk 0x01AC 0x01AC (.add 1), CaseRange.mk 0x01AE 0x01AE (.add 218),
   CaseRange.mk 0x01AF 0x01AF (.add 1), CaseRange.mk 0x01B1 0x01B2 (.add 217),
   CaseRange.mk 0x01B3 0x01B6 .upperLower, CaseRange.mk 0x01B7 0x01B7 (.add 219),
   CaseRange.mk 0x01B8 0x01B8 (.add 1), CaseRange.mk 0x01BC 0x01BC (.add 1),
   CaseRange.mk 0x01C4 0x01C4 (.add 2), CaseRange.mk 0x01C5 0x01C5 (.add 1),
   CaseRange.mk 0x01C7 0x01C7 (.add 2), CaseRange.mk 0x01C8 0x01C8 (.add 1),
   CaseRange.mk 0x01CA 0x01CA (.add 2), CaseRange.mk 0x01CB 0x01CB (.add 1),
   CaseRange.mk 0x01CD 0x01DC .upperLower, CaseRange.mk 0x01DE 0x01EF .upperLower,
   CaseRange.mk 0x01F1 0x01F1 (.add 2), CaseRange.mk 0x01F2 0x01F2 (.add 1),
   CaseRange.mk 0x01F4 0x01F4 (.add 1), CaseRange.mk 0x01F6 0x01F6 (.sub 97),
   CaseRange.mk 0x01F7 0x01F7 (.sub 56), CaseRange.mk 0x01F8 0x021F .upperLower,
   CaseRange.mk 0x0220 0x0220 (.sub 130), CaseRange.mk 0x0222 0x0233 .upperLower,
   CaseRange.mk 0x023A 0x023A (.add 10795), CaseRange.mk 0x023B 0x023B (.add 1),
   CaseRange.mk 0x023D 0x023D (.sub 163), CaseRange.mk 0x023E 0x023E (.add 10792),
   CaseRange.mk 0x0241 0x0241 (.add 1), CaseRange.mk 0x0243 0x0243 (.sub 195),
   CaseRange.mk 0x0244 0x0244 (.add 69), CaseRange.mk 0x0245 0x0245 (.add 71),
   CaseRange.mk 0x0246 0x024F .upperLower, CaseRange.mk 0x0370 0x0373 .upperLower,
   CaseRange.mk 0x0376 0x0376 (.add 1), CaseRange.mk 0x037F 0x037F (.add 116),
   CaseRange.mk 0x0386 0x0386 (.add 38), CaseRange.mk 0x0388 0x038A (.add 37),
   CaseRange.mk 0x038C 0x038C (.add 64), CaseRange.mk 0x038E 0x038F (.add 63),
   CaseRange.mk 0x0391 0x03A1 (.add 32), CaseRange.mk 0x03A3 0x03AB (.add 32),
   CaseRange.mk 0x03CF 0x03CF (.add 8), CaseRange.mk 0x03D8 0x03EF .upperLower,
   CaseRange.mk 0x03F4 0x03F4 (.sub 60), CaseRange.mk 0x03F7 0x03F7 (.add 1),
   CaseRange.mk 0x03F9 0x03F9 (.sub 7), CaseRange.mk 0x03FA 0x03FA (.add 1),
   CaseRange.mk 0x03FD 0x03FF (.sub 130), CaseRange.mk 0x0400 0x040F (.add 80),
   CaseRange.mk 0x0410 0x042F (.add 32), CaseRange.mk 0x0460 0x0481 .upperLower,
   CaseRange.mk 0x048A 0x04BF .upperLower, CaseRange.mk 0x04C0 0x04C0 (.add 15),
   CaseRange.mk 0x04C1 0x04CE .upperLower, CaseRange.mk 0x04D0 0x052F .upperLower,
   CaseRange.mk 0x0531 0x0556 (.add 48), CaseRange.mk 0x10A0 0x10C5 (.add 7264),
   CaseRange.mk 0x10C7 0x10C7 (.add 7264), CaseRange.mk 0x10CD 0x10CD (.add 7264),
   CaseRange.mk 0x13A0 0x13EF (.add 38864), CaseRange.mk 0x13F0 0x13F5 (.add 8),
   CaseRange.mk 0x1C90 0x1CBA (.sub 3008), CaseRange.mk 0x1CBD 0x1CBF (.sub 3008),
   CaseRange.mk 0x1E00 0x1E95 .upperLower, CaseRange.mk 0x1E9E 0x1E9E (.sub 7615),
   CaseRange.mk 0x1EA0 0x1EFF .upperLower, CaseRange.mk 0x1F08 0x1F0F (.sub 8),
   CaseRange.mk 0x1F18 0x1F1D (.sub 8), CaseRange.mk 0x1F28 0x1F2F (.sub 8),
   CaseRange.mk 0x1F38 0x1F3F (.sub 8), CaseRange.mk 0x1F48 0x1F4D (.sub 8),
   CaseRange.mk 0x1F59 0x1F59 (.sub 8), CaseRange.mk 0x1F5B 0x1F5B (.sub 8),
   CaseRange.mk 0x1F5D 0x1F5D (.sub 8), CaseRange.mk 0x1F5F 0x1F5F (.sub 8),
   CaseRange.mk 0x1F68 0x1F6F (.sub 8), CaseRange.mk 0x1F88 0x1F8F (.sub 8),
   CaseRange.mk 0x1F98 0x1F9F (.sub 8), CaseRange.mk 0x1FA8 0x1FAF (.sub 8),
   CaseRange.mk 0x1FB8 0x1FB9 (.sub 8), CaseRange.mk 0x1FBA 0x1FBB (.sub 74),
   CaseRange.mk 0x1FBC 0x1FBC (.sub 9), CaseRange.mk 0x1FC8 0x1FCB (.sub 86),
   CaseRange.mk 0x1FCC 0x1FCC (.sub 9), CaseRange.mk 0x1FD8 0x1FD9 (.sub 8),
   CaseRange.mk 0x1FDA 0x1FDB (.sub 100), CaseRange.mk 0x1FE8 0x1FE9 (.sub 8),
   CaseRange.mk 0x1FEA 0x1FEB (.sub 112), CaseRange.mk 0x1FEC 0x1FEC (.sub 7),
   CaseRange.mk 0x1FF8 0x1FF9 (.sub 128), CaseRange.mk 0x1FFA 0x1FFB (.sub 126),
   CaseRange.mk 0x1FFC 0x1FFC (.sub 9), CaseRange.mk 0x2126 0x2126 (.sub 7517),
   CaseRange.mk 0x212A 0x212A (.sub 8383), CaseRange.mk 0x212B 0x212B (.sub 8262),
   CaseRange.mk 0x2132 0x2132 (.add 28), CaseRange.mk 0x2160 0x216F (.add 16),
   CaseRange.mk 0x2183 0x2183 (.add 1), CaseRange.mk 0x24B6 0x24CF (.add 26),
   CaseRange.mk 0x2C00 0x2C2F (.add 48), CaseRange.mk 0x2C60 0x2C60 (.add 1),
   CaseRange.mk 0x2C62 0x2C62 (.sub 10743), CaseRange.mk 0x2C63 0x2C63 (.sub 3814),
   CaseRange.mk 0x2C64 0x2C64 (.sub 10727), CaseRange.mk 0x2C67 0x2C6C .upperLower,
   CaseRange.mk 0x2C6D 0x2C6D (.sub 10780), CaseRange.mk 0x2C6E 0x2C6E (.sub 10749),
   CaseRange.mk 0x2C6F 0x2C6F (.sub 10783), CaseRange.mk 0x2C70 0x2C70 (.sub 10782),
   CaseRange.mk 0x2C72 0x2C72 (.add 1), CaseRange.mk 0x2C75 0x2C75 (.add 1),
   CaseRange.mk 0x2C7E 0x2C7F (.sub 10815), CaseRange.mk 0x2C80 0x2CE3 .upperLower,
   CaseRange.mk 0x2CEB 0x2CEE .upperLower, CaseRange.mk 0x2CF2 0x2CF2 (.add 1),
   CaseRange.mk 0xA640 0xA66D .upperLower, CaseRange.mk 0xA680 0xA69B .upperLower,
   CaseRange.mk 0xA722 0xA72F .upperLower, CaseRange.mk 0xA732 0xA76F .upperLower,
   CaseRange.mk 0xA779 0xA77C .upperLower, CaseRange.mk 0xA77D 0xA77D (.sub 35332),
   CaseRange.mk 0xA77E 0xA787 .upperLower, CaseRange.mk 0xA78B 0xA78B (.add 1),
   CaseRange.mk 0xA78D 0xA78D (.sub 42280), CaseRange.mk 0xA790 0xA793 .upperLower,
   CaseRange.mk 0xA796 0xA7A9 .upperLower, CaseRange.mk 0xA7AA 0xA7AA (.sub 42308),
   CaseRange.mk 0xA7AB 0xA7AB (.sub 42319), CaseRange.mk 0xA7AC 0xA7AC (.sub 42315),
   CaseRange.mk 0xA7AD 0xA7AD (.sub 42305), CaseRange.mk 0xA7AE 0xA7AE (.sub 42308),
   CaseRange.mk 0xA7B0 0xA7B0 (.sub 42258), CaseRange.mk 0xA7B1 0xA7B1 (.sub 42282),
   CaseRange.mk 0xA7B2 0xA7B2 (.sub 42261), CaseRange.mk 0xA7B3 0xA7B3 (.add 928),
   CaseRange.mk 0xA7B4 0xA7C3 .upperLower, CaseRange.mk 0xA7C4 0xA7C4 (.sub 48),
   CaseRange.mk 0xA7C5 0xA7C5 (.sub 42307), CaseRange.mk 0xA7C6 0xA7C6 (.sub 35384),
   CaseRange.mk 0xA7C7 0xA7CA .upperLower, CaseRange.mk 0xA7D0 0xA7D0 (.add 1),
   CaseRange.mk 0xA7D6 0xA7D9 .upperLower, CaseRange.mk 0xA7F5 0xA7F5 (.add 1),
   CaseRange.mk 0xFF21 0xFF3A (.add 32), CaseRange.mk 0x10400 0x10427 (.add 40),
   CaseRange.mk 0x104B0 0x104D3 (.add 40), CaseRange.mk 0x10570 0x1057A (.add 39),
   CaseRange.mk 0x1057C 0x1058A (.add 39), CaseRange.mk 0x1058C 0x10592 (.add 39),
   CaseRange.mk 0x10594 0x10595 (.add 39), CaseRange.mk 0x10C80 0x10CB2 (.add 64),
   CaseRange.mk 0x118A0 0x118BF (.add 32), CaseRange.mk 0x16E40 0x16E5F (.add 32),
   CaseRange.mk 0x1E900 0x1E921 (.add 34)]

/-- What `unicode.to` returns for `LowerCase` when the rune lies in the row: in a row
of pairs the lower-case letter of the pair, `Lo + ((r - Lo) &^ 1 | 1)`, and else the
rune moved by the delta. -/
def CaseRange.lower (cr : CaseRange) (r : Nat) : Nat :=
  match cr.Delta with
  | .upperLower => cr.Lo + ((r - cr.Lo) / 2 * 2 + 1)
  | .add n => r + n
  | .sub n => r - n

/-- Model of `unicode.To(unicode.LowerCase, r)` over a table: the row that holds the
rune gives its value, and a rune that no row holds is returned as it is.  The rows of
the table do not overlap, so the first row that holds the rune is the row that the
binary search of `unicode.to` finds. -/
def To (rows : List CaseRange) (r : Nat) : Nat :=
  match rows with
  | [] => r
  | cr :: rest => if cr.Lo ≤ r ∧ r ≤ cr.Hi then cr.lower r else To rest r

/-- Model of `unicode.ToLower`. -/
def ToLower (r : Char) : Char :=
  if r.toNat ≤ MaxASCII then
    (if 'A' ≤ r ∧ r ≤ 'Z' then Char.ofNat (r.toNat + ('a'.toNat - 'A'.toNat)) else r)
  else Char.ofNat (To caseRanges r.toNat)

/-- Go types `unicode.Range16` and `unicode.Range32`: the runes from `Lo` to `Hi` in
steps of `Stride`. -/
structure Range where
  Lo : Nat
  Hi : Nat
  Stride : Nat

/-- The table `unicode.Upper`: the runes of the category Lu of the Unicode Character
Database in the version 15.0.0. -/
def Upper : List Range :=
  [
   Range.mk 0x0041 0x005A 1, Range.mk 0x00C0 0x00D6 1, Range.mk 0x00D8 0x00DE 1,
   Range.mk 0x0100 0x0136 2, Range.mk 0x0139 0x0147 2, Range.mk 0x014A 0x0178 2,
   Range.mk 0x0179 0x017D 2, Range.mk 0x0181 0x0182 1, Range.mk 0x0184 0x0184 1,
   Range.mk 0x0186 0x0187 1, Range.mk 0x0189 0x018B 1, Range.mk 0x018E 0x0191 1,
   Range.mk 0x0193 0x0194 1, Range.mk 0x0196 0x0198 1, Range.mk 0x019C 0x019D 1,
   Range.mk 0x019F 0x01A0 1, Range.mk 0x01A2 0x01A6 2, Range.mk 0x01A7 0x01A7 1,
   Range.mk 0x01A9 0x01A9 1, Range.mk 0x01AC 0x01AC 1, Range.mk 0x01AE 0x01AF 1,
   Range.mk 0x01B1 0x01B3 1, Range.mk 0x01B5 0x01B5 1, Range.mk 0x01B7 0x01B8 1,
   Range.mk 0x01BC 0x01BC 1, Range.mk 0x01C4 0x01CD 3, Range.mk 0x01CF 0x01DB 2,
   Range.mk 0x01DE 0x01EE 2, Range.mk 0x01F1 0x01F1 1, Range.mk 0x01F4 0x01F4 1,
   Range.mk 0x01F6 0x01F8 1, Range.mk 0x01FA 0x0232 2, Range.mk 0x023A 0x023B 1,
   Range.mk 0x023D 0x023E 1, Range.mk 0x0241 0x0241 1, Range.mk 0x0243 0x0246 1,
   Range.mk 0x0248 0x024E 2, Range.mk 0x0370 0x0370 1, Range.mk 0x0372 0x0372 1,
   Range.mk 0x0376 0x0376 1, Range.mk 0x037F 0x037F 1, Range.mk 0x0386 0x0386 1,
   Range.mk 0x0388 0x038A 1, Range.mk 0x038C 0x038C 1, Range.mk 0x038E 0x038F 1,
   Range.mk 0x0391 0x03A1 1, Range.mk 0x03A3 0x03AB 1, Range.mk 0x03CF 0x03CF 1,
   Range.mk 0x03D2 0x03D4 1, Range.mk 0x03D8 0x03EE 2, Range.mk 0x03F4 0x03F4 1,
   Range.mk 0x03F7 0x03F7 1, Range.mk 0x03F9 0x03FA 1, Range.mk 0x03FD 0x042F 1,
   Range.mk 0x0460 0x0480 2, Range.mk 0x048A 0x04C0 2, Range.mk 0x04C1 0x04CD 2,
   Range.mk 0x04D0 0x052E 2, Range.mk 0x0531 0x0556 1, Range.mk 0x10A0 0x10C5 1,
   Range.mk 0x10C7 0x10C7 1, Range.mk 0x10CD 0x10CD 1, Range.mk 0x13A0 0x13F5 1,
   Range.mk 0x1C90 0x1CBA 1, Range.mk 0x1CBD 0x1CBF 1, Range.mk 0x1E00 0x1E94 2,
   Range.mk 0x1E9E 0x1EFE 2, Range.mk 0x1F08 0x1F0F 1, Range.mk 0x1F18 0x1F1D 1,
   Range.mk 0x1F28 0x1F2F 1, Range.mk 0x1F38 0x1F3F 1, Range.mk 0x1F48 0x1F4D 1,
   Range.mk 0x1F59 0x1F5F 2, Range.mk 0x1F68 0x1F6F 1, Range.mk 0x1FB8 0x1FBB 1,
   Range.mk 0x1FC8 0x1FCB 1, Range.mk 0x1FD8 0x1FDB 1, Range.mk 0x1FE8 0x1FEC 1,
   Range.mk 0x1FF8 0x1FFB 1, Range.mk 0x2102 0x2102 1, Range.mk 0x2107 0x2107 1,
   Range.mk 0x210B 0x210D 1, Range.mk 0x2110 0x2112 1, Range.mk 0x2115 0x2115 1,
   Range.mk 0x2119 0x211D 1, Range.mk 0x2124 0x212A 2, Range.mk 0x212B 0x212D 1,
   Range.mk 0x2130 0x2133 1, Range.mk 0x213E 0x213F 1, Range.mk 0x2145 0x2145 1,
   Range.mk 0x2183 0x2183 1, Range.mk 0x2C00 0x2C2F 1, Range.mk 0x2C60 0x2C60 1,
   Range.mk 0x2C62 0x2C64 1, Range.mk 0x2C67 0x2C6D 2, Range.mk 0x2C6E 0x2C70 1,
   Range.mk 0x2C72 0x2C72 1, Range.mk 0x2C75 0x2C75 1, Range.mk 0x2C7E 0x2C80 1,
   Range.mk 0x2C82 0x2CE2 2, Range.mk 0x2CEB 0x2CEB 1, Range.mk 0x2CED 0x2CED 1,
   Range.mk 0x2CF2 0x2CF2 1, Range.mk 0xA640 0xA66C 2, Range.mk 0xA680 0xA69A 2,
   Range.mk 0xA722 0xA72E 2, Range.mk 0xA732 0xA76E 2, Range.mk 0xA779 0xA77D 2,
   Range.mk 0xA77E 0xA786 2, Range.mk 0xA78B 0xA78B 1, Range.mk 0xA78D 0xA78D 1,
   Range.mk 0xA790 0xA790 1, Range.mk 0xA792 0xA792 1, Range.mk 0xA796 0xA7AA 2,
   Range.mk 0xA7AB 0xA7AE 1, Range.mk 0xA7B0 0xA7B4 1, Range.mk 0xA7B6 0xA7C4 2,
   Range.mk 0xA7C5 0xA7C7 1, Range.mk 0xA7C9 0xA7C9 1, Range.mk 0xA7D0 0xA7D0 1,
   Range.mk 0xA7D6 0xA7D6 1, Range.mk 0xA7D8 0xA7D8 1, Range.mk 0xA7F5 0xA7F5 1,
   Range.mk 0xFF21 0xFF3A 1, Range.mk 0x10400 0x10427 1, Range.mk 0x104B0 0x104D3 1,
   Range.mk 0x10570 0x1057A 1, Range.mk 0x1057C 0x1058A 1, Range.mk 0x1058C 0x10592 1,
   Range.mk 0x10594 0x10595 1, Range.mk 0x10C80 0x10CB2 1, Range.mk 0x118A0 0x118BF 1,
   Range.mk 0x16E40 0x16E5F 1, Range.mk 0x1D400 0x1D419 1, Range.mk 0x1D434 0x1D44D 1,
   Range.mk 0x1D468 0x1D481 1, Range.mk 0x1D49C 0x1D49C 1, Range.mk 0x1D49E 0x1D49F 1,
   Range.mk 0x1D4A2 0x1D4A2 1, Range.mk 0x1D4A5 0x1D4A6 1, Range.mk 0x1D4A9 0x1D4AC 1,
   Range.mk 0x1D4AE 0x1D4B5 1, Range.mk 0x1D4D0 0x1D4E9 1, Range.mk 0x1D504 0x1D505 1,
   Range.mk 0x1D507 0x1D50A 1, Range.mk 0x1D50D 0x1D514 1, Range.mk 0x1D516 0x1D51C 1,
   Range.mk 0x1D538 0x1D539 1, Range.mk 0x1D53B 0x1D53E 1, Range.mk 0x1D540 0x1D544 1,
   Range.mk 0x1D546 0x1D546 1, Range.mk 0x1D54A 0x1D550 1, Range.mk 0x1D56C 0x1D585 1,
   Range.mk 0x1D5A0 0x1D5B9 1, Range.mk 0x1D5D4 0x1D5ED 1, Range.mk 0x1D608 0x1D621 1,
   Range.mk 0x1D63C 0x1D655 1, Range.mk 0x1D670 0x1D689 1, Range.mk 0x1D6A8 0x1D6C0 1,
   Range.mk 0x1D6E2 0x1D6FA 1, Range.mk 0x1D71C 0x1D734 1, Range.mk 0x1D756 0x1D76E 1,
   Range.mk 0x1D790 0x1D7A8 1, Range.mk 0x1D7CA 0x1D7CA 1, Range.mk 0x1E900 0x1E921 1]

/-- Model of `unicode.IsUpper`: the rune lies in the table `unicode.Upper`.  For a rune
up to `MaxLatin1` Go reads the same property from the array `properties`. -/
def IsUpper (r : Char) : Bool :=
  Upper.any (fun row =>
    Nat.ble row.Lo r.toNat && Nat.ble r.toNat row.Hi
      && Nat.beq ((r.toNat - row.Lo) % row.Stride) 0)

/-- The least rune that a row gives to its runes. -/
def CaseRange.imageLo (cr : CaseRange) : Nat :=
  match cr.Delta with
  | .upperLower => cr.Lo + 1
  | .add n => cr.Lo + n
  | .sub n => cr.Lo - n

/-- The greatest rune that a row gives to its runes. -/
def CaseRange.imageHi (cr : CaseRange) : Nat :=
  match cr.Delta with
  | .upperLower => cr.Hi
  | .add n => cr.Hi + n
  | .sub n => cr.Hi - n

/-- The row is a row of pairs. -/
def CaseRange.isUpperLower (cr : CaseRange) : Bool :=
  match cr.Delta with
  | .upperLower => true
  | _ => false

/-- The row is not empty, a delta that is taken away is not more than the runes of the
row, and a row of pairs holds whole pairs. -/
def CaseRange.wellFormed (cr : CaseRange) : Bool :=
  Nat.ble cr.Lo cr.Hi &&
    match cr.Delta with
    | .upperLower => Nat.beq ((cr.Hi - cr.Lo) % 2) 1
    | .add _ => true
    | .sub n => Nat.ble n cr.Lo

/-- The runes that the row `cr` gives lie outside the row `cr2`, or both are the same
row of pairs. -/
def pairOk (cr cr2 : CaseRange) : Bool :=
  Nat.blt cr.imageHi cr2.Lo || Nat.blt cr2.Hi cr.imageLo
    || (cr.isUpperLower && cr2.isUpperLower && Nat.beq cr2.Lo cr.Lo)

/-- The runes that the row gives are Unicode scalar values above `Z`, and no row of
the table changes them. -/
def rowOk (rows : List CaseRange) (cr : CaseRange) : Bool :=
  cr.wellFormed && Nat.blt 90 cr.imageLo
    && (Nat.blt cr.imageHi 0xD800 || (Nat.blt 0xDFFF cr.imageLo && Nat.blt cr.imageHi 0x110000))
    && rows.all (fun cr2 => pairOk cr cr2)

/-- Every row of the table passes `rowOk`. -/
def rowsOk (rows : List CaseRange) : Bool := rows.all (rowOk rows)

end unicode

/-! ## Standard library: `strings` -/

namespace strings

/-- Helper of `Split`: put a character in front of the first piece. -/
def consHead (c : Char) : List Str → List Str
  | [] => [[c]]
  | h :: t => (c :: h) :: t

/-- Model of `strings.Split(s, sep)` for a one-character separator.  As in Go, the
result is never empty: `Split("", sep)` is the list holding one empty string. -/
def Split (sep : Char) : Str → List Str
  | [] => [[]]
  | c :: cs => if c = sep then [] :: Split sep cs else consHead c (Split sep cs)

/-- Model of `strings.HasPrefix`. -/
def HasPrefix (s pre : Str) : Bool := pre.isPrefixOf s

/-- Model of `strings.ToLower`: `unicode.ToLower` on every rune of the string. -/
def ToLower (s : Str) : Str := s.map unicode.ToLower

/-- Model of `strings.Join(elems, sep)`. -/
def Join (sep : Str) : List Str → Str
  | [] => []
  | [e] => e
  | e :: es => e ++ sep ++ Join sep es

/-- Model of `unicode.IsSpace`. -/
def isSpace (c : Char) : Bool :=
  c = '\t' || c = '\n' || c.toNat = 0x0B || c.toNat = 0x0C || c = '\r' || c = ' ' ||
  c.toNat = 0x85 || c.toNat = 0xA0 || c.toNat = 0x1680 ||
  (0x2000 ≤ c.toNat && c.toNat ≤ 0x200A) || c.toNat = 0x2028 || c.toNat = 0x2029 ||
  c.toNat = 0x202F || c.toNat = 0x205F || c.toNat = 0x3000

/-- Model of `strings.TrimSpace`. -/
def TrimSpace (s : Str) : Str :=
  ((s.dropWhile isSpace).reverse.dropWhile isSpace).reverse

end strings

/-! ## Standard library: `path/filepath` (Unix) -/

namespace filepath

/-- The path separator: `filepath.Separator` on Unix. -/
def Separator : Char := '/'

/-- Model of `filepath.ToSlash`: the identity when the separator is `/`,
otherwise every separator is replaced by `/`. -/
def ToSlash (path : Str) : Str :=
  if Separator = '/' then path else path.map (fun c => if c = Separator then '/' else c)

/-- Loop of `filepath.Ext`: walks the path backwards (`rev` is what is still to the left,
`acc` what has been passed) until a separator or a dot. -/
def extLoop : Str → Str → Str
  | [], _ => []
  | c :: rest, acc =>
    if c = Separator then []
    else if c = '.' then '.' :: acc
    else extLoop rest (c :: acc)

/-- Model of `filepath.Ext`. -/
def Ext (path : Str) : Str := extLoop path.reverse []

/-- Model of `filepath.Base`. -/
def Base (path : Str) : Str :=
  if path = [] then ['.']
  else
    -- strip trailing slashes
    let p1 := (path.reverse.dropWhile (fun c => c = Separator)).reverse
    -- the last element
    let p2 := (p1.reverse.takeWhile (fun c => c ≠ Separator)).reverse
    -- if empty now, it had only slashes
    if p2 = [] then [Separator] else p2

/-- One step of the element loop of `filepath.Clean`; `out` is the stack of the elements
written so far, the last one first. -/
def cleanStep (rooted : Bool) (out : List Str) (e : Str) : List Str :=
  if e = [] then out
  else if e = ['.'] then out
  else if e = ['.', '.'] then
    match out with
    | [] => if rooted then [] else [['.', '.']]
    | l :: rest =>
      if l = ['.', '.'] then (if rooted then out else ['.', '.'] :: out) else rest
  else e :: out

/-- Model of `filepath.Clean` on the elements of the path. -/
def Clean (path : Str) : Str :=
  if path = [] then ['.']
  else
    let rooted : Bool := path.head? = some Separator
    let out := (strings.Split Separator path).foldl (cleanStep rooted) []
    let body := strings.Join [Separator] out.reverse
    if rooted then Separator :: body
    else if body = [] then ['.'] else body

/-- Model of `filepath.Join` for two elements: empty elements are ignored and the
result is cleaned. -/
def Join (a b : Str) : Str :=
  if a = [] then (if b = [] then [] else Clean b)
  else Clean (a ++ Separator :: b)

/-- Elements that the loop of `filepath.Rel` walks over in a cleaned path. -/
def relElems (p : Str) : List Str :=
  if p = [] then [] else if p = [Separator] then [[]] else strings.Split Separator p

/-- Loop of `filepath.Rel`: drops the leading elements the two paths share. -/
def relLoop : List Str → List Str → List Str × List Str
  | b :: bs, t :: ts => if b = t then relLoop bs ts else (b :: bs, t :: ts)
  | bs, ts => (bs, ts)

/-- Model of `filepath.Rel(basepath, targpath)`; `none` is the error result. -/
def Rel (basepath targpath : Str) : Option Str :=
  let base := Clean basepath
  let targ := Clean targpath
  if targ = base then some ['.']
  else
    let base := if base = ['.'] then [] else base
    let baseSlashed : Bool := base.head? = some Separator
    let targSlashed : Bool := targ.head? = some Separator
    if baseSlashed ≠ targSlashed then none
    else
      match relLoop (relElems base) (relElems targ) with
      | (b :: bs, t :: ts) =>
        if b = ['.', '.'] then none
        else some (strings.Join [Separator]
          (List.replicate (b :: bs).length ['.', '.'] ++ (t :: ts)))
      | (b :: bs, []) =>
        some (strings.Join [Separator] (List.replicate (b :: bs).length ['.', '.']))
      | ([], ts) => some (strings.Join [Separator] ts)

end filepath

/-! ## Package `filter` -/

/-- The part of `fs.DirEntry` that the program reads. -/
structure Entry where
  name : Str
  isDir : Bool
  deriving DecidableEq, Repr

/-- The interface `gitignore.Matcher` of go-git. -/
structure Matcher where
  Match : List Str → Bool → Bool

/-- The functions of package `gitignore` of go-git that the program calls. -/
structure GitignoreLib where
  Pattern : Type
  ParsePattern : Str → Pattern
  NewMatcher : List Pattern → Matcher

/-- Go type `GitignoreFilter`; a nil matcher is `none`. -/
structure GitignoreFilter where
  matcher : Option Matcher
  baseDir : Str

/-- Go function `RelPath`. -/
def RelPath (path base : Str) : Str :=
  match filepath.Rel base path with
  | some rel => rel
  | none => path

/-- Go method `(*HiddenFilter).ShouldInclude`. -/
def HiddenFilter.ShouldInclude (path : Str) (_d : Entry) : Bool :=
  let name := filepath.Base path
  if strings.HasPrefix name ['.'] && name != ['.'] && name != ['.', '.'] then false
  else true

/-- Go method `(*DirFilter).ShouldInclude`; `ignoreDirs` holds the keys of the map. -/
def DirFilter.ShouldInclude (ignoreDirs : List Str) (path : Str) (_entry : Entry) : Bool :=
  let normalizedPath := filepath.ToSlash path
  let parts := strings.Split '/' normalizedPath
  match parts with
  | rootComponent :: _ => if rootComponent ∈ ignoreDirs then false else true
  | [] => true

/-- Go method `(*ExtensionFilter).ShouldInclude`; `extensions` holds the keys of the map. -/
def ExtensionFilter.ShouldInclude (extensions : List Str) (path : Str) (d : Entry) : Bool :=
  if d.isDir then true
  else
    let ext := strings.ToLower (filepath.Ext path)
    decide (ext ∈ extensions)

/-- Go method `(*GitignoreFilter).ShouldInclude`. -/
def GitignoreFilter.ShouldInclude (g : GitignoreFilter) (path : Str) (d : Entry) : Bool :=
  match g.matcher with
  | none => true
  | some m =>
    let relPath := filepath.ToSlash (RelPath path g.baseDir)
    let parts := strings.Split '/' relPath
    !m.Match parts d.isDir

/-- The implementations of the interface `Filter`: the four filters of the package and
any other implementation, given by its `ShouldInclude` method. -/
inductive Filter where
  | hidden
  | dir (ignoreDirs : List Str)
  | gitignore (g : GitignoreFilter)
  | extension (extensions : List Str)
  | other (f : Str → Entry → Bool)

/-- The method `ShouldInclude` of the interface `Filter`. -/
def Filter.ShouldInclude : Filter → Str → Entry → Bool
  | .hidden, p, d => HiddenFilter.ShouldInclude p d
  | .dir ds, p, d => DirFilter.ShouldInclude ds p d
  | .gitignore g, p, d => g.ShouldInclude p d
  | .extension es, p, d => ExtensionFilter.ShouldInclude es p d
  | .other f, p, d => f p d

/-- Go type `Chain`. -/
structure Chain where
  filters : List Filter

/-- Go function `NewChain`. -/
def NewChain (filters : List Filter) : Chain := ⟨filters⟩

/-- Go method `(*Chain).Add`. -/
def Chain.Add (c : Chain) (f : Filter) : Chain := ⟨c.filters ++ [f]⟩

/-- The loop of `(*Chain).ShouldInclude`. -/
def Chain.loop (path : Str) (d : Entry) : List Filter → Bool
  | [] => true
  | f :: fs => if !f.ShouldInclude path d then false else Chain.loop path d fs

/-- Go method `(*Chain).ShouldInclude`. -/
def Chain.ShouldInclude (c : Chain) (path : Str) (d : Entry) : Bool :=
  Chain.loop path d c.filters

/-- A chain used as a `Filter`. -/
def Chain.toFilter (c : Chain) : Filter := .other c.ShouldInclude


/-- Go type `Config`. -/
structure Config where
  Extensions : List Str
  IgnoreDirs : List Str
  IncludeHidden : Bool
  GitignorePath : Str
  CustomPatterns : List Str
  BaseDir : Str

/-- What opening and scanning a file gives: the file does not exist, it cannot be opened,
or its lines as `bufio.Scanner` returns them, with the error of the scanner if any. -/
inductive FileRead where
  | notExist
  | openErr (err : Str)
  | lines (ls : List Str) (scanErr : Option Str)

/-- The files of the file system, by path. -/
abbrev FileSys := Str → FileRead

/-- The loop that `loadGitignoreFile` and `NewGitignoreFilter` both run over their
lines: trim, skip blank lines and comments, parse the rest. -/
def parseLines (lib : GitignoreLib) : List Str → List lib.Pattern
  | [] => []
  | line :: rest =>
    let line := strings.TrimSpace line
    if line = [] || strings.HasPrefix line ['#'] then parseLines lib rest
    else lib.ParsePattern line :: parseLines lib rest

/-- Go function `loadGitignoreFile`. -/
def loadGitignoreFile (lib : GitignoreLib) (fsys : FileSys) (path _baseDir : Str) :
    Except Str (List lib.Pattern) :=
  match fsys path with
  | .notExist => .ok []
  | .openErr err => .error err
  | .lines ls scanErr =>
    match scanErr with
    | some err => .error err
    | none => .ok (parseLines lib ls)

/-- Go function `NewGitignoreFilter`. -/
def NewGitignoreFilter (lib : GitignoreLib) (fsys : FileSys)
    (baseDir gitignorePath : Str) (customPatterns : List Str) : Except Str GitignoreFilter :=
  let fromFile : Except Str (List lib.Pattern) :=
    if gitignorePath ≠ [] then
      match loadGitignoreFile lib fsys gitignorePath baseDir with
      | .error err => .error ("loading gitignore file: ".toList ++ err)
      | .ok filePatterns => .ok filePatterns
    else .ok []
  match fromFile with
  | .error err => .error err
  | .ok filePatterns =>
    let patterns := filePatterns ++ parseLines lib customPatterns
    if patterns.length = 0 then .ok { matcher := none, baseDir := baseDir }
    else .ok { matcher := some (lib.NewMatcher patterns), baseDir := baseDir }

/-- Go function `BuildChain`. -/
def BuildChain (lib : GitignoreLib) (fsys : FileSys) (cfg : Config) : Except Str Chain :=
  let chain := NewChain []
  let chain := if !cfg.IncludeHidden then chain.Add .hidden else chain
  let chain := if cfg.IgnoreDirs.length > 0 then chain.Add (.dir cfg.IgnoreDirs) else chain
  let withGit : Except Str Chain :=
    if cfg.GitignorePath ≠ [] ∨ cfg.CustomPatterns.length > 0 then
      match NewGitignoreFilter lib fsys cfg.BaseDir cfg.GitignorePath cfg.CustomPatterns with
      | .error err => .error err
      | .ok gitFilter => .ok (chain.Add (.gitignore gitFilter))
    else .ok chain
  match withGit with
  | .error err => .error err
  | .ok chain =>
    .ok (if cfg.Extensions.length > 0 then chain.Add (.extension cfg.Extensions) else chain)

/-! ## Standard library: `filepath.WalkDir` and `sort.Slice` -/

/-- A file tree as `os.Lstat` and `os.ReadDir` show it: a non-directory entry, or a
directory with the entries that `ReadDir` returned and the error it returned, if any. -/
inductive Node where
  | file (name : Str)
  | dir (name : Str) (readErr : Option Str) (children : List Node)

/-- The `fs.DirEntry` of a node. -/
def Node.entry : Node → Entry
  | .file name => ⟨name, false⟩
  | .dir name _ _ => ⟨name, true⟩

/-- What `os.Lstat` of the root of a walk gives. -/
inductive RootStat where
  | lstatErr (err : Str)
  | found (n : Node)

/-- The errors a `fs.WalkDirFunc` can return. -/
inductive WalkErr where
  | SkipDir
  | SkipAll
  | other (msg : Str)
  deriving DecidableEq, Repr

/-- The arguments `d` and `err` of a call of a `fs.WalkDirFunc`: an entry with a nil
error, or an error with the entry it is about (nil when `Lstat` of the root failed). -/
inductive WalkArg where
  | entry (d : Entry)
  | failed (d : Option Entry) (err : Str)

/-- A `fs.WalkDirFunc` acting on a state of type `σ`. -/
abbrev WalkDirFunc (σ : Type) := σ → Str → WalkArg → σ × Option WalkErr

mutual
/-- Model of `filepath.walkDir`. -/
def walkDir {σ : Type} (fn : WalkDirFunc σ) (path : Str) : Node → σ → σ × Option WalkErr
  | .file name, s => fn s path (.entry ⟨name, false⟩)
  | .dir name readErr children, s =>
    match fn s path (.entry ⟨name, true⟩) with
    | (s1, some err) => (s1, if err = .SkipDir then none else some err)
    | (s1, none) =>
      match readErr with
      | some e =>
        -- second call, to report the ReadDir error
        match fn s1 path (.failed (some ⟨name, true⟩) e) with
        | (s2, some err) => (s2, if err = .SkipDir then none else some err)
        | (s2, none) => walkDirs fn path children s2
      | none => walkDirs fn path children s1
/-- The loop of `filepath.walkDir` over the entries of a directory. -/
def walkDirs {σ : Type} (fn : WalkDirFunc σ) (path : Str) : List Node → σ → σ × Option WalkErr
  | [], s => (s, none)
  | d1 :: rest, s =>
    match walkDir fn (filepath.Join path d1.entry.name) d1 s with
    | (s1, some err) => if err = .SkipDir then (s1, none) else (s1, some err)
    | (s1, none) => walkDirs fn path rest s1
end

/-- Model of `filepath.WalkDir`. -/
def WalkDir {σ : Type} (fn : WalkDirFunc σ) (root : Str) (st : RootStat) (s : σ) :
    σ × Option WalkErr :=
  let r := match st with
    | .lstatErr e => fn s root (.failed none e)
    | .found n => walkDir fn root n s
  match r with
  | (s1, some .SkipDir) => (s1, none)
  | (s1, some .SkipAll) => (s1, none)
  | (s1, err) => (s1, err)

/-- Model of `sort.Slice`: the slice sorted by `less`. -/
def sortSlice (less : Str → Str → Bool) (xs : List Str) : List Str :=
  xs.insertionSort (fun a b => less b a = false)

/-! ## Package `scanner` -/

/-- Go type `Scanner`. -/
structure Scanner where
  baseDir : Str
  filter : Filter

/-- Go function `scanner.New`. -/
def Scanner.New (baseDir : Str) (f : Filter) : Scanner := ⟨baseDir, f⟩

/-- The function that `Scan` hands to `filepath.WalkDir`; the state is the slice `files`.
The warning written to standard error is not part of the model. -/
def Scanner.visit (s : Scanner) : WalkDirFunc (List Str) :=
  fun files path a =>
    match a with
    | .failed _ _ => (files, none)
    | .entry d =>
      if !s.filter.ShouldInclude path d then
        if d.isDir then (files, some .SkipDir) else (files, none)
      else if !d.isDir then (files ++ [path], none)
      else (files, none)

/-- Go method `(*Scanner).Scan`, on the file tree found at the base directory. -/
def Scanner.Scan (s : Scanner) (st : RootStat) : Except WalkErr (List Str) :=
  match WalkDir s.visit s.baseDir st [] with
  | (_, some err) => .error err
  | (files, none) =>
    .ok (sortSlice (fun a b => decide (RelPath a s.baseDir < RelPath b s.baseDir)) files)

/-! ## Specification vocabulary -/

/-- The first `/`-separated component of a path: its longest prefix without a slash. -/
def firstComponent (p : Str) : Str := p.takeWhile (fun c => c ≠ '/')

/-- The last element of a path: what follows its final slash. -/
def lastElement (p : Str) : Str := (p.reverse.takeWhile (fun c => c ≠ '/')).reverse

/-- The suffix of a path element that starts at its final dot, empty when it has no dot. -/
def finalDotSuffix (e : Str) : Str :=
  if '.' ∈ e then '.' :: (e.reverse.takeWhile (fun c => c ≠ '.')).reverse else []

/-- The denylist of the tests of `DirFilter`. -/
def testIgnoreDirs : List Str := ["node_modules".toList, "vendor".toList, ".git".toList]

/-- The extension set of the tests of `ExtensionFilter`. -/
def testExtensions : List Str := [".go".toList, ".rs".toList, ".py".toList]

/-! ## Specification vocabulary for trees and paths, and test data -/

/-- The filters `BuildChain` has added before the gitignore filter. -/
def chainHead (cfg : Config) : List Filter :=
  (if cfg.IncludeHidden = false then [Filter.hidden] else [])
    ++ (if cfg.IgnoreDirs ≠ [] then [Filter.dir cfg.IgnoreDirs] else [])

/-- The filter `BuildChain` adds after the gitignore filter. -/
def chainTail (cfg : Config) : List Filter :=
  if cfg.Extensions ≠ [] then [Filter.extension cfg.Extensions] else []

/-- The gitignore library used where no pattern is ever parsed. -/
def noGitignore : GitignoreLib :=
  { Pattern := Unit, ParsePattern := fun _ => (), NewMatcher := fun _ => ⟨fun _ _ => false⟩ }

/-- A file system without files. -/
def emptyFileSys : FileSys := fun _ => .notExist

/-- The configuration of the test "Build with ignore dirs". -/
def testConfig : Config :=
  { Extensions := [".go".toList, ".js".toList],
    IgnoreDirs := ["node_modules".toList, "vendor".toList],
    IncludeHidden := false, GitignorePath := [], CustomPatterns := [],
    BaseDir := "/project".toList }

/-- A configuration with nothing configured but the base directory. -/
def bareConfig : Config :=
  { Extensions := [], IgnoreDirs := [], IncludeHidden := true, GitignorePath := [],
    CustomPatterns := [], BaseDir := "/project".toList }

/-- An entry of a file tree as the walk meets it: its path, its `fs.DirEntry`, and the
directories on the way from the root of the walk down to its parent, the root first. -/
structure Visit where
  path : Str
  entry : Entry
  ancestors : List (Str × Entry)

mutual
/-- The entries at or below a node that lies at `path` under the directories `anc`. -/
def Node.visits (path : Str) (anc : List (Str × Entry)) : Node → List Visit
  | .file name => [⟨path, ⟨name, false⟩, anc⟩]
  | .dir name _ children =>
    ⟨path, ⟨name, true⟩, anc⟩ :: visitsOf path (anc ++ [(path, ⟨name, true⟩)]) children
/-- The entries at or below the children of the directory at `path`. -/
def visitsOf (path : Str) (anc : List (Str × Entry)) : List Node → List Visit
  | [] => []
  | c :: cs => c.visits (filepath.Join path c.entry.name) anc ++ visitsOf path anc cs
end

/-- The entries at or below the base directory `b`. -/
def RootStat.visits (b : Str) : RootStat → List Visit
  | .lstatErr _ => []
  | .found n => n.visits b []

/-- The filter accepts every directory on the way down to the entry. -/
def Visit.reached (F : Filter) (v : Visit) : Bool :=
  v.ancestors.all (fun a => F.ShouldInclude a.1 a.2)

/-- The entry is a file that the filter accepts and the walk reaches. -/
def Visit.collected (F : Filter) (v : Visit) : Bool :=
  !v.entry.isDir && F.ShouldInclude v.path v.entry && v.reached F

mutual
/-- The paths that the walk of `Scan` appends below a node, in the order of the walk. -/
def emitted (F : Filter) (path : Str) : Node → List Str
  | .file name => if F.ShouldInclude path ⟨name, false⟩ then [path] else []
  | .dir name _ children =>
    if F.ShouldInclude path ⟨name, true⟩ then emittedOf F path children else []
/-- The paths that the walk of `Scan` appends below the children of a directory. -/
def emittedOf (F : Filter) (path : Str) : List Node → List Str
  | [] => []
  | c :: cs => emitted F (filepath.Join path c.entry.name) c ++ emittedOf F path cs
end

/-- A name that `ReadDir` can return: not empty, without a slash, neither `.` nor `..`. -/
def niceName (n : Str) : Prop := n ≠ [] ∧ '/' ∉ n ∧ n ≠ ['.'] ∧ n ≠ ['.', '.']

instance : DecidablePred niceName := fun n => by unfold niceName; infer_instance

/-- The path of the entry `n` of the directory whose cleaned path is `p`. -/
def joinClean (p n : Str) : Str :=
  if p = ['.'] then n else if p = ['/'] then '/' :: n else p ++ '/' :: n

/-- What `WalkDir` puts in front of the names of the entries of the directory `p`. -/
def dirPrefix (p : Str) : Str :=
  if p = ['.'] then [] else if p = ['/'] then ['/'] else p ++ ['/']

mutual
/-- The names of the entries of every directory of the tree are names that `ReadDir`
can return, and no directory has two entries of the same name. -/
def Node.wellFormed : Node → Bool
  | .file _ => true
  | .dir _ _ children =>
    wellFormedList children && decide ((children.map (fun c => c.entry.name)).Nodup)
/-- Every node of the list has a name `ReadDir` can return and is well formed. -/
def wellFormedList : List Node → Bool
  | [] => true
  | c :: cs => decide (niceName c.entry.name) && c.wellFormed && wellFormedList cs
end

/-- Well-formedness of what lies at the base directory. -/
def RootStat.wellFormed : RootStat → Bool
  | .lstatErr _ => true
  | .found n => n.wellFormed

/-- Nothing, or a slash and more: what follows the name of an entry in the paths of
the entries at or below it. -/
def isTail (s : Str) : Prop := s = [] ∨ ∃ y, s = '/' :: y

/-- What holds of every element that `Clean` keeps. -/
def keptElem (e : Str) : Prop := e ≠ [] ∧ e ≠ ['.'] ∧ '/' ∉ e

/-- Below a `..` element of the stack of `Clean` there are only `..` elements. -/
def dotdotStack (out : List Str) : Prop :=
  List.Chain' (fun a b => a = ['.', '.'] → b = ['.', '.']) out

/-- The filter `skipDirFilter` of the scanner tests: rejects the directories whose base
name is `skipDir`. -/
def skipDirFilter (skipDir : Str) : Filter :=
  .other (fun path d => if d.isDir && filepath.Base path == skipDir then false else true)

/-- The tree of the test "Scan with SkipDir". -/
def skipDirTree : Node :=
  .dir "t".toList none
    [.dir "ignore".toList none [.dir "nested".toList none [], .file "skip.go".toList],
     .file "main.go".toList]

/-- The entry ignore/skip.go of the tree of the test "Scan with SkipDir". -/
def skipGoVisit : Visit :=
  ⟨"/t/ignore/skip.go".toList, ⟨"skip.go".toList, false⟩,
    [("/t".toList, ⟨"t".toList, true⟩), ("/t/ignore".toList, ⟨"ignore".toList, true⟩)]⟩

/-- A configuration that denies `node_modules` and asks for `.js` files. -/
def denylistConfig (baseDir : Str) : Config :=
  { Extensions := [".js".toList], IgnoreDirs := ["node_modules".toList],
    IncludeHidden := false, GitignorePath := [], CustomPatterns := [], BaseDir := baseDir }

/-- The chain `BuildChain` returns for `denylistConfig`. -/
def denylistChain : Chain :=
  ⟨[Filter.hidden, Filter.dir ["node_modules".toList], Filter.extension [".js".toList]]⟩

/-- A project directory holding main.js and node_modules/index.js. -/
def projTree (name : Str) : Node :=
  .dir name none [.file "main.js".toList, .dir "node_modules".toList none [.file "index.js".toList]]

/-- The filter `allowAllFilter` of the scanner tests. -/
def allowAllFilter : Filter := .other (fun _ _ => true)

/-- The tree of the test "Results are sorted", its files in the order of the test. -/
def sortedTree : Node :=
  .dir "t".toList none
    [.file "z.go".toList, .file "a.go".toList, .file "m.go".toList, .file "b.go".toList]

/-- The tree of the test "Scan excludes directories". -/
def srcTree : Node :=
  .dir "t".toList none [.file "main.go".toList, .dir "src".toList none []]

mutual
/-- Two trees that differ only by the order in which the entries of their directories are
enumerated. -/
inductive TreePerm : Node → Node → Prop where
  | file (name : Str) : TreePerm (.file name) (.file name)
  | dir (name : Str) (readErr : Option Str) {cs ds : List Node} :
      ChildrenPerm cs ds → TreePerm (.dir name readErr cs) (.dir name readErr ds)
/-- Two lists of entries that differ by a permutation and, entry by entry, by the order
of enumeration below. -/
inductive ChildrenPerm : List Node → List Node → Prop where
  | nil : ChildrenPerm [] []
  | cons {c d : Node} {cs ds : List Node} :
      TreePerm c d → ChildrenPerm cs ds → ChildrenPerm (c :: cs) (d :: ds)
  | swap (a b : Node) (l : List Node) : ChildrenPerm (a :: b :: l) (b :: a :: l)
  | trans {l1 l2 l3 : List Node} :
      ChildrenPerm l1 l2 → ChildrenPerm l2 l3 → ChildrenPerm l1 l3
end

/-- The tree of the test "Results are sorted" with its first two files enumerated in the
other order. -/
def sortedTreeSwapped : Node :=
  .dir "t".toList none
    [.file "a.go".toList, .file "z.go".toList, .file "m.go".toList, .file "b.go".toList]

/-- The configuration of the end-to-end scenario: the extension `.go`, hidden entries
excluded, no ignored directories, no gitignore file, no custom patterns. -/
def goConfig (baseDir : Str) : Config :=
  { Extensions := [".go".toList], IgnoreDirs := [], IncludeHidden := false,
    GitignorePath := [], CustomPatterns := [], BaseDir := baseDir }

/-- The chain `BuildChain` returns for `goConfig`. -/
def goChain : Chain := ⟨[Filter.hidden, Filter.extension [".go".toList]]⟩

/-- A directory that holds exactly the regular files of the end-to-end scenario, in the
order in which `ReadDir` returns them. -/
def fourFilesTree (name : Str) : Node :=
  .dir name none
    [.file "README.md".toList, .file "main.go".toList, .file "test.txt".toList,
     .file "util.go".toList]

/-! ## Standard library: `filepath.Match` -/

namespace filepath

/-- One item of a `filepath.Match` pattern: a literal character, `?`, `*`, or a character
class with its ranges. -/
inductive GlobTok where
  | lit (c : Char)
  | any
  | star
  | cls (negated : Bool) (ranges : List (Char × Char))
  deriving DecidableEq, Repr

/-- Where the reading of a `filepath.Match` pattern stands: outside a class, after a
backslash, or inside a class; `bad` is `ErrBadPattern`. -/
inductive GlobMode where
  | normal
  | escape
  | classOpen
  | classStart (negated : Bool) (acc : List (Char × Char))
  | classEscLo (negated : Bool) (acc : List (Char × Char))
  | classLo (negated : Bool) (acc : List (Char × Char)) (lo : Char)
  | classDash (negated : Bool) (acc : List (Char × Char)) (lo : Char)
  | classEscHi (negated : Bool) (acc : List (Char × Char)) (lo : Char)
  | bad
  deriving DecidableEq, Repr

/-- Reading of one character where a range of a class can start. -/
def classStep (toks : List GlobTok) (negated : Bool) (acc : List (Char × Char)) (c : Char) :
    List GlobTok × GlobMode :=
  if c = ']' then
    (if acc = [] then (toks, .bad) else (toks ++ [.cls negated acc.reverse], .normal))
  else if c = '-' then (toks, .bad)
  else if c = '\\' then (toks, .classEscLo negated acc)
  else (toks, .classLo negated acc c)

/-- Reading of one character of a `filepath.Match` pattern. -/
def globStep (st : List GlobTok × GlobMode) (c : Char) : List GlobTok × GlobMode :=
  match st with
  | (toks, .normal) =>
    if c = '*' then (toks ++ [.star], .normal)
    else if c = '?' then (toks ++ [.any], .normal)
    else if c = '\\' then (toks, .escape)
    else if c = '[' then (toks, .classOpen)
    else (toks ++ [.lit c], .normal)
  | (toks, .escape) => (toks ++ [.lit c], .normal)
  | (toks, .classOpen) =>
    if c = '^' then (toks, .classStart true []) else classStep toks false [] c
  | (toks, .classStart negated acc) => classStep toks negated acc c
  | (toks, .classEscLo negated acc) => (toks, .classLo negated acc c)
  | (toks, .classLo negated acc lo) =>
    if c = '-' then (toks, .classDash negated acc lo)
    else classStep toks negated ((lo, lo) :: acc) c
  | (toks, .classDash negated acc lo) =>
    if c = '-' ∨ c = ']' then (toks, .bad)
    else if c = '\\' then (toks, .classEscHi negated acc lo)
    else (toks, .classStart negated ((lo, c) :: acc))
  | (toks, .classEscHi negated acc lo) => (toks, .classStart negated ((lo, c) :: acc))
  | (toks, .bad) => (toks, .bad)

/-- The items of a `filepath.Match` pattern; `none` for a malformed pattern. -/
def globToks (pattern : Str) : Option (List GlobTok) :=
  match pattern.foldl globStep ([], .normal) with
  | (toks, .normal) => some toks
  | _ => none

/-- The name after a `*`: the rest of the pattern is tried at every position that the
star can reach without passing a separator. -/
def starLoop (f : Str → Bool) : Str → Bool
  | [] => f []
  | c :: cs => f (c :: cs) || (c != Separator && starLoop f cs)

/-- Matching of the items of a pattern against a name. -/
def matchToks : List GlobTok → Str → Bool
  | [], name => name.isEmpty
  | .star :: ts, name => starLoop (matchToks ts) name
  | .any :: ts, name =>
    match name with
    | [] => false
    | c :: cs => c != Separator && matchToks ts cs
  | .lit c :: ts, name =>
    match name with
    | [] => false
    | d :: cs => c == d && matchToks ts cs
  | .cls negated ranges :: ts, name =>
    match name with
    | [] => false
    | c :: cs => (ranges.any (fun r => r.1 ≤ c && c ≤ r.2) != negated) && matchToks ts cs

/-- Model of `filepath.Match(pattern, name)`: `none` is `ErrBadPattern`. -/
def Match (pattern name : Str) : Option Bool :=
  match globToks pattern with
  | none => none
  | some toks => some (matchToks toks name)

end filepath

/-! ## Package `gitignore` of go-git -/

namespace gitignore

/-- Modelled from the spec: the result of matching one pattern of package `gitignore` of
go-git, which the sources import and do not contain: no match, a match of a plain
pattern, a match of a negated pattern (§3, §4.1 of the specification). -/
inductive MatchResult where
  | NoMatch
  | Exclude
  | Include
  deriving DecidableEq, Repr

/-- Modelled from the spec: a pattern of package `gitignore` of go-git (not among the
sources): its segments, the negation flag (a leading `!`), the directory-only flag (a
trailing `/`) and the anchoring flag (a `/` inside the pattern), as §3 describes it. -/
structure Pattern where
  domain : List Str
  pattern : List Str
  inclusion : Bool
  dirOnly : Bool
  isGlob : Bool
  deriving DecidableEq, Repr

/-- Modelled from the spec: `strings.TrimRight(p, " ")` as `ParsePattern` uses it. -/
def trimRightSpaces (p : Str) : Str := (p.reverse.dropWhile (fun c => c = ' ')).reverse

/-- Modelled from the spec: `gitignore.ParsePattern(p, nil)` of go-git (not among the
sources): a leading `!` negates, a trailing `/` restricts the pattern to directories, a
`/` left inside anchors it, and the text is split into its segments (§3, §4.1). -/
def ParsePattern (p : Str) : Pattern :=
  let inclusion := strings.HasPrefix p ['!']
  let p := if inclusion then p.drop 1 else p
  let p := if p.reverse.take 2 = [' ', '\\'] then p else trimRightSpaces p
  let dirOnly := p.getLast? = some '/'
  let p := if dirOnly then p.dropLast else p
  { domain := [], pattern := strings.Split '/' p, inclusion := inclusion,
    dirOnly := dirOnly, isGlob := decide ('/' ∈ p) }

/-- Modelled from the spec: the match of a pattern without a slash, which is compared
with the segments of the path, the final one included; a directory-only pattern does not
match the final segment of a file (§4.1). -/
def simpleNameMatch (p : Pattern) (isDir : Bool) : List Str → Bool
  | [] => false
  | name :: rest =>
    match filepath.Match (p.pattern.headD []) name with
    | none => false
    | some false => simpleNameMatch p isDir rest
    | some true => if p.dirOnly && !isDir && rest.isEmpty then false else true

/-- Modelled from the spec: substring test for `**` inside a segment of a pattern. -/
def hasStarStar : Str → Bool
  | [] => false
  | c :: cs => (c == '*' && cs.head? == some '*') || hasStarStar cs

/-- Modelled from the spec: after a `**` segment, the search through the segments of the
path for one that matches the next segment of the pattern; `none` is a malformed
pattern, otherwise whether a segment matched and the segments left. -/
def traverse (pat : Str) : List Str → Option (Bool × List Str)
  | [] => some (false, [])
  | e :: rest =>
    match filepath.Match pat e with
    | none => none
    | some true => some (true, rest)
    | some false => traverse pat rest

/-- Modelled from the spec: the segment-by-segment match of an anchored pattern from the
start of the path, `*` standing for one segment at most and `**` for any number of
segments (§4.1); `none` is the early failure, otherwise whether the last segment tried
matched and the segments of the path left. -/
def globParts : List Str → List Str → Bool → Bool → Option (Bool × List Str)
  | [], path, matched, _ => some (matched, path)
  | pat :: rest, path, matched, canTraverse =>
    if pat = [] then globParts rest path matched false
    else if pat = ['*', '*'] then
      (if rest.isEmpty then some (matched, path) else globParts rest path matched true)
    else if hasStarStar pat then none
    else if path.isEmpty then none
    else if canTraverse then
      match traverse pat path with
      | none => none
      | some (m, path1) => globParts rest path1 m false
    else
      match path with
      | [] => none
      | e :: path1 =>
        match filepath.Match pat e with
        | some true => globParts rest path1 true false
        | _ => none

/-- Modelled from the spec: the match of an anchored pattern (§4.1). -/
def globMatch (p : Pattern) (path : List Str) (isDir : Bool) : Bool :=
  match globParts p.pattern path false false with
  | none => false
  | some (matched, path1) =>
    if matched && p.dirOnly && !isDir && path1.isEmpty then false else matched

/-- Modelled from the spec: the method `Match` of a pattern of go-git (§4.1). -/
def Pattern.Match (p : Pattern) (path : List Str) (isDir : Bool) : MatchResult :=
  if path.length ≤ p.domain.length then .NoMatch
  else if (p.domain.zip path).any (fun x => x.1 != x.2) then .NoMatch
  else
    let path := path.drop p.domain.length
    if p.isGlob && !globMatch p path isDir then .NoMatch
    else if !p.isGlob && !simpleNameMatch p isDir path then .NoMatch
    else if p.inclusion then .Include
    else .Exclude

/-- Modelled from the spec: the loop of the matcher of go-git, from the last pattern to
the first: the last pattern that matches decides, a plain pattern excluding and a negated
one including; without a match the path is not excluded (§3, §4.1). -/
def matchLoop (path : List Str) (isDir : Bool) : List Pattern → Bool
  | [] => false
  | p :: earlier =>
    match p.Match path isDir with
    | .NoMatch => matchLoop path isDir earlier
    | .Exclude => true
    | .Include => false

/-- Modelled from the spec: `gitignore.NewMatcher(patterns)` of go-git. -/
def NewMatcher (patterns : List Pattern) : Matcher :=
  ⟨fun path isDir => matchLoop path isDir patterns.reverse⟩

end gitignore

/-- Modelled from the spec: the package `gitignore` of go-git as the program uses it. -/
def goGit : GitignoreLib :=
  { Pattern := gitignore.Pattern, ParsePattern := gitignore.ParsePattern,
    NewMatcher := gitignore.NewMatcher }

/-- The gitignore filter that `NewGitignoreFilter` builds from a list of patterns. -/
def gitFilterOf (lib : GitignoreLib) (patterns : List lib.Pattern) (baseDir : Str) :
    GitignoreFilter :=
  if patterns.length = 0 then { matcher := none, baseDir := baseDir }
  else { matcher := some (lib.NewMatcher patterns), baseDir := baseDir }

/-- The segments that `GitignoreFilter.ShouldInclude` hands to the matcher. -/
def gitParts (path baseDir : Str) : List Str :=
  strings.Split '/' (filepath.ToSlash (RelPath path baseDir))

/-- The last pattern of a list that matches a path, if any. -/
def lastMatching (patterns : List gitignore.Pattern) (parts : List Str) (isDir : Bool) :
    Option gitignore.Pattern :=
  (patterns.filter (fun p => p.Match parts isDir != .NoMatch)).getLast?

/-- A line that `loadGitignoreFile` and `NewGitignoreFilter` keep: after the trimming of
the white space around it, it is not empty and does not begin with `#`. -/
def keepLine (line : Str) : Bool :=
  !(strings.TrimSpace line = [] || strings.HasPrefix (strings.TrimSpace line) ['#'])

/-- The patterns that `NewGitignoreFilter` reads from the gitignore file: none without a
path or without a file, `none` when the file cannot be read. -/
def filePatterns (lib : GitignoreLib) (fsys : FileSys) (gitignorePath : Str) :
    Option (List lib.Pattern) :=
  if gitignorePath = [] then some []
  else
    match fsys gitignorePath with
    | .notExist => some []
    | .openErr _ => none
    | .lines ls scanErr => if scanErr.isSome then none else some (parseLines lib ls)

/-- The gitignore file of the test "valid gitignore": three patterns, two comments and
an empty line. -/
def validGitignore : List Str :=
  ["# Comment".toList, "*.log".toList, "build/".toList, [], "# Another comment".toList,
   "temp/*".toList]

/-- A file system whose every path holds the given lines. -/
def fileWith (ls : List Str) : FileSys := fun _ => .lines ls none

/-- A gitignore library that keeps the text of each pattern and matches nothing: it
shows the list of patterns handed to the matcher. -/
def textPatterns : GitignoreLib :=
  { Pattern := Str, ParsePattern := fun p => p, NewMatcher := fun _ => ⟨fun _ _ => false⟩ }

/-- The path that `WalkDir` gives to the entry reached from the base directory through
the entries of the given names. -/
def joinAll (b : Str) (names : List Str) : Str := names.foldl filepath.Join b

/-- The gitignore filter over the single pattern `*.log`. -/
def starLogFilter (baseDir : Str) : GitignoreFilter :=
  gitFilterOf goGit [gitignore.ParsePattern "*.log".toList] baseDir

/-- The gitignore filter over the single pattern `build/`. -/
def buildDirFilter (baseDir : Str) : GitignoreFilter :=
  gitFilterOf goGit [gitignore.ParsePattern "build/".toList] baseDir

/-! ## Package `cmd` -/

/-- The loop of `handleCommaSeparatedValues` over the parts of the string. -/
def commaLoop : List Str → List Str
  | [] => []
  | part :: rest =>
    let t := strings.TrimSpace part
    if t ≠ [] then t :: commaLoop rest else commaLoop rest

/-- Go function `handleCommaSeparatedValues`. -/
def handleCommaSeparatedValues (s : Str) : List Str :=
  commaLoop (strings.Split ',' s)

/-- Go function `normalizeExt`. -/
def normalizeExt (e : Str) : Str :=
  let e := strings.TrimSpace e
  if e = [] then []
  else
    let e := if !strings.HasPrefix e ['.'] then '.' :: e else e
    strings.ToLower e

/-- The assignment `extSet[key] = struct{}{}` on the list of the keys of the map. -/
def insertKey (extSet : List Str) (key : Str) : List Str :=
  if key ∈ extSet then extSet else extSet ++ [key]

/-- The inner loop of `processExtensions`, over the tokens of one argument. -/
def tokenLoop (extSet : List Str) : List Str → Except Str (List Str)
  | [] => .ok extSet
  | tok :: rest =>
    let ext := normalizeExt tok
    if ext = [] || !strings.HasPrefix ext ['.'] then
      .error "each --ext must start with a dot, e.g. .rs or .py".toList
    else tokenLoop (insertKey extSet (strings.ToLower ext)) rest

/-- The outer loop of `processExtensions`, over the arguments. -/
def rawLoop (extSet : List Str) : List Str → Except Str (List Str)
  | [] => .ok extSet
  | raw :: rest =>
    match tokenLoop extSet (handleCommaSeparatedValues raw) with
    | .error err => .error err
    | .ok extSet1 => rawLoop extSet1 rest

/-- Go function `processExtensions`; the map it returns is the list of its keys. -/
def processExtensions (rawExts : List Str) : Except Str (List Str) :=
  match rawLoop [] rawExts with
  | .error err => .error err
  | .ok extSet =>
    if extSet.length = 0 then .error "no valid extensions provided".toList
    else .ok extSet

/-- The extension argument made of a dot and the rune U+1D400, the mathematical bold
capital A. -/
def mathBoldA : Str := ['.', Char.ofNat 0x1D400]

/-! ## Package `processor` -/

/-- Go type `FileInfo`; the byte slice `Content` is modelled by the text it holds. -/
structure FileInfo where
  Path : Str
  RelPath : Str
  Content : Str
  Ext : Str
  deriving DecidableEq, Repr

/-- Go type `Options`. -/
structure Options where
  BaseDir : Str
  HeadingLevel : Int
  IncludeErrors : Bool
  deriving DecidableEq, Repr

/-- Go function `relPathOr`. -/
def relPathOr (path base : Str) : Str :=
  match filepath.Rel base path with
  | some rel => rel
  | none => path

/-- What `os.ReadFile` gives for each path: the content, or the text of the error. -/
abbrev ReadFile := Str → Except Str Str

/-- A file system without files: every read fails. -/
def noFiles : ReadFile := fun _ => .error "no such file or directory".toList

/-- The loop of `LoadFiles`. -/
def loadLoop (readFile : ReadFile) (baseDir : Str) (infos : List FileInfo) :
    List Str → List FileInfo
  | [] => infos
  | path :: rest =>
    match readFile path with
    | .error err =>
      loadLoop readFile baseDir
        (infos ++ [{ Path := path, RelPath := relPathOr path baseDir,
                     Content := "ERROR: could not read file: ".toList ++ err,
                     Ext := filepath.Ext path }]) rest
    | .ok content =>
      loadLoop readFile baseDir
        (infos ++ [{ Path := path, RelPath := relPathOr path baseDir,
                     Content := content, Ext := filepath.Ext path }]) rest

/-- Go function `LoadFiles`. -/
def LoadFiles (readFile : ReadFile) (paths : List Str) (baseDir : Str) :
    Except Str (List FileInfo) :=
  .ok (loadLoop readFile baseDir [] paths)

/-- Go function `clamp`. -/
def clamp (v lo hi : Int) : Int :=
  if v < lo then lo
  else if v > hi then hi
  else v

/-- The map `langMap` of `inferLanguage`. -/
def langMap : List (Str × Str) :=
  [(".go".toList, "go".toList), (".rs".toList, "rust".toList), (".py".toList, "python".toList),
   (".js".toList, "javascript".toList), (".ts".toList, "typescript".toList),
   (".java".toList, "java".toList), (".c".toList, "c".toList), (".cpp".toList, "cpp".toList),
   (".cs".toList, "csharp".toList), (".rb".toList, "ruby".toList), (".php".toList, "php".toList),
   (".sh".toList, "bash".toList), (".bash".toList, "bash".toList), (".zsh".toList, "bash".toList),
   (".html".toList, "html".toList), (".css".toList, "css".toList),
   (".scss".toList, "scss".toList), (".json".toList, "json".toList),
   (".yaml".toList, "yaml".toList), (".yml".toList, "yaml".toList), (".xml".toList, "xml".toList),
   (".toml".toList, "toml".toList), (".sql".toList, "sql".toList),
   (".md".toList, "markdown".toList), (".txt".toList, "text".toList)]

/-- Go function `inferLanguage`. -/
def inferLanguage (ext : Str) : Str :=
  let ext := strings.ToLower ext
  let ext := if !strings.HasPrefix ext ['.'] then '.' :: ext else ext
  match langMap.lookup ext with
  | some lang => lang
  | none => []

/-- Model of `strings.Repeat(s, count)` for a count that is not negative. -/
def repeatStr (s : Str) : Nat → Str
  | 0 => []
  | n + 1 => s ++ repeatStr s n

/-- The body of the loop of `MarkdownProcessor.Process`: what one file adds to the
buffer `out`. -/
def writeFile (heading : Str) (out : Str) (file : FileInfo) : Str :=
  let relPath := filepath.ToSlash file.RelPath
  let out := out ++ (heading ++ " ".toList ++ relPath ++ "\n".toList)
  let lang := inferLanguage file.Ext
  let out := out ++ ("```".toList ++ lang ++ "\n".toList)
  let out := out ++ file.Content
  let out :=
    if file.Content.length = 0 || file.Content.getLast? != some '\n' then out ++ ['\n'] else out
  out ++ "```\n\n".toList

/-- Go method `(*MarkdownProcessor).Process`. -/
def MarkdownProcessor.Process (files : List FileInfo) (opts : Options) : Except Str Str :=
  if files.length = 0 then .ok "_No files found._\n".toList
  else
    let headingLevel := clamp opts.HeadingLevel 1 6
    let heading := repeatStr ['#'] headingLevel.toNat
    .ok (files.foldl (writeFile heading) [])

/-- The text `MarkdownProcessor.Process` writes for one file. -/
def fileBlock (level : Int) (file : FileInfo) : Str :=
  List.replicate (min (max level 1) 6).toNat '#' ++ " ".toList
    ++ filepath.ToSlash file.RelPath ++ "\n".toList
    ++ "```".toList ++ inferLanguage file.Ext ++ "\n".toList
    ++ file.Content
    ++ (if file.Content = [] ∨ file.Content.getLast? ≠ some '\n' then "\n".toList else [])
    ++ "```\n\n".toList

/-- The file of the test of the heading levels. -/
def headingTestFile : FileInfo :=
  { Path := [], RelPath := "test.go".toList, Content := "test".toList, Ext := ".go".toList }

mutual
/-- The tree with the errors of `ReadDir` taken away: the same entries, read without
error. -/
def Node.clearErrors : Node → Node
  | .file name => .file name
  | .dir name _ children => .dir name none (clearErrorsList children)
/-- The entries with the errors of `ReadDir` taken away. -/
def clearErrorsList : List Node → List Node
  | [] => []
  | c :: cs => c.clearErrors :: clearErrorsList cs
end

/-- A tree whose directory locked cannot be read and whose directory partial is read in
part, with an error. -/
def failingTree : Node :=
  .dir "t".toList none
    [.dir "locked".toList (some "permission denied".toList) [],
     .file "main.go".toList,
     .dir "partial".toList (some "input/output error".toList) [.file "seen.go".toList]]

/-- A base directory that holds the file main.go and the hidden directory .git with
the file config. -/
def hiddenGitTree : Node :=
  .dir "p".toList none
    [.dir ".git".toList none [.file "config".toList], .file "main.go".toList]

/-! ## Lemmas on the library model -/

/-! ## Lemmas on `unicode.ToLower` -/

set_option maxHeartbeats 4000000 in
set_option maxRecDepth 1000000 in
theorem caseRanges_ok : unicode.rowsOk unicode.caseRanges = true := by decide

theorem toNat_ofNat_valid (m : Nat) (h : m < 0xD800 ∨ (0xDFFF < m ∧ m < 0x110000)) :
    (Char.ofNat m).toNat = m := by
  have hv : m.isValidChar := h
  simp only [Char.ofNat, hv, dite_true]
  rfl

theorem lower_mem_image (cr : unicode.CaseRange) (r : Nat) (hw : cr.wellFormed = true)
    (h1 : cr.Lo ≤ r) (h2 : r ≤ cr.Hi) :
    cr.imageLo ≤ cr.lower r ∧ cr.lower r ≤ cr.imageHi := by
  obtain ⟨lo, hi, delta⟩ := cr
  cases delta with
  | upperLower =>
    simp only [unicode.CaseRange.wellFormed, Bool.and_eq_true, Nat.ble_eq] at hw
    have hodd := Nat.eq_of_beq_eq_true hw.2
    simp only [unicode.CaseRange.imageLo, unicode.CaseRange.imageHi,
      unicode.CaseRange.lower] at h1 h2 ⊢
    omega
  | add n =>
    simp only [unicode.CaseRange.imageLo, unicode.CaseRange.imageHi,
      unicode.CaseRange.lower] at h1 h2 ⊢
    omega
  | sub n =>
    simp only [unicode.CaseRange.wellFormed, Bool.and_eq_true, Nat.ble_eq] at hw
    simp only [unicode.CaseRange.imageLo, unicode.CaseRange.imageHi,
      unicode.CaseRange.lower] at h1 h2 ⊢
    omega

theorem lower_fixed_of_pairOk (cr cr2 : unicode.CaseRange) (r : Nat)
    (hw : cr.wellFormed = true) (h1 : cr.Lo ≤ r) (h2 : r ≤ cr.Hi)
    (hp : unicode.pairOk cr cr2 = true) :
    cr.lower r < cr2.Lo ∨ cr2.Hi < cr.lower r ∨ cr2.lower (cr.lower r) = cr.lower r := by
  obtain ⟨ha, hb⟩ := lower_mem_image cr r hw h1 h2
  unfold unicode.pairOk at hp
  simp only [Bool.or_eq_true, Bool.and_eq_true, Nat.blt_eq] at hp
  rcases hp with (hp | hp) | ⟨⟨hu1, hu2⟩, hlo⟩
  · exact Or.inl (by omega)
  · exact Or.inr (Or.inl (by omega))
  · right; right
    obtain ⟨lo, hi, delta⟩ := cr
    obtain ⟨lo2, hi2, delta2⟩ := cr2
    cases delta with
    | upperLower =>
      cases delta2 with
      | upperLower =>
        have hlo2 : lo2 = lo := Nat.eq_of_beq_eq_true hlo
        simp only [unicode.CaseRange.lower] at h1 h2 ⊢
        subst hlo2
        omega
      | add n => exact Bool.noConfusion hu2
      | sub n => exact Bool.noConfusion hu2
    | add n => exact Bool.noConfusion hu1
    | sub n => exact Bool.noConfusion hu1

theorem To_fixed (rows : List unicode.CaseRange) (m : Nat)
    (h : ∀ cr2 ∈ rows, m < cr2.Lo ∨ cr2.Hi < m ∨ cr2.lower m = m) :
    unicode.To rows m = m := by
  induction rows with
  | nil => rfl
  | cons cr rest ih =>
    unfold unicode.To
    by_cases hc : cr.Lo ≤ m ∧ m ≤ cr.Hi
    · rw [if_pos hc]
      rcases h cr (List.mem_cons_self _ _) with h1 | h1 | h1
      · omega
      · omega
      · exact h1
    · rw [if_neg hc]
      exact ih (fun cr2 hcr2 => h cr2 (List.mem_cons_of_mem _ hcr2))

theorem To_cases (rows : List unicode.CaseRange) (r : Nat) :
    unicode.To rows r = r
      ∨ ∃ cr ∈ rows, cr.Lo ≤ r ∧ r ≤ cr.Hi ∧ unicode.To rows r = cr.lower r := by
  induction rows with
  | nil => exact Or.inl rfl
  | cons cr rest ih =>
    unfold unicode.To
    by_cases hc : cr.Lo ≤ r ∧ r ≤ cr.Hi
    · rw [if_pos hc]
      exact Or.inr ⟨cr, List.mem_cons_self _ _, hc.1, hc.2, rfl⟩
    · rw [if_neg hc]
      rcases ih with ih | ⟨c2, hc2, h1, h2, h3⟩
      · exact Or.inl ih
      · exact Or.inr ⟨c2, List.mem_cons_of_mem _ hc2, h1, h2, h3⟩

/-- A rune that `unicode.To` changes becomes a Unicode scalar value above `Z` that
`unicode.To` leaves as it is. -/
theorem To_value (rows : List unicode.CaseRange) (hok : unicode.rowsOk rows = true) (r : Nat) :
    unicode.To rows r = r
      ∨ (90 < unicode.To rows r
          ∧ (unicode.To rows r < 0xD800
              ∨ (0xDFFF < unicode.To rows r ∧ unicode.To rows r < 0x110000))
          ∧ unicode.To rows (unicode.To rows r) = unicode.To rows r) := by
  rcases To_cases rows r with h | ⟨cr, hcr, h1, h2, h3⟩
  · exact Or.inl h
  · right
    unfold unicode.rowsOk at hok
    have hrow := List.all_eq_true.mp hok cr hcr
    unfold unicode.rowOk at hrow
    simp only [Bool.and_eq_true, Bool.or_eq_true, Nat.blt_eq, List.all_eq_true] at hrow
    obtain ⟨⟨⟨hw, h90⟩, hvalid⟩, hpairs⟩ := hrow
    obtain ⟨ha, hb⟩ := lower_mem_image cr r hw h1 h2
    rw [h3]
    refine ⟨by omega, ?_, ?_⟩
    · rcases hvalid with hv | ⟨hv1, hv2⟩
      · exact Or.inl (by omega)
      · exact Or.inr ⟨by omega, by omega⟩
    · exact To_fixed rows _ (fun cr2 hcr2 =>
        lower_fixed_of_pairOk cr cr2 r hw h1 h2 (hpairs cr2 hcr2))

theorem toLower_ascii_upper (n : Nat) (h1 : 65 ≤ n) (h2 : n ≤ 90) :
    unicode.ToLower (Char.ofNat (n + 32)) = Char.ofNat (n + 32)
      ∧ ¬ ('A' ≤ Char.ofNat (n + 32) ∧ Char.ofNat (n + 32) ≤ 'Z') := by
  interval_cases n <;> exact ⟨by decide, by decide⟩

theorem toLower_of_above_Z (x : Char) (h90 : 90 < x.toNat)
    (hfix : unicode.To unicode.caseRanges x.toNat = x.toNat) : unicode.ToLower x = x := by
  unfold unicode.ToLower
  by_cases hx : x.toNat ≤ unicode.MaxASCII
  · rw [if_pos hx]
    have hnot : ¬ ('A' ≤ x ∧ x ≤ 'Z') := by
      rintro ⟨_, hz⟩
      have hz2 : x.toNat ≤ 90 := hz
      omega
    rw [if_neg hnot]
  · rw [if_neg hx, hfix]
    exact Char.ofNat_toNat x

/-- The value of `unicode.ToLower` is a rune that `unicode.ToLower` leaves as it is. -/
theorem toLower_toLower (c : Char) :
    unicode.ToLower (unicode.ToLower c) = unicode.ToLower c := by
  by_cases hc : c.toNat ≤ unicode.MaxASCII
  · by_cases hu : 'A' ≤ c ∧ c ≤ 'Z'
    · have h1 : 65 ≤ c.toNat := hu.1
      have h2 : c.toNat ≤ 90 := hu.2
      have he : unicode.ToLower c = Char.ofNat (c.toNat + 32) := by
        unfold unicode.ToLower
        rw [if_pos hc, if_pos hu]
        rfl
      rw [he]
      exact (toLower_ascii_upper c.toNat h1 h2).1
    · have he : unicode.ToLower c = c := by
        unfold unicode.ToLower
        rw [if_pos hc, if_neg hu]
      rw [he, he]
  · have he : unicode.ToLower c = Char.ofNat (unicode.To unicode.caseRanges c.toNat) := by
      unfold unicode.ToLower
      rw [if_neg hc]
    rcases To_value unicode.caseRanges caseRanges_ok c.toNat with h | ⟨h90, hv, hfix⟩
    · have he2 : unicode.ToLower c = c := by
        rw [he, h]
        exact Char.ofNat_toNat c
      rw [he2, he2]
    · rw [he]
      have hn := toNat_ofNat_valid _ hv
      apply toLower_of_above_Z
      · rw [hn]
        exact h90
      · rw [hn]
        exact hfix

/-- No value of `unicode.ToLower` is a letter from A to Z. -/
theorem toLower_not_ascii_upper (c : Char) :
    ¬ ('A' ≤ unicode.ToLower c ∧ unicode.ToLower c ≤ 'Z') := by
  intro hu
  have h1 : 65 ≤ (unicode.ToLower c).toNat := hu.1
  have h2 : (unicode.ToLower c).toNat ≤ 90 := hu.2
  have hi := toLower_toLower c
  generalize unicode.ToLower c = x at hu h1 h2 hi
  have hx : x.toNat ≤ unicode.MaxASCII := by
    show x.toNat ≤ 127
    omega
  have he : unicode.ToLower x = Char.ofNat (x.toNat + 32) := by
    unfold unicode.ToLower
    rw [if_pos hx, if_pos hu]
    rfl
  rw [he] at hi
  have h3 := congrArg Char.toNat hi
  rw [toNat_ofNat_valid _ (Or.inl (by omega))] at h3
  omega

theorem split_ne_nil (sep : Char) (s : Str) : strings.Split sep s ≠ [] := by
  cases s with
  | nil => simp [strings.Split]
  | cons c cs =>
    simp only [strings.Split]
    split
    · simp
    · cases strings.Split sep cs <;> simp [strings.consHead]

theorem split_head (sep : Char) (s : Str) :
    (strings.Split sep s).head? = some (s.takeWhile (fun c => c ≠ sep)) := by
  induction s with
  | nil => simp [strings.Split]
  | cons c cs ih =>
    simp only [strings.Split]
    by_cases h : c = sep
    · simp [h]
    · simp only [h, if_false]
      cases hs : strings.Split sep cs with
      | nil => exact absurd hs (split_ne_nil sep cs)
      | cons x xs =>
        rw [hs] at ih
        simp only [List.head?_cons, Option.some.injEq] at ih
        simp [strings.consHead, List.takeWhile_cons, h, ih]

theorem extLoop_eq (r acc : Str) :
    filepath.extLoop r acc =
      if '.' ∈ r.takeWhile (fun c => c ≠ '/') then
        '.' :: (((r.takeWhile (fun c => c ≠ '/')).takeWhile (fun c => c ≠ '.')).reverse ++ acc)
      else [] := by
  induction r generalizing acc with
  | nil => simp [filepath.extLoop]
  | cons c rest ih =>
    simp only [filepath.extLoop, filepath.Separator]
    by_cases h1 : c = '/'
    · simp [h1]
    · by_cases h2 : c = '.'
      · simp [h2]
      · have h3 : ¬ ('.' = c) := fun h => h2 h.symm
        simp [h1, h2, h3, ih, List.takeWhile_cons]

theorem ext_eq_spec (p : Str) : filepath.Ext p = finalDotSuffix (lastElement p) := by
  simp only [filepath.Ext, extLoop_eq, finalDotSuffix, lastElement, List.mem_reverse,
    List.reverse_reverse, List.append_nil]

theorem base_append_name (dir n : Str) (hn : n ≠ []) (hs : '/' ∉ n) :
    filepath.Base (dir ++ '/' :: n) = n := by
  have hrev : (dir ++ '/' :: n).reverse = n.reverse ++ '/' :: dir.reverse := by simp
  obtain ⟨c, cs, hc⟩ : ∃ c cs, n.reverse = c :: cs := by
    cases h : n.reverse with
    | nil => exact absurd (List.reverse_eq_nil_iff.mp h) hn
    | cons c cs => exact ⟨c, cs, rfl⟩
  have hc1 : c ≠ '/' := by
    intro h
    apply hs
    have : c ∈ n.reverse := by rw [hc]; simp
    simpa [h] using this
  have hall : ∀ x ∈ n.reverse, (decide (x ≠ '/')) = true := by
    intro x hx
    have : x ∈ n := List.mem_reverse.mp hx
    simp only [ne_eq, decide_not, Bool.not_eq_true', decide_eq_false_iff_not]
    intro h
    exact hs (h ▸ this)
  have hdrop : (n.reverse ++ '/' :: dir.reverse).dropWhile (fun c => decide (c = '/'))
      = n.reverse ++ '/' :: dir.reverse := by
    rw [hc]
    simp [List.dropWhile_cons, hc1]
  have htake : (n.reverse ++ '/' :: dir.reverse).takeWhile (fun c => decide (c ≠ '/'))
      = n.reverse := by
    rw [List.takeWhile_append_of_pos hall]
    simp [List.takeWhile_cons]
  unfold filepath.Base
  simp only [filepath.Separator, hrev, hdrop, List.reverse_reverse, htake]
  simp [hn]

theorem base_of_name (n : Str) (hn : n ≠ []) (hs : '/' ∉ n) : filepath.Base n = n := by
  obtain ⟨c, cs, hc⟩ : ∃ c cs, n.reverse = c :: cs := by
    cases h : n.reverse with
    | nil => exact absurd (List.reverse_eq_nil_iff.mp h) hn
    | cons c cs => exact ⟨c, cs, rfl⟩
  have hc1 : c ≠ '/' := by
    intro h
    apply hs
    have : c ∈ n.reverse := by rw [hc]; simp
    simpa [h] using this
  have hall : ∀ x ∈ n.reverse, (decide (x ≠ '/')) = true := by
    intro x hx
    have : x ∈ n := List.mem_reverse.mp hx
    simp only [ne_eq, decide_not, Bool.not_eq_true', decide_eq_false_iff_not]
    intro h
    exact hs (h ▸ this)
  have hdrop : n.reverse.dropWhile (fun c => decide (c = '/')) = n.reverse := by
    rw [hc]
    simp [List.dropWhile_cons, hc1]
  have htake : n.reverse.takeWhile (fun c => decide (c ≠ '/')) = n.reverse :=
    List.takeWhile_eq_self_iff.mpr hall
  unfold filepath.Base
  simp only [filepath.Separator, hdrop, List.reverse_reverse, htake]
  simp [hn]

theorem chain_loop_eq_all (path : Str) (d : Entry) (fs : List Filter) :
    Chain.loop path d fs = fs.all (fun f => f.ShouldInclude path d) := by
  induction fs with
  | nil => rfl
  | cons f fs ih =>
    simp only [Chain.loop, List.all_cons, ih]
    cases f.ShouldInclude path d <;> simp

/-! ## The predicates -/

theorem dirFilter_first_component (D : List Str) (p : Str) (d : Entry) :
    DirFilter.ShouldInclude D p d = false ↔ firstComponent p ∈ D := by
  have h := split_head '/' (filepath.ToSlash p)
  cases hs : strings.Split '/' (filepath.ToSlash p) with
  | nil => exact absurd hs (split_ne_nil _ _)
  | cons x xs =>
    rw [hs] at h
    simp only [List.head?_cons, Option.some.injEq] at h
    have ht : filepath.ToSlash p = p := rfl
    rw [ht] at h
    simp only [DirFilter.ShouldInclude, firstComponent, hs, ← h]
    by_cases hx : x ∈ D <;> simp [hx]


/-- Claim C5: `DirFilter.ShouldInclude` rejects a path exactly when the first
`/`-separated component of the slash-normalised path is a key of the denylist; the entry
plays no part; with the denylist node_modules, vendor, .git the paths node_modules,
vendor/pkg/foo and .git/config are rejected and my_vendor_files/main.go, cmd/app/start.go
and src/vendor/x.go are accepted. -/
theorem dirFilter_rejects_iff_first_component (D : List Str) (p : Str) (d d2 : Entry) :
    (DirFilter.ShouldInclude D p d = false ↔ firstComponent (filepath.ToSlash p) ∈ D)
    ∧ DirFilter.ShouldInclude D p d = DirFilter.ShouldInclude D p d2
    ∧ DirFilter.ShouldInclude testIgnoreDirs "node_modules".toList d = false
    ∧ DirFilter.ShouldInclude testIgnoreDirs "vendor/pkg/foo".toList d = false
    ∧ DirFilter.ShouldInclude testIgnoreDirs ".git/config".toList d = false
    ∧ DirFilter.ShouldInclude testIgnoreDirs "my_vendor_files/main.go".toList d = true
    ∧ DirFilter.ShouldInclude testIgnoreDirs "cmd/app/start.go".toList d = true
    ∧ DirFilter.ShouldInclude testIgnoreDirs "src/vendor/x.go".toList d = true := by
  refine ⟨?_, rfl, rfl, rfl, rfl, rfl, rfl, rfl⟩
  have h := split_head '/' (filepath.ToSlash p)
  cases hs : strings.Split '/' (filepath.ToSlash p) with
  | nil => exact absurd hs (split_ne_nil _ _)
  | cons x xs =>
    rw [hs] at h
    simp only [List.head?_cons, Option.some.injEq] at h
    simp only [DirFilter.ShouldInclude, firstComponent, hs, ← h]
    by_cases hx : x ∈ D <;> simp [hx]

/-- Claim C6: `ExtensionFilter.ShouldInclude` accepts exactly the directories and the
files whose lower-cased extension, the suffix of the last path element from its final
dot (empty without a dot), is in the set; with .go, .rs, .py the files MAIN.GO and
test.Go pass, Makefile, test.min.js and .gitignore do not; with the empty set every file
is rejected and every directory passes.  The lower case is that of `strings.ToLower`
on every rune: with the set of .é the file x.É passes. -/
theorem extensionFilter_accepts_iff (E : List Str) (p : Str) (d : Entry) :
    (ExtensionFilter.ShouldInclude E p d = true ↔
      d.isDir = true ∨ strings.ToLower (finalDotSuffix (lastElement p)) ∈ E)
    ∧ ExtensionFilter.ShouldInclude testExtensions "MAIN.GO".toList ⟨"MAIN.GO".toList, false⟩ = true
    ∧ ExtensionFilter.ShouldInclude testExtensions "test.Go".toList ⟨"test.Go".toList, false⟩ = true
    ∧ ExtensionFilter.ShouldInclude testExtensions "Makefile".toList ⟨"Makefile".toList, false⟩ = false
    ∧ ExtensionFilter.ShouldInclude testExtensions "test.min.js".toList
        ⟨"test.min.js".toList, false⟩ = false
    ∧ ExtensionFilter.ShouldInclude testExtensions ".gitignore".toList
        ⟨".gitignore".toList, false⟩ = false
    ∧ (d.isDir = false → ExtensionFilter.ShouldInclude [] p d = false)
    ∧ (d.isDir = true → ExtensionFilter.ShouldInclude [] p d = true)
    ∧ ExtensionFilter.ShouldInclude [".é".toList] "x.É".toList ⟨"x.É".toList, false⟩ = true
    ∧ ExtensionFilter.ShouldInclude [".é".toList] "x.E".toList ⟨"x.E".toList, false⟩
        = false := by
  refine ⟨?_, by decide, by decide, by decide, by decide, by decide, ?_, ?_,
    by decide, by decide⟩
  · unfold ExtensionFilter.ShouldInclude
    rw [ext_eq_spec]
    cases d.isDir <;> simp
  · intro h
    simp [ExtensionFilter.ShouldInclude, h]
  · intro h
    simp [ExtensionFilter.ShouldInclude, h]

/-- Claim C7: `HiddenFilter.ShouldInclude` rejects a path exactly when its base name
starts with a dot and is neither `.` nor `..`; the entry plays no part, nor does the
depth of the path: /project/.git and /project/src/.config are rejected, `.`, `..` and
/project/main.test.go are accepted. -/
theorem hiddenFilter_rejects_iff (p : Str) (d d2 : Entry) :
    (HiddenFilter.ShouldInclude p d = false ↔
      (filepath.Base p).head? = some '.' ∧ filepath.Base p ≠ ['.']
        ∧ filepath.Base p ≠ ['.', '.'])
    ∧ HiddenFilter.ShouldInclude p d = HiddenFilter.ShouldInclude p d2
    ∧ (∀ dir n : Str, n ≠ [] → '/' ∉ n →
        HiddenFilter.ShouldInclude (dir ++ '/' :: n) d = HiddenFilter.ShouldInclude n d)
    ∧ HiddenFilter.ShouldInclude "/project/.git".toList d = false
    ∧ HiddenFilter.ShouldInclude "/project/src/.config".toList d = false
    ∧ HiddenFilter.ShouldInclude ".".toList d = true
    ∧ HiddenFilter.ShouldInclude "..".toList d = true
    ∧ HiddenFilter.ShouldInclude "/project/main.test.go".toList d = true := by
  refine ⟨?_, rfl, ?_, rfl, rfl, rfl, rfl, rfl⟩
  · unfold HiddenFilter.ShouldInclude strings.HasPrefix
    cases hb : filepath.Base p with
    | nil => simp
    | cons c cs =>
      by_cases hc : c = '.'
      · subst hc
        simp
      · have hc2 : ¬ ('.' = c) := fun h => hc h.symm
        simp [List.isPrefixOf, hc, hc2]
  · intro dir n hn hs
    have h1 := base_append_name dir n hn hs
    have h2 := base_of_name n hn hs
    unfold HiddenFilter.ShouldInclude
    rw [h1, h2]

/-- Claim C8: a chain accepts an entry exactly when every one of its filters accepts it;
the empty chain accepts every entry and a chain holding a rejecting filter rejects. -/
theorem chain_accepts_iff_all (fs : List Filter) (p : Str) (d : Entry) :
    ((NewChain fs).ShouldInclude p d = true ↔ ∀ f ∈ fs, f.ShouldInclude p d = true)
    ∧ (NewChain []).ShouldInclude p d = true
    ∧ (∀ f ∈ fs, f.ShouldInclude p d = false → (NewChain fs).ShouldInclude p d = false) := by
  have h : (NewChain fs).ShouldInclude p d = true ↔ ∀ f ∈ fs, f.ShouldInclude p d = true := by
    simp [NewChain, Chain.ShouldInclude, chain_loop_eq_all]
  refine ⟨h, rfl, ?_⟩
  intro f hf hrej
  cases hc : (NewChain fs).ShouldInclude p d with
  | false => rfl
  | true =>
    have := h.mp hc f hf
    rw [hrej] at this
    exact absurd this (by simp)

/-! ## Chain construction -/


theorem buildChain_eq (lib : GitignoreLib) (fsys : FileSys) (cfg : Config) :
    BuildChain lib fsys cfg =
      if cfg.GitignorePath ≠ [] ∨ cfg.CustomPatterns ≠ [] then
        match NewGitignoreFilter lib fsys cfg.BaseDir cfg.GitignorePath cfg.CustomPatterns with
        | .error err => .error err
        | .ok g => .ok ⟨chainHead cfg ++ [Filter.gitignore g] ++ chainTail cfg⟩
      else .ok ⟨chainHead cfg ++ chainTail cfg⟩ := by
  have hlen : ∀ l : List Str, (l.length > 0) ↔ l ≠ [] := by
    intro l; cases l <;> simp
  unfold BuildChain chainHead chainTail
  simp only [NewChain, Chain.Add, hlen, List.nil_append]
  by_cases hg : cfg.GitignorePath ≠ [] ∨ cfg.CustomPatterns ≠ []
  · simp only [hg, if_true]
    cases NewGitignoreFilter lib fsys cfg.BaseDir cfg.GitignorePath cfg.CustomPatterns with
    | error e => rfl
    | ok g =>
      cases cfg.IncludeHidden <;> by_cases h2 : cfg.IgnoreDirs = [] <;>
        by_cases h3 : cfg.Extensions = [] <;> simp [h2, h3]
  · simp only [hg, if_false]
    cases cfg.IncludeHidden <;> by_cases h2 : cfg.IgnoreDirs = [] <;>
      by_cases h3 : cfg.Extensions = [] <;> simp [h2, h3]

/-- Claim C9: when `BuildChain` succeeds, the filters of the chain are, in this order, the
hidden filter iff `IncludeHidden` is false, the denylist filter iff `IgnoreDirs` is not
empty, the gitignore filter (the one `NewGitignoreFilter` returns) iff `GitignorePath` or
`CustomPatterns` is not empty, and the extension filter iff `Extensions` is not empty. -/
theorem buildChain_filters (lib : GitignoreLib) (fsys : FileSys) (cfg : Config) (chain : Chain)
    (h : BuildChain lib fsys cfg = .ok chain) :
    ∃ git : List Filter,
      (if cfg.GitignorePath ≠ [] ∨ cfg.CustomPatterns ≠ [] then
          ∃ g, NewGitignoreFilter lib fsys cfg.BaseDir cfg.GitignorePath cfg.CustomPatterns
                = .ok g ∧ git = [Filter.gitignore g]
        else git = [])
      ∧ chain.filters =
          (if cfg.IncludeHidden = false then [Filter.hidden] else [])
          ++ (if cfg.IgnoreDirs ≠ [] then [Filter.dir cfg.IgnoreDirs] else [])
          ++ git
          ++ (if cfg.Extensions ≠ [] then [Filter.extension cfg.Extensions] else []) := by
  rw [buildChain_eq] at h
  by_cases hg : cfg.GitignorePath ≠ [] ∨ cfg.CustomPatterns ≠ []
  · simp only [hg, if_true] at h ⊢
    cases hN : NewGitignoreFilter lib fsys cfg.BaseDir cfg.GitignorePath cfg.CustomPatterns with
    | error e => rw [hN] at h; cases h
    | ok g =>
      rw [hN] at h
      simp only [Except.ok.injEq] at h
      refine ⟨[Filter.gitignore g], ⟨g, rfl, rfl⟩, ?_⟩
      rw [← h]
      rfl
  · simp only [hg, if_false] at h ⊢
    simp only [Except.ok.injEq] at h
    refine ⟨[], rfl, ?_⟩
    rw [← h]
    simp [chainHead, chainTail]

/-- Witness of C9: the chain of the test configuration is hidden, denylist, extension. -/
theorem buildChain_filters_witness :
    BuildChain noGitignore emptyFileSys testConfig
        = .ok ⟨[Filter.hidden, Filter.dir testConfig.IgnoreDirs,
                Filter.extension testConfig.Extensions]⟩
    ∧ ∃ git : List Filter,
      (if testConfig.GitignorePath ≠ [] ∨ testConfig.CustomPatterns ≠ [] then
          ∃ g, NewGitignoreFilter noGitignore emptyFileSys testConfig.BaseDir
                testConfig.GitignorePath testConfig.CustomPatterns
                = .ok g ∧ git = [Filter.gitignore g]
        else git = [])
      ∧ (⟨[Filter.hidden, Filter.dir testConfig.IgnoreDirs,
            Filter.extension testConfig.Extensions]⟩ : Chain).filters =
          (if testConfig.IncludeHidden = false then [Filter.hidden] else [])
          ++ (if testConfig.IgnoreDirs ≠ [] then [Filter.dir testConfig.IgnoreDirs] else [])
          ++ git
          ++ (if testConfig.Extensions ≠ []
                then [Filter.extension testConfig.Extensions] else []) :=
  ⟨rfl, buildChain_filters noGitignore emptyFileSys testConfig _ rfl⟩

/-- Claim C10: with an empty `Extensions` set the chain `BuildChain` returns holds no
extension filter; when moreover hidden entries are included and there are no ignored
directories, no gitignore path and no custom patterns, `BuildChain` succeeds with a chain
that accepts every path and entry, whereas an `ExtensionFilter` over the empty set rejects
every file. -/
theorem buildChain_no_extensions (lib : GitignoreLib) (fsys : FileSys) (cfg : Config)
    (hE : cfg.Extensions = []) :
    (∀ chain, BuildChain lib fsys cfg = .ok chain →
        ∀ es, Filter.extension es ∉ chain.filters)
    ∧ (cfg.IncludeHidden = true → cfg.IgnoreDirs = [] → cfg.GitignorePath = [] →
        cfg.CustomPatterns = [] →
        ∃ chain, BuildChain lib fsys cfg = .ok chain
          ∧ ∀ p d, chain.ShouldInclude p d = true)
    ∧ (∀ p d, d.isDir = false → ExtensionFilter.ShouldInclude [] p d = false) := by
  refine ⟨?_, ?_, ?_⟩
  · intro chain h es hmem
    rw [buildChain_eq] at h
    have htail : chainTail cfg = [] := by simp [chainTail, hE]
    have hhead : Filter.extension es ∉ chainHead cfg := by
      unfold chainHead
      cases cfg.IncludeHidden <;> by_cases h2 : cfg.IgnoreDirs = [] <;> simp [h2]
    by_cases hg : cfg.GitignorePath ≠ [] ∨ cfg.CustomPatterns ≠ []
    · simp only [hg, if_true] at h
      cases hN : NewGitignoreFilter lib fsys cfg.BaseDir cfg.GitignorePath
          cfg.CustomPatterns with
      | error e => rw [hN] at h; cases h
      | ok g =>
        rw [hN] at h
        simp only [Except.ok.injEq] at h
        rw [← h, htail] at hmem
        simp at hmem
        exact hhead hmem
    · simp only [hg, if_false] at h
      simp only [Except.ok.injEq] at h
      rw [← h, htail] at hmem
      simp at hmem
      exact hhead hmem
  · intro h1 h2 h3 h4
    refine ⟨⟨[]⟩, ?_, fun _ _ => rfl⟩
    rw [buildChain_eq]
    simp [chainHead, chainTail, h1, h2, h3, h4, hE]
  · intro p d h
    simp [ExtensionFilter.ShouldInclude, h]

/-- Witness of C10 at the bare configuration: the chain is empty and accepts a file
with no listed extension. -/
theorem buildChain_no_extensions_witness :
    BuildChain noGitignore emptyFileSys bareConfig = .ok ⟨[]⟩
    ∧ (∃ chain, BuildChain noGitignore emptyFileSys bareConfig = .ok chain
          ∧ ∀ p d, chain.ShouldInclude p d = true)
    ∧ ExtensionFilter.ShouldInclude [] "notes.txt".toList ⟨"notes.txt".toList, false⟩ = false :=
  ⟨rfl,
   (buildChain_no_extensions noGitignore emptyFileSys bareConfig rfl).2.1 rfl rfl rfl rfl,
   (buildChain_no_extensions noGitignore emptyFileSys bareConfig rfl).2.2 _ _ rfl⟩

/-! ## The walk -/




mutual
theorem walkDir_visit (s : Scanner) (path : Str) :
    (n : Node) → (files : List Str) →
      walkDir s.visit path n files = (files ++ emitted s.filter path n, none)
  | .file name, files => by
    simp only [walkDir, Scanner.visit, emitted]
    cases s.filter.ShouldInclude path ⟨name, false⟩ <;> simp
  | .dir name readErr children, files => by
    simp only [walkDir, Scanner.visit, emitted]
    cases hF : s.filter.ShouldInclude path ⟨name, true⟩
    · simp
    · cases readErr with
      | none => simpa using walkDirs_visit s path children files
      | some e => simpa using walkDirs_visit s path children files
theorem walkDirs_visit (s : Scanner) (path : Str) :
    (cs : List Node) → (files : List Str) →
      walkDirs s.visit path cs files = (files ++ emittedOf s.filter path cs, none)
  | [], files => by simp [walkDirs, emittedOf]
  | c :: cs, files => by
    simp only [walkDirs, emittedOf]
    rw [walkDir_visit s _ c files]
    simp only
    rw [walkDirs_visit s path cs]
    simp
end


mutual
theorem visits_ancestors (path : Str) :
    (n : Node) → (anc : List (Str × Entry)) →
      ∀ v ∈ n.visits path anc, ∀ a ∈ anc, a ∈ v.ancestors
  | .file name, anc => by
    intro v hv a ha
    simp only [Node.visits, List.mem_singleton] at hv
    subst hv
    exact ha
  | .dir name readErr children, anc => by
    intro v hv a ha
    simp only [Node.visits, List.mem_cons] at hv
    rcases hv with hv | hv
    · subst hv
      exact ha
    · exact visitsOf_ancestors path children _ v hv a (List.mem_append_left _ ha)
theorem visitsOf_ancestors (path : Str) :
    (cs : List Node) → (anc : List (Str × Entry)) →
      ∀ v ∈ visitsOf path anc cs, ∀ a ∈ anc, a ∈ v.ancestors
  | [], anc => by
    intro v hv
    simp [visitsOf] at hv
  | c :: cs, anc => by
    intro v hv a ha
    simp only [visitsOf, List.mem_append] at hv
    rcases hv with hv | hv
    · exact visits_ancestors _ c anc v hv a ha
    · exact visitsOf_ancestors path cs anc v hv a ha
end


mutual
theorem emitted_eq_collected (F : Filter) (path : Str) :
    (n : Node) → (anc : List (Str × Entry)) →
      (anc.all (fun a => F.ShouldInclude a.1 a.2) = true) →
      emitted F path n = ((n.visits path anc).filter (Visit.collected F)).map Visit.path
  | .file name, anc, h => by
    simp only [emitted, Node.visits]
    cases hF : F.ShouldInclude path ⟨name, false⟩ <;>
      simp [List.filter_cons, Visit.collected, Visit.reached, hF, h]
  | .dir name readErr children, anc, h => by
    simp only [emitted, Node.visits]
    have hself : Visit.collected F ⟨path, ⟨name, true⟩, anc⟩ = false := by
      simp [Visit.collected]
    rw [List.filter_cons_of_neg (by simp [hself])]
    cases hF : F.ShouldInclude path ⟨name, true⟩
    · have hnil : (visitsOf path (anc ++ [(path, ⟨name, true⟩)]) children).filter
          (Visit.collected F) = [] := by
        rw [List.filter_eq_nil_iff]
        intro v hv
        have hmem := visitsOf_ancestors path children _ v hv (path, ⟨name, true⟩) (by simp)
        have : v.reached F = false := by
          simp only [Visit.reached, List.all_eq_false]
          exact ⟨_, hmem, by simp [hF]⟩
        simp [Visit.collected, this]
      simp [hnil]
    · simp only [if_true]
      exact emittedOf_eq_collected F path children _ (by simp [List.all_append, h, hF])
theorem emittedOf_eq_collected (F : Filter) (path : Str) :
    (cs : List Node) → (anc : List (Str × Entry)) →
      (anc.all (fun a => F.ShouldInclude a.1 a.2) = true) →
      emittedOf F path cs = ((visitsOf path anc cs).filter (Visit.collected F)).map Visit.path
  | [], anc, _ => by simp [emittedOf, visitsOf]
  | c :: cs, anc, h => by
    simp only [emittedOf, visitsOf, List.filter_append, List.map_append]
    rw [emitted_eq_collected F _ c anc h, emittedOf_eq_collected F path cs anc h]
end


/-- The slice `files` at the end of the walk of `Scan`: the collected entries of the tree,
in the order of the walk; the walk itself returns no error. -/
theorem walkDir_scan (s : Scanner) (st : RootStat) :
    WalkDir s.visit s.baseDir st [] =
      (((st.visits s.baseDir).filter (Visit.collected s.filter)).map Visit.path, none) := by
  cases st with
  | lstatErr e => simp [WalkDir, Scanner.visit, RootStat.visits]
  | found n =>
    simp only [WalkDir, RootStat.visits, walkDir_visit, List.nil_append]
    rw [emitted_eq_collected s.filter s.baseDir n [] (by simp)]

/-- What `Scan` returns: the collected entries, sorted by their path relative to the base. -/
theorem scan_eq (s : Scanner) (st : RootStat) :
    s.Scan st = .ok (sortSlice
      (fun a b => decide (RelPath a s.baseDir < RelPath b s.baseDir))
      (((st.visits s.baseDir).filter (Visit.collected s.filter)).map Visit.path)) := by
  simp only [Scanner.Scan, walkDir_scan]

theorem mem_sortSlice (less : Str → Str → Bool) (xs : List Str) (f : Str) :
    f ∈ sortSlice less xs ↔ f ∈ xs := by
  unfold sortSlice
  exact (List.perm_insertionSort _ xs).mem_iff

/-- Membership in the result of `Scan`. -/
theorem mem_scan (s : Scanner) (st : RootStat) (files : List Str)
    (h : s.Scan st = .ok files) (f : Str) :
    f ∈ files ↔ ∃ v ∈ st.visits s.baseDir, Visit.collected s.filter v = true ∧ v.path = f := by
  rw [scan_eq] at h
  simp only [Except.ok.injEq] at h
  rw [← h, mem_sortSlice]
  simp [List.mem_map, List.mem_filter, and_assoc]

/-! ## Paths of the entries of a tree -/


theorem split_append_sep (sep : Char) (a b : Str) :
    strings.Split sep (a ++ sep :: b) = strings.Split sep a ++ strings.Split sep b := by
  induction a with
  | nil => simp [strings.Split]
  | cons c cs ih =>
    simp only [List.cons_append, strings.Split]
    by_cases h : c = sep
    · simp [h, ih]
    · simp only [h, if_false]
      have ih2 : strings.Split sep (cs.append (sep :: b))
          = strings.Split sep cs ++ strings.Split sep b := ih
      rw [ih2]
      cases hs : strings.Split sep cs with
      | nil => exact absurd hs (split_ne_nil sep cs)
      | cons x xs => simp [strings.consHead]

theorem split_of_no_sep (sep : Char) (n : Str) (h : sep ∉ n) : strings.Split sep n = [n] := by
  induction n with
  | nil => rfl
  | cons c cs ih =>
    simp only [List.mem_cons, not_or] at h
    have hc : ¬ c = sep := fun e => h.1 e.symm
    simp [strings.Split, hc, ih h.2, strings.consHead]

theorem split_no_sep (sep : Char) (s : Str) : ∀ x ∈ strings.Split sep s, sep ∉ x := by
  induction s with
  | nil => simp [strings.Split]
  | cons c cs ih =>
    simp only [strings.Split]
    by_cases h : c = sep
    · simp only [h, if_true, List.mem_cons]
      rintro x (hx | hx)
      · simp [hx]
      · exact ih x hx
    · simp only [h, if_false]
      cases hs : strings.Split sep cs with
      | nil => exact absurd hs (split_ne_nil sep cs)
      | cons y ys =>
        rw [hs] at ih
        simp only [strings.consHead, List.mem_cons]
        rintro x (hx | hx)
        · subst hx
          simp only [List.mem_cons, not_or]
          exact ⟨fun e => h e.symm, ih y (by simp)⟩
        · exact ih x (by simp [hx])

theorem join_cons_cons (sep : Str) (x y : Str) (ys : List Str) :
    strings.Join sep (x :: y :: ys) = x ++ sep ++ strings.Join sep (y :: ys) := by
  simp [strings.Join]

theorem join_snoc (sep : Str) (xs : List Str) (n : Str) :
    strings.Join sep (xs ++ [n]) = if xs = [] then n else strings.Join sep xs ++ sep ++ n := by
  induction xs with
  | nil => simp [strings.Join]
  | cons x xs ih =>
    cases xs with
    | nil => simp [strings.Join]
    | cons y ys =>
      have h1 : x :: y :: ys ++ [n] = x :: y :: (ys ++ [n]) := rfl
      have h2 : y :: ys ++ [n] = y :: (ys ++ [n]) := rfl
      rw [h1, join_cons_cons, ← h2, ih, join_cons_cons]
      simp


theorem cleanStep_kept (rooted : Bool) (out : List Str) (e : Str)
    (hout : ∀ x ∈ out, keptElem x) (he : '/' ∉ e) :
    ∀ x ∈ filepath.cleanStep rooted out e, keptElem x := by
  unfold filepath.cleanStep
  by_cases h1 : e = []
  · simpa [h1] using hout
  by_cases h2 : e = ['.']
  · simpa [h2] using hout
  by_cases h3 : e = ['.', '.']
  · simp only [h3, if_true]
    have hdd : keptElem ['.', '.'] := by simp [keptElem]
    cases out with
    | nil =>
      cases rooted <;> simp [hdd]
    | cons l rest =>
      by_cases h4 : l = ['.', '.']
      · subst h4
        cases rooted
        · intro x hx
          have hx2 : x = ['.', '.'] ∨ x ∈ ['.', '.'] :: rest := by simpa using hx
          rcases hx2 with hx2 | hx2
          · exact hx2 ▸ hdd
          · exact hout x hx2
        · intro x hx
          exact hout x (by simpa using hx)
      · intro x hx
        simp only [h4, if_false] at hx
        exact hout x (List.mem_cons_of_mem _ hx)
  · simp only [h1, h2, h3, if_false]
    intro x hx
    simp only [List.mem_cons] at hx
    rcases hx with hx | hx
    · subst hx
      exact ⟨h1, h2, he⟩
    · exact hout x hx

theorem foldl_cleanStep_kept (rooted : Bool) (xs : List Str) :
    ∀ out : List Str, (∀ x ∈ out, keptElem x) → (∀ x ∈ xs, '/' ∉ x) →
      ∀ y ∈ xs.foldl (filepath.cleanStep rooted) out, keptElem y := by
  induction xs with
  | nil => intro out hout _; simpa using hout
  | cons e es ih =>
    intro out hout hxs
    simp only [List.foldl_cons]
    exact ih _ (cleanStep_kept rooted out e hout (hxs e (by simp)))
      (fun x hx => hxs x (List.mem_cons_of_mem _ hx))

theorem cleanStep_nice (rooted : Bool) (out : List Str) (n : Str) (hn : niceName n) :
    filepath.cleanStep rooted out n = n :: out := by
  obtain ⟨h1, _, h3, h4⟩ := hn
  simp [filepath.cleanStep, h1, h3, h4]

theorem join_kept_ne (l : List Str) (hne : l ≠ []) (hl : ∀ x ∈ l, keptElem x) :
    strings.Join ['/'] l ≠ [] ∧ strings.Join ['/'] l ≠ ['.'] ∧ strings.Join ['/'] l ≠ ['/'] := by
  cases l with
  | nil => exact absurd rfl hne
  | cons x xs =>
    obtain ⟨hx1, hx2, hx3⟩ := hl x (by simp)
    cases xs with
    | nil =>
      simp only [strings.Join]
      refine ⟨hx1, hx2, ?_⟩
      intro h
      simp [h] at hx3
    | cons y ys =>
      rw [join_cons_cons]
      cases x with
      | nil => exact absurd rfl hx1
      | cons c cs => simp

theorem clean_append_name (p n : Str) (hp : p ≠ []) (hn : niceName n) :
    filepath.Clean (p ++ '/' :: n) = joinClean (filepath.Clean p) n := by
  have hne : p ++ '/' :: n ≠ [] := by simp
  have hhead : (p ++ '/' :: n).head? = p.head? := by
    cases p with
    | nil => exact absurd rfl hp
    | cons c cs => rfl
  have hsplit : strings.Split '/' (p ++ '/' :: n) = strings.Split '/' p ++ [n] := by
    rw [split_append_sep, split_of_no_sep '/' n hn.2.1]
  unfold filepath.Clean
  simp only [filepath.Separator, hne, hp, if_false, hhead, hsplit, List.foldl_append,
    List.foldl_cons, List.foldl_nil, cleanStep_nice _ _ n hn, List.reverse_cons, join_snoc]
  generalize hr : decide (p.head? = some '/') = rooted
  generalize ho : (strings.Split '/' p).foldl (filepath.cleanStep rooted) [] = out
  have hkept : ∀ y ∈ out, keptElem y := by
    rw [← ho]
    exact foldl_cleanStep_kept rooted _ [] (by simp) (split_no_sep '/' p)
  have hn1 : n ≠ [] := hn.1
  by_cases hout : out = []
  · subst hout
    cases rooted <;> simp [strings.Join, joinClean, hn1]
  · have hrev : out.reverse ≠ [] := by simpa using hout
    obtain ⟨hb1, hb2, hb3⟩ := join_kept_ne out.reverse hrev
      (fun x hx => hkept x (List.mem_reverse.mp hx))
    cases rooted
    · simp [hrev, hout, hb1, hb2, hb3, joinClean]
    · simp [hrev, hout, hb1, joinClean]

theorem clean_nice (n : Str) (hn : niceName n) : filepath.Clean n = n := by
  have h1 : n ≠ [] := hn.1
  have hh : ¬ (n.head? = some '/') := by
    intro h
    cases n with
    | nil => exact h1 rfl
    | cons c cs =>
      simp only [List.head?_cons, Option.some.injEq] at h
      exact hn.2.1 (by simp [h])
  unfold filepath.Clean
  simp [filepath.Separator, h1, hh, split_of_no_sep '/' n hn.2.1, cleanStep_nice _ _ n hn,
    strings.Join]

theorem clean_slash_nice (n : Str) (hn : niceName n) : filepath.Clean ('/' :: n) = '/' :: n := by
  have hs : strings.Split '/' ('/' :: n) = [[], n] := by
    simp [strings.Split, split_of_no_sep '/' n hn.2.1]
  have hstep : filepath.cleanStep true (filepath.cleanStep true [] []) n = [n] := by
    rw [cleanStep_nice _ _ n hn]
    simp [filepath.cleanStep]
  unfold filepath.Clean
  simp only [filepath.Separator, hs]
  simp [hstep, strings.Join]

/-- The path `WalkDir` gives to the entry `n` of a directory with the cleaned path `p`. -/
theorem join_clean_nice (p n : Str) (hp : filepath.Clean p = p) (hn : niceName n) :
    filepath.Join p n = joinClean p n
    ∧ filepath.Clean (joinClean p n) = joinClean p n := by
  have hpne : p ≠ [] := by
    intro h
    rw [h] at hp
    simp [filepath.Clean] at hp
  have hJ : filepath.Join p n = joinClean p n := by
    unfold filepath.Join
    simp only [hpne, if_false, filepath.Separator]
    rw [clean_append_name p n hpne hn, hp]
  refine ⟨hJ, ?_⟩
  unfold joinClean
  by_cases h1 : p = ['.']
  · simp only [h1, if_true]
    exact clean_nice n hn
  · by_cases h2 : p = ['/']
    · simp only [h1, h2, if_false, if_true]
      simpa using clean_slash_nice n hn
    · simp only [h1, h2, if_false]
      rw [clean_append_name p n hpne hn, hp]
      simp [joinClean, h1, h2]

theorem joinClean_eq (p n : Str) : joinClean p n = dirPrefix p ++ n := by
  unfold joinClean dirPrefix
  by_cases h1 : p = ['.']
  · simp [h1]
  · by_cases h2 : p = ['/'] <;> simp [h1, h2]

theorem joinClean_proper (p n : Str) (hn : niceName n) :
    joinClean p n ≠ ['.'] ∧ joinClean p n ≠ ['/'] := by
  obtain ⟨h1, h2, h3, _⟩ := hn
  unfold joinClean
  by_cases hp1 : p = ['.']
  · simp only [hp1, if_true]
    refine ⟨h3, ?_⟩
    intro h
    simp [h] at h2
  · by_cases hp2 : p = ['/']
    · simp only [hp1, hp2, if_false, if_true]
      simp [h1]
    · simp only [hp1, hp2, if_false]
      constructor <;>
      · intro h
        have := congrArg List.length h
        simp at this
        have hl : 0 < n.length := List.length_pos.mpr h1
        omega

theorem takeWhile_name_tail (n s : Str) (hn : '/' ∉ n) (hs : isTail s) :
    (n ++ s).takeWhile (fun c => c ≠ '/') = n := by
  have hall : ∀ x ∈ n, (decide (x ≠ '/')) = true := by
    intro x hx
    simp only [ne_eq, decide_not, Bool.not_eq_true', decide_eq_false_iff_not]
    intro h
    exact hn (h ▸ hx)
  rw [List.takeWhile_append_of_pos hall]
  rcases hs with hs | ⟨y, hs⟩ <;> simp [hs, List.takeWhile_cons]

theorem name_of_path (pre n n2 s s2 : Str) (hn : '/' ∉ n) (hn2 : '/' ∉ n2)
    (hs : isTail s) (hs2 : isTail s2) (h : pre ++ n ++ s = pre ++ n2 ++ s2) : n = n2 := by
  have h2 : n ++ s = n2 ++ s2 := by
    simp only [List.append_assoc] at h
    exact List.append_cancel_left h
  rw [← takeWhile_name_tail n s hn hs, h2, takeWhile_name_tail n2 s2 hn2 hs2]

theorem dirPrefix_proper (q : Str) (h1 : q ≠ ['.']) (h2 : q ≠ ['/']) :
    dirPrefix q = q ++ ['/'] := by
  simp [dirPrefix, h1, h2]

theorem dir_ne_below (p n s : Str) (hn : niceName n) (hs : isTail s) :
    p ≠ dirPrefix p ++ n ++ s := by
  obtain ⟨h1, h2, h3, _⟩ := hn
  have hl : 0 < n.length := List.length_pos.mpr h1
  by_cases hp1 : p = ['.']
  · subst hp1
    have hd : dirPrefix ['.'] = [] := rfl
    rw [hd, List.nil_append]
    intro h
    have ht := takeWhile_name_tail n s h2 hs
    rw [← h] at ht
    simp [List.takeWhile_cons] at ht
    exact h3 ht.symm
  · by_cases hp2 : p = ['/']
    · subst hp2
      have hd : dirPrefix ['/'] = ['/'] := rfl
      rw [hd]
      intro h
      have := congrArg List.length h
      simp only [List.length_append, List.length_cons, List.length_nil] at this
      omega
    · rw [dirPrefix_proper p hp1 hp2]
      intro h
      have := congrArg List.length h
      simp only [List.length_append, List.length_cons, List.length_nil] at this
      omega

theorem wellFormedList_nice (cs : List Node) (h : wellFormedList cs = true) :
    ∀ c ∈ cs, niceName c.entry.name := by
  induction cs with
  | nil => simp
  | cons d ds ih =>
    simp only [wellFormedList, Bool.and_eq_true, decide_eq_true_eq] at h
    intro c hc
    rcases List.mem_cons.mp hc with hc | hc
    · exact hc ▸ h.1.1
    · exact ih h.2 c hc

mutual
theorem visits_paths (q : Str) :
    (n : Node) → (anc : List (Str × Entry)) →
      filepath.Clean q = q → q ≠ ['.'] → q ≠ ['/'] → n.wellFormed = true →
      ((n.visits q anc).map Visit.path).Nodup
        ∧ ∀ v ∈ n.visits q anc,
            (∃ s, isTail s ∧ v.path = q ++ s) ∧ filepath.Clean v.path = v.path
  | .file name, anc, hq, _, _, _ => by
    simp only [Node.visits, List.map_cons, List.map_nil, List.nodup_singleton,
      List.mem_singleton, true_and]
    intro v hv
    subst hv
    exact ⟨⟨[], Or.inl rfl, by simp⟩, hq⟩
  | .dir name readErr children, anc, hq, hq1, hq2, hwf => by
    simp only [Node.wellFormed, Bool.and_eq_true, decide_eq_true_eq] at hwf
    obtain ⟨hnd, hform⟩ := visitsOf_paths q children (anc ++ [(q, ⟨name, true⟩)]) hq hwf.1 hwf.2
    have hform2 : ∀ v ∈ visitsOf q (anc ++ [(q, ⟨name, true⟩)]) children,
        ∃ y, v.path = q ++ '/' :: y := by
      intro v hv
      obtain ⟨⟨c, _, s, _, hp⟩, _⟩ := hform v hv
      refine ⟨c.entry.name ++ s, ?_⟩
      rw [hp, dirPrefix_proper q hq1 hq2]
      simp
    simp only [Node.visits, List.map_cons, List.nodup_cons, List.mem_map, List.mem_cons]
    refine ⟨⟨?_, hnd⟩, ?_⟩
    · rintro ⟨v, hv, hp⟩
      obtain ⟨y, hy⟩ := hform2 v hv
      rw [hy] at hp
      have := congrArg List.length hp
      simp only [List.length_append, List.length_cons] at this
      omega
    · rintro v (hv | hv)
      · subst hv
        exact ⟨⟨[], Or.inl rfl, by simp⟩, hq⟩
      · obtain ⟨y, hy⟩ := hform2 v hv
        exact ⟨⟨'/' :: y, Or.inr ⟨y, rfl⟩, hy⟩, (hform v hv).2⟩
theorem visitsOf_paths (p : Str) :
    (cs : List Node) → (anc : List (Str × Entry)) →
      filepath.Clean p = p → wellFormedList cs = true →
      (cs.map (fun c => c.entry.name)).Nodup →
      ((visitsOf p anc cs).map Visit.path).Nodup
        ∧ ∀ v ∈ visitsOf p anc cs,
            (∃ c ∈ cs, ∃ s, isTail s ∧ v.path = dirPrefix p ++ c.entry.name ++ s)
              ∧ filepath.Clean v.path = v.path
  | [], anc, _, _, _ => by simp [visitsOf]
  | c :: cs, anc, hp, hwf, hnames => by
    simp only [wellFormedList, Bool.and_eq_true, decide_eq_true_eq] at hwf
    obtain ⟨⟨hnice, hc⟩, hcs⟩ := hwf
    simp only [List.map_cons, List.nodup_cons] at hnames
    obtain ⟨hJ, hclean⟩ := join_clean_nice p c.entry.name hp hnice
    obtain ⟨hq1, hq2⟩ := joinClean_proper p c.entry.name hnice
    have hA := visits_paths (joinClean p c.entry.name) c anc hclean hq1 hq2 hc
    have hB := visitsOf_paths p cs anc hp hcs hnames.2
    simp only [visitsOf, hJ, List.map_append]
    constructor
    · rw [List.nodup_append]
      refine ⟨hA.1, hB.1, ?_⟩
      intro x hx1 hx2
      obtain ⟨v1, hv1, hp1⟩ := List.mem_map.mp hx1
      obtain ⟨v2, hv2, hp2⟩ := List.mem_map.mp hx2
      obtain ⟨⟨s1, hs1, he1⟩, _⟩ := hA.2 v1 hv1
      obtain ⟨⟨c2, hc2, s2, hs2, he2⟩, _⟩ := hB.2 v2 hv2
      have hwf2 : niceName c2.entry.name := wellFormedList_nice cs hcs c2 hc2
      rw [joinClean_eq] at he1
      have heq : dirPrefix p ++ c.entry.name ++ s1 = dirPrefix p ++ c2.entry.name ++ s2 := by
        rw [← he1, ← he2, hp1, hp2]
      have hname := name_of_path _ _ _ _ _ hnice.2.1 hwf2.2.1 hs1 hs2 heq
      apply hnames.1
      rw [hname]
      exact List.mem_map.mpr ⟨c2, hc2, rfl⟩
    · intro v hv
      rcases List.mem_append.mp hv with hv | hv
      · obtain ⟨⟨s, hs, he⟩, hcl⟩ := hA.2 v hv
        refine ⟨⟨c, by simp, s, hs, ?_⟩, hcl⟩
        rw [he, joinClean_eq]
      · obtain ⟨⟨c2, hc2, s, hs, he⟩, hcl⟩ := hB.2 v hv
        exact ⟨⟨c2, List.mem_cons_of_mem _ hc2, s, hs, he⟩, hcl⟩
end


theorem cleanStep_stack (rooted : Bool) (out : List Str) (e : Str)
    (hs : dotdotStack out) (hr : rooted = true → ['.', '.'] ∉ out) :
    dotdotStack (filepath.cleanStep rooted out e)
      ∧ (rooted = true → ['.', '.'] ∉ filepath.cleanStep rooted out e) := by
  unfold filepath.cleanStep
  by_cases h1 : e = []
  · simpa [h1] using ⟨hs, hr⟩
  by_cases h2 : e = ['.']
  · simpa [h2] using ⟨hs, hr⟩
  by_cases h3 : e = ['.', '.']
  · simp only [h3, if_true]
    cases out with
    | nil => cases rooted <;> simp [dotdotStack]
    | cons l rest =>
      by_cases h4 : l = ['.', '.']
      · subst h4
        cases rooted
        · refine ⟨?_, by simp⟩
          simp only [Bool.false_eq_true, if_false, if_true]
          exact List.Chain'.cons (fun _ => rfl) hs
        · exact absurd (List.mem_cons_self _ _) (hr rfl)
      · simp only [h4, if_false]
        refine ⟨List.Chain'.tail hs, ?_⟩
        intro h hmem
        exact hr h (List.mem_cons_of_mem _ hmem)
  · simp only [h1, h2, h3, if_false]
    refine ⟨?_, ?_⟩
    · cases out with
      | nil => simp [dotdotStack]
      | cons l rest => exact List.Chain'.cons (fun h => absurd h h3) hs
    · intro h hmem
      rcases List.mem_cons.mp hmem with hm | hm
      · exact h3 hm.symm
      · exact hr h hm

theorem foldl_cleanStep_stack (rooted : Bool) (xs : List Str) :
    ∀ out : List Str, dotdotStack out → (rooted = true → ['.', '.'] ∉ out) →
      dotdotStack (xs.foldl (filepath.cleanStep rooted) out)
        ∧ (rooted = true → ['.', '.'] ∉ xs.foldl (filepath.cleanStep rooted) out) := by
  induction xs with
  | nil => intro out hs hr; exact ⟨hs, hr⟩
  | cons e es ih =>
    intro out hs hr
    obtain ⟨h1, h2⟩ := cleanStep_stack rooted out e hs hr
    exact ih _ h1 h2

/-- Running the element loop of `Clean` over a stack it has produced rebuilds the stack. -/
theorem foldl_cleanStep_reverse (rooted : Bool) (out : List Str)
    (hk : ∀ x ∈ out, keptElem x) (hs : dotdotStack out)
    (hr : rooted = true → ['.', '.'] ∉ out) :
    out.reverse.foldl (filepath.cleanStep rooted) [] = out := by
  induction out with
  | nil => rfl
  | cons a rest ih =>
    have ih2 := ih (fun x hx => hk x (List.mem_cons_of_mem _ hx)) (List.Chain'.tail hs)
      (fun h hm => hr h (List.mem_cons_of_mem _ hm))
    simp only [List.reverse_cons, List.foldl_append, List.foldl_cons, List.foldl_nil, ih2]
    obtain ⟨ha1, ha2, _⟩ := hk a (by simp)
    unfold filepath.cleanStep
    by_cases h3 : a = ['.', '.']
    · subst h3
      have hrf : rooted = false := by
        cases rooted
        · rfl
        · exact absurd (List.mem_cons_self _ _) (hr rfl)
      subst hrf
      cases rest with
      | nil => simp
      | cons l rest2 =>
        have hl : l = ['.', '.'] := (List.chain'_cons.mp hs).1 rfl
        simp [hl]
    · simp [ha1, ha2, h3]

theorem split_join_kept (l : List Str) (hne : l ≠ []) (hl : ∀ x ∈ l, '/' ∉ x) :
    strings.Split '/' (strings.Join ['/'] l) = l := by
  induction l with
  | nil => exact absurd rfl hne
  | cons x xs ih =>
    cases xs with
    | nil => simpa [strings.Join] using split_of_no_sep '/' x (hl x (by simp))
    | cons y ys =>
      rw [join_cons_cons]
      have : x ++ ['/'] ++ strings.Join ['/'] (y :: ys)
          = x ++ '/' :: strings.Join ['/'] (y :: ys) := by simp
      rw [this, split_append_sep, split_of_no_sep '/' x (hl x (by simp)),
        ih (by simp) (fun z hz => hl z (List.mem_cons_of_mem _ hz))]
      rfl

theorem join_kept_head (l : List Str) (hne : l ≠ []) (hl : ∀ x ∈ l, keptElem x) :
    (strings.Join ['/'] l).head? ≠ some '/' := by
  cases l with
  | nil => exact absurd rfl hne
  | cons x xs =>
    obtain ⟨hx1, _, hx3⟩ := hl x (by simp)
    cases x with
    | nil => exact absurd rfl hx1
    | cons c cs =>
      have hc : c ≠ '/' := by
        intro h
        exact hx3 (by simp [h])
      cases xs with
      | nil => simpa [strings.Join] using hc
      | cons y ys =>
        rw [join_cons_cons]
        simpa using hc

/-- `Clean` is idempotent. -/
theorem clean_clean (p : Str) : filepath.Clean (filepath.Clean p) = filepath.Clean p := by
  by_cases hp : p = []
  · subst hp
    decide
  generalize hrooted : decide (p.head? = some '/') = rooted
  generalize ho : (strings.Split '/' p).foldl (filepath.cleanStep rooted) [] = out
  have hkept : ∀ y ∈ out, keptElem y := by
    rw [← ho]
    exact foldl_cleanStep_kept rooted _ [] (by simp) (split_no_sep '/' p)
  obtain ⟨hstack, hroot⟩ : dotdotStack out ∧ (rooted = true → ['.', '.'] ∉ out) := by
    rw [← ho]
    exact foldl_cleanStep_stack rooted _ [] (by simp [dotdotStack]) (by simp)
  have hrefold := foldl_cleanStep_reverse rooted out hkept hstack hroot
  have hC : filepath.Clean p =
      if rooted = true then '/' :: strings.Join ['/'] out.reverse
      else if strings.Join ['/'] out.reverse = [] then ['.']
      else strings.Join ['/'] out.reverse := by
    unfold filepath.Clean
    simp only [filepath.Separator, hp, if_false, hrooted, ho]
  rw [hC]
  by_cases hout : out = []
  · subst hout
    cases rooted <;> decide
  have hrev : out.reverse ≠ [] := by simpa using hout
  have hkrev : ∀ x ∈ out.reverse, keptElem x := fun x hx => hkept x (List.mem_reverse.mp hx)
  obtain ⟨hb1, _, _⟩ := join_kept_ne out.reverse hrev hkrev
  have hsj := split_join_kept out.reverse hrev (fun x hx => (hkrev x hx).2.2)
  cases rooted
  · simp only [Bool.false_eq_true, if_false, hb1]
    have hh := join_kept_head out.reverse hrev hkrev
    unfold filepath.Clean
    simp only [filepath.Separator, hb1, if_false, hh, decide_False, hsj, hrefold,
      Bool.false_eq_true]
  · simp only [if_true]
    have hs2 : strings.Split '/' ('/' :: strings.Join ['/'] out.reverse)
        = [] :: out.reverse := by
      simp [strings.Split, hsj]
    have hstep : filepath.cleanStep true [] [] = [] := rfl
    unfold filepath.Clean
    simp only [filepath.Separator, hs2, List.foldl_cons, hstep, hrefold, List.head?_cons,
      decide_True, if_true]
    simp

theorem join_nice (b n : Str) (hn : niceName n) :
    filepath.Join b n = filepath.Join (filepath.Clean b) n := by
  have h2 := (join_clean_nice (filepath.Clean b) n (clean_clean b) hn).1
  rw [h2]
  unfold filepath.Join
  by_cases hb : b = []
  · subst hb
    simp only [if_true, hn.1, if_false]
    rw [clean_nice n hn]
    rfl
  · simp only [hb, if_false, filepath.Separator]
    exact clean_append_name b n hb hn

theorem visitsOf_clean (b : Str) (anc : List (Str × Entry)) (cs : List Node)
    (h : wellFormedList cs = true) : visitsOf b anc cs = visitsOf (filepath.Clean b) anc cs := by
  induction cs with
  | nil => rfl
  | cons c cs ih =>
    simp only [wellFormedList, Bool.and_eq_true, decide_eq_true_eq] at h
    simp only [visitsOf, join_nice b c.entry.name h.1.1, ih h.2]

/-- In a well-formed tree distinct entries have distinct paths. -/
theorem visits_nodup (b : Str) (st : RootStat) (hwf : st.wellFormed = true) :
    ((st.visits b).map Visit.path).Nodup := by
  cases st with
  | lstatErr e => simp [RootStat.visits]
  | found n =>
    cases n with
    | file name => simp [RootStat.visits, Node.visits]
    | dir name readErr children =>
      simp only [RootStat.wellFormed, Node.wellFormed, Bool.and_eq_true,
        decide_eq_true_eq] at hwf
      obtain ⟨hnd, hform⟩ := visitsOf_paths (filepath.Clean b) children [(b, ⟨name, true⟩)]
        (clean_clean b) hwf.1 hwf.2
      simp only [RootStat.visits, Node.visits, List.nil_append, List.map_cons,
        List.nodup_cons, List.mem_map, visitsOf_clean b _ children hwf.1]
      refine ⟨?_, hnd⟩
      rintro ⟨v, hv, hp⟩
      obtain ⟨⟨c, hc, s, hs, he⟩, hcl⟩ := hform v hv
      have hnice : niceName c.entry.name := wellFormedList_nice children hwf.1 c hc
      have hb : filepath.Clean b = b := by rw [← hp, hcl]
      rw [hb] at he
      exact dir_ne_below b c.entry.name s hnice hs (by rw [← he, hp])

/-! ## The scanner -/


/-- Claim C1: `Scan` returns a list, and a path is in it exactly when the tree has, at or
below the base directory, a non-directory entry with that path which the filter accepts
and such that the filter accepts every directory on the way from the base directory (it
included) down to the parent of the entry.  When `ReadDir` reports an error the entries
of the directory are those it returned. -/
theorem scan_mem_iff (s : Scanner) (st : RootStat) :
    ∃ files, s.Scan st = .ok files ∧
      ∀ f, f ∈ files ↔
        ∃ v ∈ st.visits s.baseDir,
          v.path = f ∧ v.entry.isDir = false ∧ s.filter.ShouldInclude f v.entry = true
            ∧ ∀ a ∈ v.ancestors, s.filter.ShouldInclude a.1 a.2 = true := by
  refine ⟨_, scan_eq s st, ?_⟩
  intro f
  rw [mem_scan s st _ (scan_eq s st)]
  constructor
  · rintro ⟨v, hv, hc, hp⟩
    simp only [Visit.collected, Visit.reached, Bool.and_eq_true, Bool.not_eq_true',
      List.all_eq_true] at hc
    exact ⟨v, hv, hp, hc.1.1, hp ▸ hc.1.2, hc.2⟩
  · rintro ⟨v, hv, hp, hd, hF, ha⟩
    refine ⟨v, hv, ?_, hp⟩
    simp only [Visit.collected, Visit.reached, Bool.and_eq_true, Bool.not_eq_true',
      List.all_eq_true]
    exact ⟨⟨hd, hp ▸ hF⟩, ha⟩

/-- Claim C2: in every well-formed tree (the names of the entries of a directory are
distinct, not empty, without a slash and neither `.` nor `..`), no path that `Scan`
returns belongs to an entry below a directory that the filter rejects, whatever the filter
says of the entry itself; with a filter rejecting the directories named `ignore`, the file
ignore/skip.go, which the filter accepts, is absent and only main.go is returned. -/
theorem scan_never_below_rejected (s : Scanner) (st : RootStat) (files : List Str)
    (hS : s.Scan st = .ok files) (hwf : st.wellFormed = true) :
    (∀ v ∈ st.visits s.baseDir,
        (∃ a ∈ v.ancestors, s.filter.ShouldInclude a.1 a.2 = false) → v.path ∉ files)
    ∧ (skipDirFilter "ignore".toList).ShouldInclude "/t/ignore/skip.go".toList
          ⟨"skip.go".toList, false⟩ = true
    ∧ (Scanner.New "/t".toList (skipDirFilter "ignore".toList)).Scan (.found skipDirTree)
        = .ok ["/t/main.go".toList] := by
  refine ⟨?_, rfl, rfl⟩
  rintro v hv ⟨a, ha, hrej⟩ hmem
  obtain ⟨w, hw, hc, hp⟩ := (mem_scan s st files hS v.path).mp hmem
  have hwv : w = v := List.inj_on_of_nodup_map (visits_nodup s.baseDir st hwf) hw hv hp
  subst hwv
  simp only [Visit.collected, Visit.reached, Bool.and_eq_true, List.all_eq_true] at hc
  have := hc.2 a ha
  rw [hrej] at this
  exact absurd this (by simp)

/-- Witness of C2 on the tree of the test: the tree is well formed, ignore/skip.go is one
of its entries and lies below the rejected directory ignore, and its path is not
returned. -/
theorem scan_never_below_rejected_witness :
    skipDirTree.wellFormed = true
    ∧ (RootStat.found skipDirTree).visits "/t".toList =
        [⟨"/t".toList, ⟨"t".toList, true⟩, []⟩,
         ⟨"/t/ignore".toList, ⟨"ignore".toList, true⟩, [("/t".toList, ⟨"t".toList, true⟩)]⟩,
         ⟨"/t/ignore/nested".toList, ⟨"nested".toList, true⟩,
            [("/t".toList, ⟨"t".toList, true⟩), ("/t/ignore".toList, ⟨"ignore".toList, true⟩)]⟩,
         skipGoVisit,
         ⟨"/t/main.go".toList, ⟨"main.go".toList, false⟩, [("/t".toList, ⟨"t".toList, true⟩)]⟩]
    ∧ "/t/ignore/skip.go".toList ∉ ["/t/main.go".toList] :=
  ⟨rfl, rfl,
   (scan_never_below_rejected (Scanner.New "/t".toList (skipDirFilter "ignore".toList))
      (.found skipDirTree) ["/t/main.go".toList] rfl rfl).1
    skipGoVisit
    (by
      have h : (RootStat.found skipDirTree).visits "/t".toList =
        [⟨"/t".toList, ⟨"t".toList, true⟩, []⟩,
         ⟨"/t/ignore".toList, ⟨"ignore".toList, true⟩, [("/t".toList, ⟨"t".toList, true⟩)]⟩,
         ⟨"/t/ignore/nested".toList, ⟨"nested".toList, true⟩,
            [("/t".toList, ⟨"t".toList, true⟩), ("/t/ignore".toList, ⟨"ignore".toList, true⟩)]⟩,
         skipGoVisit,
         ⟨"/t/main.go".toList, ⟨"main.go".toList, false⟩,
            [("/t".toList, ⟨"t".toList, true⟩)]⟩] := rfl
      show skipGoVisit ∈ (RootStat.found skipDirTree).visits "/t".toList
      rw [h]
      simp)
    ⟨("/t/ignore".toList, ⟨"ignore".toList, true⟩), by simp [skipGoVisit], rfl⟩⟩

/-! ## The directory denylist under a base directory other than `.` -/


/-- Claim C3 at the base directories `proj` and `/srv/proj`: with the chain that
`BuildChain` makes from a configuration whose denylist is node_modules, `Scan` returns
the file node_modules/index.js of the base directory, because the denylist filter compares
the first component of the whole walk path (here `proj`, or the empty string before the
leading slash) and so accepts the directory node_modules. -/
theorem scan_denylist_base_proj :
    BuildChain noGitignore emptyFileSys (denylistConfig "proj".toList) = .ok denylistChain
    ∧ (Scanner.New "proj".toList denylistChain.toFilter).Scan (.found (projTree "proj".toList))
        = .ok ["proj/main.js".toList, "proj/node_modules/index.js".toList]
    ∧ DirFilter.ShouldInclude ["node_modules".toList] "proj/node_modules".toList
        ⟨"node_modules".toList, true⟩ = true
    ∧ BuildChain noGitignore emptyFileSys (denylistConfig "/srv/proj".toList)
        = .ok denylistChain
    ∧ (Scanner.New "/srv/proj".toList denylistChain.toFilter).Scan
          (.found (projTree "proj".toList))
        = .ok ["/srv/proj/main.js".toList, "/srv/proj/node_modules/index.js".toList] :=
  ⟨rfl, rfl, rfl, rfl, rfl⟩

/-- Claim C4 at the scan root `proj` and at the scan root `vendor`: the walker passes
proj/node_modules for the entry node_modules, whose first segment relative to the root is
denylisted, and `DirFilter.ShouldInclude` accepts it; it passes vendor/main.go for the
entry main.go, whose first segment relative to the root is not denylisted, and
`DirFilter.ShouldInclude` rejects it. -/
theorem dirFilter_first_segment_of_walk_path :
    filepath.Join "proj".toList "node_modules".toList = "proj/node_modules".toList
    ∧ firstComponent "node_modules".toList ∈ ["node_modules".toList]
    ∧ DirFilter.ShouldInclude ["node_modules".toList]
        (filepath.Join "proj".toList "node_modules".toList) ⟨"node_modules".toList, true⟩ = true
    ∧ filepath.Join "vendor".toList "main.go".toList = "vendor/main.go".toList
    ∧ firstComponent "main.go".toList ∉ ["vendor".toList]
    ∧ DirFilter.ShouldInclude ["vendor".toList]
        (filepath.Join "vendor".toList "main.go".toList) ⟨"main.go".toList, false⟩ = false := by
  refine ⟨rfl, by decide, rfl, rfl, by decide, rfl⟩

theorem buildChain_has_dirFilter (lib : GitignoreLib) (fsys : FileSys) (cfg : Config)
    (chain : Chain) (h : BuildChain lib fsys cfg = .ok chain) (hD : cfg.IgnoreDirs ≠ []) :
    Filter.dir cfg.IgnoreDirs ∈ chain.filters := by
  have hhead : Filter.dir cfg.IgnoreDirs ∈ chainHead cfg := by
    simp [chainHead, hD]
  rw [buildChain_eq] at h
  by_cases hg : cfg.GitignorePath ≠ [] ∨ cfg.CustomPatterns ≠ []
  · simp only [hg, if_true] at h
    cases hN : NewGitignoreFilter lib fsys cfg.BaseDir cfg.GitignorePath
        cfg.CustomPatterns with
    | error e => rw [hN] at h; cases h
    | ok g =>
      rw [hN] at h
      simp only [Except.ok.injEq] at h
      rw [← h]
      simp [hhead]
  · simp only [hg, if_false, Except.ok.injEq] at h
    rw [← h]
    simp [hhead]

/-- What the denylist does guarantee, whatever the base directory: no path that `Scan`
returns with the chain of `BuildChain` has a denylisted first component; for the base
directory `.`, whose walk paths are relative to it, these are the paths under the
denylisted directories of the base directory. -/
theorem scan_first_component_not_denied (lib : GitignoreLib) (fsys : FileSys) (cfg : Config)
    (chain : Chain) (b : Str) (st : RootStat) (files : List Str)
    (hB : BuildChain lib fsys cfg = .ok chain)
    (hS : (Scanner.New b chain.toFilter).Scan st = .ok files) :
    ∀ f ∈ files, firstComponent f ∉ cfg.IgnoreDirs := by
  intro f hf hmem
  have hD : cfg.IgnoreDirs ≠ [] := List.ne_nil_of_mem hmem
  obtain ⟨v, _, hc, hp⟩ := (mem_scan _ st files hS f).mp hf
  simp only [Visit.collected, Bool.and_eq_true] at hc
  have hacc : chain.ShouldInclude v.path v.entry = true := hc.1.2
  rw [Chain.ShouldInclude, chain_loop_eq_all, List.all_eq_true] at hacc
  have hdir := hacc _ (buildChain_has_dirFilter lib fsys cfg chain hB hD)
  have hrej := (dirFilter_first_component cfg.IgnoreDirs v.path v.entry).mpr
    (by rw [hp]; exact hmem)
  rw [Filter.ShouldInclude, hrej] at hdir
  exact absurd hdir (by simp)

/-! ## The order of the result -/

theorem join_consHead (sep : Str) (c : Char) (l : List Str) (h : l ≠ []) :
    strings.Join sep (strings.consHead c l) = c :: strings.Join sep l := by
  cases l with
  | nil => exact absurd rfl h
  | cons x xs =>
    cases xs with
    | nil => simp [strings.consHead, strings.Join]
    | cons y ys => simp [strings.consHead, strings.Join]

theorem join_split (s : Str) : strings.Join ['/'] (strings.Split '/' s) = s := by
  induction s with
  | nil => rfl
  | cons c cs ih =>
    simp only [strings.Split]
    by_cases h : c = '/'
    · simp only [h, if_true]
      cases hs : strings.Split '/' cs with
      | nil => exact absurd hs (split_ne_nil _ _)
      | cons x xs =>
        rw [hs] at ih
        rw [join_cons_cons, ih]
        rfl
    · simp only [h, if_false]
      rw [join_consHead _ _ _ (split_ne_nil _ _), ih]

theorem relLoop_prefix (xs ys : List Str) : filepath.relLoop xs (xs ++ ys) = ([], ys) := by
  induction xs with
  | nil => cases ys <;> rfl
  | cons x xs ih => simp [filepath.relLoop, ih]

theorem clean_ne_nil (p : Str) : filepath.Clean p ≠ [] := by
  unfold filepath.Clean
  by_cases hp : p = []
  · simp [hp]
  · simp only [hp, if_false]
    split
    · simp
    · split <;> simp_all

theorem rel_of_clean (b c x : Str) (a : Char) (as : Str)
    (hb : filepath.Clean b = c)
    (hp : filepath.Clean (dirPrefix c ++ x) = dirPrefix c ++ x)
    (hx : x = a :: as) (ha : a ≠ '/')
    (hne : dirPrefix c ++ x ≠ c) (hcne : c ≠ []) :
    filepath.Rel b (dirPrefix c ++ x) = some x := by
  unfold filepath.Rel
  simp only [hb, hp, hne, if_false, filepath.Separator]
  have hx3 : x ≠ [] := by rw [hx]; simp
  by_cases h1 : c = ['.']
  · subst h1
    have hd : dirPrefix ['.'] = [] := rfl
    have hx2 : x ≠ ['/'] := by
      rw [hx]
      intro h
      simp only [List.cons.injEq] at h
      exact ha h.1
    simp only [hd, List.nil_append, if_true, filepath.relElems, if_false, filepath.Separator,
      hx2, hx3]
    have hl : filepath.relLoop [] (strings.Split '/' x) = ([], strings.Split '/' x) :=
      relLoop_prefix [] _
    rw [hl]
    simp [hx, ha, join_split]
  · by_cases h2 : c = ['/']
    · subst h2
      have hd : dirPrefix ['/'] = ['/'] := rfl
      have hs : strings.Split '/' (['/'] ++ x) = [] :: strings.Split '/' x := by
        simp [strings.Split]
      have hx4 : ['/'] ++ x ≠ ['/'] := by rw [hx]; simp
      have hl : filepath.relLoop [[]] ([] :: strings.Split '/' x)
          = ([], strings.Split '/' x) := relLoop_prefix [[]] _
      have e1 : (if ['/'] = ['.'] then ([] : Str) else ['/']) = ['/'] := by decide
      have e2 : (['/'] ++ x).head? = some '/' := rfl
      simp only [hd, e1, e2, filepath.relElems, filepath.Separator, hx4, if_false, if_true, hs,
        List.cons_ne_nil, List.append_eq_nil, false_and, List.head?_cons, ne_eq,
        not_true_eq_false]
      rw [hl]
      simp [join_split]
    · have hform2 : dirPrefix c ++ x = c ++ '/' :: x := by
        rw [dirPrefix_proper c h1 h2]; simp
      have hhead : (c ++ '/' :: x).head? = c.head? := by
        cases c with
        | nil => exact absurd rfl hcne
        | cons d ds => rfl
      have hp1 : c ++ '/' :: x ≠ ['/'] := by
        intro h
        have := congrArg List.length h
        simp only [List.length_append, List.length_cons, List.length_nil] at this
        have : 0 < c.length := List.length_pos.mpr hcne
        omega
      have hl : filepath.relLoop (strings.Split '/' c)
          (strings.Split '/' c ++ strings.Split '/' x) = ([], strings.Split '/' x) :=
        relLoop_prefix _ _
      simp only [hform2, h1, if_false, hhead, filepath.relElems, filepath.Separator, hcne, h2,
        hp1, List.append_eq_nil, false_and, split_append_sep, hl]
      simp [join_split]

/-- The path of an entry below the base directory, taken relative to the base directory,
is the part of the path that follows the prefix of the base directory. -/
theorem relPath_below (b n s : Str) (hn : niceName n) (hs : isTail s)
    (hc : filepath.Clean (dirPrefix (filepath.Clean b) ++ n ++ s)
      = dirPrefix (filepath.Clean b) ++ n ++ s) :
    RelPath (dirPrefix (filepath.Clean b) ++ n ++ s) b = n ++ s := by
  obtain ⟨a, as, hna⟩ : ∃ a as, n = a :: as := by
    cases n with
    | nil => exact absurd rfl hn.1
    | cons a as => exact ⟨a, as, rfl⟩
  have ha : a ≠ '/' := by
    intro h
    exact hn.2.1 (by simp [hna, h])
  have hne := dir_ne_below (filepath.Clean b) n s hn hs
  have e : dirPrefix (filepath.Clean b) ++ n ++ s = dirPrefix (filepath.Clean b) ++ (n ++ s) :=
    List.append_assoc _ _ _
  rw [e] at hc hne ⊢
  have hrel := rel_of_clean b (filepath.Clean b) (n ++ s) a (as ++ s) rfl hc
    (by simp [hna]) ha (Ne.symm hne) (clean_ne_nil b)
  rw [RelPath, hrel]

/-- The files of a well-formed tree have distinct paths relative to the base directory. -/
theorem relPath_inj_on_files (b : Str) (st : RootStat) (hwf : st.wellFormed = true)
    (v w : Visit) (hv : v ∈ st.visits b) (hw : w ∈ st.visits b)
    (hvd : v.entry.isDir = false) (hwd : w.entry.isDir = false)
    (h : RelPath v.path b = RelPath w.path b) : v.path = w.path := by
  cases st with
  | lstatErr e => simp [RootStat.visits] at hv
  | found n =>
    cases n with
    | file name =>
      simp only [RootStat.visits, Node.visits, List.mem_singleton] at hv hw
      rw [hv, hw]
    | dir name readErr children =>
      simp only [RootStat.wellFormed, Node.wellFormed, Bool.and_eq_true,
        decide_eq_true_eq] at hwf
      obtain ⟨_, hform⟩ := visitsOf_paths (filepath.Clean b) children [(b, ⟨name, true⟩)]
        (clean_clean b) hwf.1 hwf.2
      simp only [RootStat.visits, Node.visits, List.nil_append, List.mem_cons,
        visitsOf_clean b _ children hwf.1] at hv hw
      have hv2 : v ∈ visitsOf (filepath.Clean b) [(b, ⟨name, true⟩)] children := by
        rcases hv with hv | hv
        · rw [hv] at hvd; simp at hvd
        · exact hv
      have hw2 : w ∈ visitsOf (filepath.Clean b) [(b, ⟨name, true⟩)] children := by
        rcases hw with hw | hw
        · rw [hw] at hwd; simp at hwd
        · exact hw
      obtain ⟨⟨c1, hc1, s1, hs1, he1⟩, hcl1⟩ := hform v hv2
      obtain ⟨⟨c2, hc2, s2, hs2, he2⟩, hcl2⟩ := hform w hw2
      have hn1 := wellFormedList_nice children hwf.1 c1 hc1
      have hn2 := wellFormedList_nice children hwf.1 c2 hc2
      rw [he1] at hcl1 h ⊢
      rw [he2] at hcl2 h ⊢
      rw [relPath_below b _ _ hn1 hs1 hcl1, relPath_below b _ _ hn2 hs2 hcl2] at h
      simp only [List.append_assoc]
      rw [h]

theorem sortSlice_sorted (key : Str → Str) (xs : List Str) :
    (sortSlice (fun a b => decide (key a < key b)) xs).Sorted (fun a b => key a ≤ key b) := by
  unfold sortSlice
  haveI : IsTotal Str (fun a b => (fun a b => decide (key a < key b)) b a = false) :=
    ⟨fun a b => by
      simp only [decide_eq_false_iff_not, not_lt]
      exact le_total (key a) (key b)⟩
  haveI : IsTrans Str (fun a b => (fun a b => decide (key a < key b)) b a = false) :=
    ⟨fun a b c h1 h2 => by
      simp only [decide_eq_false_iff_not, not_lt] at h1 h2 ⊢
      exact le_trans h1 h2⟩
  have h := List.sorted_insertionSort
    (fun a b => (fun a b => decide (key a < key b)) b a = false) xs
  refine List.Pairwise.imp ?_ h
  intro a b hab
  simpa using hab

theorem sortSlice_perm (less : Str → Str → Bool) (xs : List Str) :
    (sortSlice less xs).Perm xs := by
  unfold sortSlice
  exact List.perm_insertionSort _ xs

/-- The paths that `Scan` collects in a well-formed tree are distinct. -/
theorem collected_nodup (F : Filter) (b : Str) (st : RootStat) (hwf : st.wellFormed = true) :
    (((st.visits b).filter (Visit.collected F)).map Visit.path).Nodup :=
  List.Nodup.sublist ((List.filter_sublist _).map Visit.path) (visits_nodup b st hwf)

/-- The result of `Scan` on a well-formed tree is strictly increasing in the path
relative to the base directory. -/
theorem scan_pairwise_lt (s : Scanner) (st : RootStat) (files : List Str)
    (hS : s.Scan st = .ok files) (hwf : st.wellFormed = true) :
    files.Pairwise (fun x y => RelPath x s.baseDir < RelPath y s.baseDir) := by
  have hmem := mem_scan s st files hS
  rw [scan_eq] at hS
  simp only [Except.ok.injEq] at hS
  have hsorted := sortSlice_sorted (fun a => RelPath a s.baseDir)
    (((st.visits s.baseDir).filter (Visit.collected s.filter)).map Visit.path)
  have hnodup : files.Nodup := by
    rw [← hS]
    exact (sortSlice_perm _ _).nodup_iff.mpr (collected_nodup s.filter s.baseDir st hwf)
  rw [hS] at hsorted
  have hboth := List.Pairwise.and hsorted hnodup
  refine List.Pairwise.imp_of_mem ?_ hboth
  intro x y hx hy hxy
  obtain ⟨hle, hne⟩ := hxy
  obtain ⟨v, hv, hvc, hvp⟩ := (hmem x).mp hx
  obtain ⟨w, hw, hwc, hwp⟩ := (hmem y).mp hy
  simp only [Visit.collected, Bool.and_eq_true, Bool.not_eq_true'] at hvc hwc
  rcases lt_or_eq_of_le hle with hlt | heq
  · exact hlt
  · exfalso
    apply hne
    rw [← hvp, ← hwp] at heq ⊢
    exact relPath_inj_on_files s.baseDir st hwf v w hv hw hvc.1.1 hwc.1.1 heq

/-- Claim C11: on a well-formed tree the list `Scan` returns is strictly increasing in the
lexicographic order of the paths taken relative to the base directory, hence sorted and
without duplicates; the files z.go, a.go, m.go, b.go of one directory come out as a.go,
b.go, m.go, z.go. -/
theorem scan_strictly_increasing (s : Scanner) (st : RootStat) (files : List Str)
    (hS : s.Scan st = .ok files) (hwf : st.wellFormed = true) :
    files.Pairwise (fun x y => RelPath x s.baseDir < RelPath y s.baseDir)
    ∧ files.Sorted (fun x y => RelPath x s.baseDir ≤ RelPath y s.baseDir)
    ∧ files.Nodup
    ∧ (Scanner.New "/t".toList allowAllFilter).Scan (.found sortedTree)
        = .ok ["/t/a.go".toList, "/t/b.go".toList, "/t/m.go".toList, "/t/z.go".toList] := by
  have h := scan_pairwise_lt s st files hS hwf
  refine ⟨h, ?_, ?_, rfl⟩
  · exact List.Pairwise.imp (fun hlt => le_of_lt hlt) h
  · refine List.Pairwise.imp ?_ h
    intro a b hlt hab
    rw [hab] at hlt
    exact lt_irrefl _ hlt

/-- Witness of C11 on the tree of the test "Results are sorted". -/
theorem scan_strictly_increasing_witness :
    sortedTree.wellFormed = true
    ∧ ["/t/a.go".toList, "/t/b.go".toList, "/t/m.go".toList, "/t/z.go".toList].Pairwise
        (fun x y => RelPath x "/t".toList < RelPath y "/t".toList) :=
  ⟨rfl, (scan_strictly_increasing (Scanner.New "/t".toList allowAllFilter)
    (.found sortedTree) _ rfl rfl).1⟩

/-- Claim C12: every path that `Scan` returns is the path of a non-directory entry of the
tree, and in a well-formed tree no directory has a returned path: accepted directories
are entered, never appended; a tree with the directory src and the file main.go under a
filter accepting everything yields exactly the path of main.go. -/
theorem scan_no_directory (s : Scanner) (st : RootStat) (files : List Str)
    (hS : s.Scan st = .ok files) :
    (∀ f ∈ files, ∃ v ∈ st.visits s.baseDir, v.path = f ∧ v.entry.isDir = false)
    ∧ (st.wellFormed = true →
        ∀ v ∈ st.visits s.baseDir, v.entry.isDir = true → v.path ∉ files)
    ∧ (Scanner.New "/t".toList allowAllFilter).Scan (.found srcTree)
        = .ok ["/t/main.go".toList] := by
  have hfile : ∀ f ∈ files, ∃ v ∈ st.visits s.baseDir, v.path = f ∧ v.entry.isDir = false := by
    intro f hf
    obtain ⟨v, hv, hc, hp⟩ := (mem_scan s st files hS f).mp hf
    simp only [Visit.collected, Bool.and_eq_true, Bool.not_eq_true'] at hc
    exact ⟨v, hv, hp, hc.1.1⟩
  refine ⟨hfile, ?_, rfl⟩
  intro hwf v hv hdir hmem
  obtain ⟨w, hw, hp, hwd⟩ := hfile v.path hmem
  have hwv : w = v := List.inj_on_of_nodup_map (visits_nodup s.baseDir st hwf) hw hv hp
  rw [hwv, hdir] at hwd
  exact absurd hwd (by simp)

/-- Witness of C12 on the tree of the test "Scan excludes directories": the directory
src is an entry of the tree and its path is not returned. -/
theorem scan_no_directory_witness :
    srcTree.wellFormed = true
    ∧ "/t/src".toList ∉ ["/t/main.go".toList] :=
  ⟨rfl, (scan_no_directory (Scanner.New "/t".toList allowAllFilter) (.found srcTree)
      ["/t/main.go".toList] rfl).2.1 rfl
    ⟨"/t/src".toList, ⟨"src".toList, true⟩, [("/t".toList, ⟨"t".toList, true⟩)]⟩
    (by
      have h : (RootStat.found srcTree).visits "/t".toList =
        [⟨"/t".toList, ⟨"t".toList, true⟩, []⟩,
         ⟨"/t/main.go".toList, ⟨"main.go".toList, false⟩, [("/t".toList, ⟨"t".toList, true⟩)]⟩,
         ⟨"/t/src".toList, ⟨"src".toList, true⟩, [("/t".toList, ⟨"t".toList, true⟩)]⟩] := rfl
      show _ ∈ (RootStat.found srcTree).visits "/t".toList
      rw [h]
      simp)
    rfl⟩

/-! ## Independence of the order of enumeration -/

theorem treePerm_entry {t u : Node} (h : TreePerm t u) : t.entry = u.entry := by
  cases h <;> rfl

/-- Induction over `TreePerm` and `ChildrenPerm` together. -/
theorem treePerm_induction (P : Node → Node → Prop) (Q : List Node → List Node → Prop)
    (hfile : ∀ name, P (.file name) (.file name))
    (hdir : ∀ name readErr cs ds, ChildrenPerm cs ds → Q cs ds →
      P (.dir name readErr cs) (.dir name readErr ds))
    (hnil : Q [] [])
    (hcons : ∀ c d cs ds, TreePerm c d → ChildrenPerm cs ds → P c d → Q cs ds →
      Q (c :: cs) (d :: ds))
    (hswap : ∀ a b l, Q (a :: b :: l) (b :: a :: l))
    (htrans : ∀ l1 l2 l3, Q l1 l2 → Q l2 l3 → Q l1 l3) :
    (∀ t u, TreePerm t u → P t u) ∧ (∀ cs ds, ChildrenPerm cs ds → Q cs ds) :=
  ⟨fun _ _ h => @TreePerm.rec (fun a b _ => P a b) (fun a b _ => Q a b) hfile
      (fun name readErr _ _ a ih => hdir name readErr _ _ a ih) hnil
      (fun a a1 ih1 ih2 => hcons _ _ _ _ a a1 ih1 ih2) hswap
      (fun _ _ ih1 ih2 => htrans _ _ _ ih1 ih2) _ _ h,
   fun _ _ h => @ChildrenPerm.rec (fun a b _ => P a b) (fun a b _ => Q a b) hfile
      (fun name readErr _ _ a ih => hdir name readErr _ _ a ih) hnil
      (fun a a1 ih1 ih2 => hcons _ _ _ _ a a1 ih1 ih2) hswap
      (fun _ _ ih1 ih2 => htrans _ _ _ ih1 ih2) _ _ h⟩

/-- The walk of `Scan` appends the same paths, in another order, when the entries of the
directories are enumerated in another order. -/
theorem treePerm_emitted (F : Filter) (t u : Node) (h : TreePerm t u) (path : Str) :
    (emitted F path t).Perm (emitted F path u) := by
  refine (treePerm_induction
    (fun t u => ∀ path, (emitted F path t).Perm (emitted F path u))
    (fun cs ds => ∀ path, (emittedOf F path cs).Perm (emittedOf F path ds))
    ?_ ?_ ?_ ?_ ?_ ?_).1 t u h path
  · intro name path
    exact List.Perm.refl _
  · intro name readErr cs ds _ ih path
    simp only [emitted]
    split
    · exact ih path
    · exact List.Perm.refl _
  · intro path
    exact List.Perm.refl _
  · intro c d cs ds hcd _ ih1 ih2 path
    simp only [emittedOf]
    rw [treePerm_entry hcd]
    exact List.Perm.append (ih1 _) (ih2 path)
  · intro a b l path
    simp only [emittedOf, ← List.append_assoc]
    exact List.Perm.append_right _ List.perm_append_comm
  · intro l1 l2 l3 h1 h2 path
    exact (h1 path).trans (h2 path)

/-- Well-formedness does not depend on the order of enumeration. -/
theorem treePerm_wellFormed (t u : Node) (h : TreePerm t u) (hwf : t.wellFormed = true) :
    u.wellFormed = true := by
  refine (treePerm_induction
    (fun t u => t.wellFormed = true → u.wellFormed = true)
    (fun cs ds => (cs.map (fun c => c.entry.name)).Perm (ds.map (fun c => c.entry.name))
      ∧ (wellFormedList cs = true → wellFormedList ds = true))
    ?_ ?_ ?_ ?_ ?_ ?_).1 t u h hwf
  · intro name h
    exact h
  · intro name readErr cs ds _ ih h
    simp only [Node.wellFormed, Bool.and_eq_true, decide_eq_true_eq] at h ⊢
    exact ⟨ih.2 h.1, ih.1.nodup_iff.mp h.2⟩
  · exact ⟨List.Perm.refl _, fun h => h⟩
  · intro c d cs ds hcd _ ih1 ih2
    refine ⟨?_, ?_⟩
    · simp only [List.map_cons, treePerm_entry hcd]
      exact List.Perm.cons _ ih2.1
    · intro h
      simp only [wellFormedList, Bool.and_eq_true, decide_eq_true_eq] at h ⊢
      rw [← treePerm_entry hcd]
      exact ⟨⟨h.1.1, ih1 h.1.2⟩, ih2.2 h.2⟩
  · intro a b l
    refine ⟨?_, ?_⟩
    · simp only [List.map_cons]
      exact List.Perm.swap _ _ _
    · intro h
      simp only [wellFormedList, Bool.and_eq_true, decide_eq_true_eq] at h ⊢
      exact ⟨h.2.1, h.1, h.2.2⟩
  · intro l1 l2 l3 h1 h2
    exact ⟨h1.1.trans h2.1, fun h => h2.2 (h1.2 h)⟩

/-- On a well-formed tree `Scan` returns the same list whatever the order of
enumeration. -/
theorem scan_treePerm (s : Scanner) (t u : Node) (h : TreePerm t u)
    (hwf : t.wellFormed = true) : s.Scan (.found t) = s.Scan (.found u) := by
  have hwfu := treePerm_wellFormed t u h hwf
  have h1 := scan_pairwise_lt s (.found t) _ (scan_eq s (.found t)) hwf
  have h2 := scan_pairwise_lt s (.found u) _ (scan_eq s (.found u)) hwfu
  rw [scan_eq s (.found t), scan_eq s (.found u)]
  congr 1
  haveI : IsAntisymm Str (fun x y => RelPath x s.baseDir < RelPath y s.baseDir) :=
    ⟨fun _ _ hab hba => absurd hba (lt_asymm hab)⟩
  refine List.eq_of_perm_of_sorted ?_ h1 h2
  refine (sortSlice_perm _ _).trans (List.Perm.trans ?_ (sortSlice_perm _ _).symm)
  simp only [RootStat.visits]
  rw [← emitted_eq_collected s.filter s.baseDir t [] (by simp),
    ← emitted_eq_collected s.filter s.baseDir u [] (by simp)]
  exact treePerm_emitted s.filter t u h s.baseDir

/-- Claim C13: the list `Scan` returns does not depend on the order in which the entries
of the directories are enumerated: two trees, the first well formed, that differ only by
that order yield the same list in the same order; and `Scan` being a function of the
tree and the filter, two scans of one tree with one filter yield the same list. -/
theorem scan_order_independent (s : Scanner) (t u : Node) (h : TreePerm t u)
    (hwf : t.wellFormed = true) :
    s.Scan (.found t) = s.Scan (.found u)
    ∧ ∀ r1 r2, s.Scan (.found t) = r1 → s.Scan (.found t) = r2 → r1 = r2 := by
  constructor
  · exact scan_treePerm s t u h hwf
  · intro r1 r2 h1 h2
    rw [← h1, ← h2]

/-- Witness of C13: the tree of the test "Results are sorted" and the same tree with
z.go and a.go enumerated in the other order give the same list. -/
theorem scan_order_independent_witness :
    (Scanner.New "/t".toList allowAllFilter).Scan (.found sortedTree)
      = (Scanner.New "/t".toList allowAllFilter).Scan (.found sortedTreeSwapped) :=
  (scan_order_independent (Scanner.New "/t".toList allowAllFilter) sortedTree
    sortedTreeSwapped (TreePerm.dir _ _ (ChildrenPerm.swap _ _ _)) rfl).1

/-! ## The end-to-end scenario -/

/-- The path `WalkDir` gives to the entry `n` of the base directory. -/
theorem join_child (b n : Str) (hn : niceName n) :
    filepath.Join b n = dirPrefix (filepath.Clean b) ++ n
    ∧ filepath.Clean (dirPrefix (filepath.Clean b) ++ n) = dirPrefix (filepath.Clean b) ++ n := by
  obtain ⟨h1, h2⟩ := join_clean_nice (filepath.Clean b) n (clean_clean b) hn
  rw [joinClean_eq] at h1 h2
  exact ⟨(join_nice b n hn).trans h1, h2⟩

theorem dirPrefix_cases (c : Str) : dirPrefix c = [] ∨ ∃ d, dirPrefix c = d ++ ['/'] := by
  unfold dirPrefix
  by_cases h1 : c = ['.']
  · simp [h1]
  · by_cases h2 : c = ['/']
    · right
      exact ⟨[], by simp [h1, h2]⟩
    · right
      exact ⟨c, by simp [h1, h2]⟩

theorem base_join (b n : Str) (hn : niceName n) : filepath.Base (filepath.Join b n) = n := by
  rw [(join_child b n hn).1]
  rcases dirPrefix_cases (filepath.Clean b) with h | ⟨d, h⟩
  · rw [h, List.nil_append]
    exact base_of_name n hn.1 hn.2.1
  · rw [h, List.append_assoc]
    exact base_append_name d n hn.1 hn.2.1

theorem lastElement_join (b n : Str) (hn : niceName n) :
    lastElement (filepath.Join b n) = n := by
  have hall : ∀ x ∈ n.reverse, (decide (x ≠ '/')) = true := by
    intro x hx
    simp only [ne_eq, decide_not, Bool.not_eq_true', decide_eq_false_iff_not]
    intro h
    exact hn.2.1 (h ▸ List.mem_reverse.mp hx)
  rw [(join_child b n hn).1]
  unfold lastElement
  rcases dirPrefix_cases (filepath.Clean b) with h | ⟨d, h⟩
  · rw [h, List.nil_append, List.takeWhile_eq_self_iff.mpr hall, List.reverse_reverse]
  · rw [h]
    simp only [List.reverse_append, List.reverse_cons, List.reverse_nil, List.nil_append,
      List.singleton_append, List.append_assoc]
    rw [List.takeWhile_append_of_pos hall]
    simp [List.takeWhile_cons]

theorem hidden_join (b n : Str) (hn : niceName n) (d : Entry) :
    HiddenFilter.ShouldInclude (filepath.Join b n) d = HiddenFilter.ShouldInclude n d := by
  unfold HiddenFilter.ShouldInclude
  rw [base_join b n hn, base_of_name n hn.1 hn.2.1]

theorem lastElement_name (n : Str) (hs : '/' ∉ n) : lastElement n = n := by
  have hall : ∀ x ∈ n.reverse, (decide (x ≠ '/')) = true := by
    intro x hx
    simp only [ne_eq, decide_not, Bool.not_eq_true', decide_eq_false_iff_not]
    intro h
    exact hs (h ▸ List.mem_reverse.mp hx)
  unfold lastElement
  rw [List.takeWhile_eq_self_iff.mpr hall, List.reverse_reverse]

theorem extension_join (E : List Str) (b n : Str) (hn : niceName n) (d : Entry) :
    ExtensionFilter.ShouldInclude E (filepath.Join b n) d
      = ExtensionFilter.ShouldInclude E n d := by
  unfold ExtensionFilter.ShouldInclude
  rw [ext_eq_spec, ext_eq_spec, lastElement_join b n hn, lastElement_name n hn.2.1]

theorem relPath_join (b n : Str) (hn : niceName n) : RelPath (filepath.Join b n) b = n := by
  obtain ⟨h1, h2⟩ := join_child b n hn
  have h := relPath_below b n [] hn (Or.inl rfl) (by simpa using h2)
  rw [h1]
  simpa using h

/-- What `Scan` returns, by the paths its walk appends. -/
theorem scan_eq_emitted (s : Scanner) (n : Node) :
    s.Scan (.found n) = .ok (sortSlice
      (fun a b => decide (RelPath a s.baseDir < RelPath b s.baseDir))
      (emitted s.filter s.baseDir n)) := by
  simp only [Scanner.Scan, WalkDir, walkDir_visit, List.nil_append]

theorem hidden_accepts (b : Str) (d : Entry)
    (hb : ¬ ((filepath.Base b).head? = some '.' ∧ filepath.Base b ≠ ['.']
      ∧ filepath.Base b ≠ ['.', '.'])) :
    HiddenFilter.ShouldInclude b d = true := by
  unfold HiddenFilter.ShouldInclude strings.HasPrefix
  cases hc : filepath.Base b with
  | nil => simp
  | cons c cs =>
    rw [hc] at hb
    by_cases h : c = '.'
    · subst h
      simp only [List.head?_cons, true_and, ne_eq, not_and_or, not_not] at hb
      rcases hb with hb | hb <;> simp [hb]
    · have h2 : ¬ ('.' = c) := fun e => h e.symm
      simp [List.isPrefixOf, h, h2]

theorem goChain_on_child (b n : Str) (hn : niceName n) (d : Entry) :
    goChain.toFilter.ShouldInclude (filepath.Join b n) d = goChain.toFilter.ShouldInclude n d := by
  simp only [Chain.toFilter, Filter.ShouldInclude, Chain.ShouldInclude, goChain, Chain.loop,
    hidden_join b n hn, extension_join _ b n hn]

/-- The scan of the directory of the scenario, its files enumerated as `ReadDir` does. -/
theorem scan_fourFilesTree (b name : Str)
    (hb : HiddenFilter.ShouldInclude b ⟨name, true⟩ = true) :
    (Scanner.New b goChain.toFilter).Scan (.found (fourFilesTree name))
      = .ok [filepath.Join b "main.go".toList, filepath.Join b "util.go".toList] := by
  have hroot : goChain.toFilter.ShouldInclude b ⟨name, true⟩ = true := by
    simp [Chain.toFilter, Filter.ShouldInclude, Chain.ShouldInclude, goChain, Chain.loop, hb,
      ExtensionFilter.ShouldInclude]
  have h1 : goChain.toFilter.ShouldInclude (filepath.Join b "README.md".toList)
      ⟨"README.md".toList, false⟩ = false := by
    rw [goChain_on_child b _ (by decide)]; rfl
  have h2 : goChain.toFilter.ShouldInclude (filepath.Join b "main.go".toList)
      ⟨"main.go".toList, false⟩ = true := by
    rw [goChain_on_child b _ (by decide)]; rfl
  have h3 : goChain.toFilter.ShouldInclude (filepath.Join b "test.txt".toList)
      ⟨"test.txt".toList, false⟩ = false := by
    rw [goChain_on_child b _ (by decide)]; rfl
  have h4 : goChain.toFilter.ShouldInclude (filepath.Join b "util.go".toList)
      ⟨"util.go".toList, false⟩ = true := by
    rw [goChain_on_child b _ (by decide)]; rfl
  have hem : emitted goChain.toFilter b (fourFilesTree name)
      = [filepath.Join b "main.go".toList, filepath.Join b "util.go".toList] := by
    simp only [fourFilesTree, emitted, emittedOf, Node.entry, hroot, h1, h2, h3, h4]
    simp
  rw [scan_eq_emitted, Scanner.New, hem]
  simp only [sortSlice, List.insertionSort, List.orderedInsert,
    relPath_join b "main.go".toList (by decide), relPath_join b "util.go".toList (by decide)]
  have hlt : ¬ ("util.go".toList < "main.go".toList) := by decide
  simp only [decide_eq_false_iff_not, hlt, not_false_eq_true, if_true]

/-- Claim C14, amended: for every base directory whose base name does not start with a
dot, or is `.` or `..`, and that holds exactly the regular files main.go, util.go,
README.md and test.txt, in whatever order they are enumerated, `BuildChain` succeeds on
the configuration with the extension `.go`, hidden entries excluded and nothing else,
and `Scan` with its chain returns the paths of main.go and util.go, in this order. -/
theorem scan_go_files (lib : GitignoreLib) (fsys : FileSys) (b name : Str) (u : Node)
    (hb : ¬ ((filepath.Base b).head? = some '.' ∧ filepath.Base b ≠ ['.']
      ∧ filepath.Base b ≠ ['.', '.']))
    (hu : TreePerm (fourFilesTree name) u) :
    BuildChain lib fsys (goConfig b) = .ok goChain
    ∧ (Scanner.New b goChain.toFilter).Scan (.found u)
        = .ok [filepath.Join b "main.go".toList, filepath.Join b "util.go".toList] := by
  constructor
  · rw [buildChain_eq]
    rfl
  · rw [← scan_treePerm _ (fourFilesTree name) u hu rfl]
    exact scan_fourFilesTree b name (hidden_accepts b _ hb)

/-- Witness of C14, amended, at the base directory /tmp/proj. -/
theorem scan_go_files_witness :
    BuildChain noGitignore emptyFileSys (goConfig "/tmp/proj".toList) = .ok goChain
    ∧ (Scanner.New "/tmp/proj".toList goChain.toFilter).Scan
          (.found (fourFilesTree "proj".toList))
        = .ok [filepath.Join "/tmp/proj".toList "main.go".toList,
               filepath.Join "/tmp/proj".toList "util.go".toList] :=
  scan_go_files noGitignore emptyFileSys "/tmp/proj".toList "proj".toList
    (fourFilesTree "proj".toList) (by decide)
    (TreePerm.dir _ _ (ChildrenPerm.cons (TreePerm.file _) (ChildrenPerm.cons (TreePerm.file _)
      (ChildrenPerm.cons (TreePerm.file _) (ChildrenPerm.cons (TreePerm.file _)
        ChildrenPerm.nil)))))

/-- Claim C14 at the base directory /home/u/.proj, which holds exactly the four files:
the hidden filter of the chain rejects the base directory itself, and `Scan` returns the
empty list, not the paths of main.go and util.go. -/
theorem scan_go_files_hidden_base :
    BuildChain noGitignore emptyFileSys (goConfig "/home/u/.proj".toList) = .ok goChain
    ∧ (Scanner.New "/home/u/.proj".toList goChain.toFilter).Scan
          (.found (fourFilesTree ".proj".toList)) = .ok []
    ∧ (Scanner.New "/home/u/.proj".toList goChain.toFilter).Scan
          (.found (fourFilesTree ".proj".toList))
        ≠ .ok [filepath.Join "/home/u/.proj".toList "main.go".toList,
               filepath.Join "/home/u/.proj".toList "util.go".toList] := by
  have h : (Scanner.New "/home/u/.proj".toList goChain.toFilter).Scan
      (.found (fourFilesTree ".proj".toList)) = .ok [] := rfl
  refine ⟨rfl, h, ?_⟩
  rw [h]
  intro hne
  cases hne

/-! ## The gitignore filter -/

theorem parseLines_cons (lib : GitignoreLib) (l : Str) (ls : List Str) :
    parseLines lib (l :: ls)
      = (if keepLine l then [lib.ParsePattern (strings.TrimSpace l)] else [])
          ++ parseLines lib ls := by
  simp only [parseLines, keepLine]
  by_cases h : (decide (strings.TrimSpace l = [])
      || strings.HasPrefix (strings.TrimSpace l) ['#']) = true
  · rw [if_pos h]
    simp [h]
  · rw [if_neg h]
    simp only [Bool.not_eq_true] at h
    simp [h]

theorem parseLines_eq (lib : GitignoreLib) (lines : List Str) :
    parseLines lib lines
      = (lines.filter keepLine).map (fun l => lib.ParsePattern (strings.TrimSpace l)) := by
  induction lines with
  | nil => rfl
  | cons l ls ih =>
    rw [parseLines_cons, ih, List.filter_cons]
    cases keepLine l <;> simp

theorem parseLines_append (lib : GitignoreLib) (l1 l2 : List Str) :
    parseLines lib (l1 ++ l2) = parseLines lib l1 ++ parseLines lib l2 := by
  simp only [parseLines_eq, List.filter_append, List.map_append]

/-- When the gitignore file can be read, or there is none, `NewGitignoreFilter` returns
the filter over the patterns of the file followed by the custom patterns. -/
theorem newGitignoreFilter_ok (lib : GitignoreLib) (fsys : FileSys)
    (baseDir gitignorePath : Str) (customPatterns : List Str) (fp : List lib.Pattern)
    (h : filePatterns lib fsys gitignorePath = some fp) :
    NewGitignoreFilter lib fsys baseDir gitignorePath customPatterns
      = .ok (gitFilterOf lib (fp ++ parseLines lib customPatterns) baseDir) := by
  unfold filePatterns at h
  unfold NewGitignoreFilter loadGitignoreFile gitFilterOf
  by_cases hg : gitignorePath = []
  · simp only [hg, if_true, Option.some.injEq] at h
    subst h
    simp only [hg, ne_eq, not_true_eq_false, if_false]
    split <;> rfl
  · simp only [hg, if_false] at h
    simp only [hg, ne_eq, not_false_eq_true, if_true]
    cases hf : fsys gitignorePath with
    | notExist =>
      rw [hf] at h
      simp only [Option.some.injEq] at h
      subst h
      simp only []
      split <;> rfl
    | openErr e =>
      rw [hf] at h
      cases h
    | lines ls scanErr =>
      rw [hf] at h
      cases scanErr with
      | none =>
        simp only [Option.isSome_none, Bool.false_eq_true, if_false, Option.some.injEq] at h
        subst h
        simp only []
        split <;> rfl
      | some e =>
        simp at h

/-- When the gitignore file cannot be read, `NewGitignoreFilter` returns an error. -/
theorem newGitignoreFilter_error (lib : GitignoreLib) (fsys : FileSys)
    (baseDir gitignorePath : Str) (customPatterns : List Str)
    (h : filePatterns lib fsys gitignorePath = none) :
    ∃ err, NewGitignoreFilter lib fsys baseDir gitignorePath customPatterns = .error err := by
  unfold filePatterns at h
  unfold NewGitignoreFilter loadGitignoreFile
  by_cases hg : gitignorePath = []
  · simp [hg] at h
  · simp only [hg, if_false] at h
    simp only [hg, ne_eq, not_false_eq_true, if_true]
    cases hf : fsys gitignorePath with
    | notExist => rw [hf] at h; cases h
    | openErr e => exact ⟨_, rfl⟩
    | lines ls scanErr =>
      rw [hf] at h
      cases scanErr with
      | none => simp at h
      | some e => exact ⟨_, rfl⟩

/-- Claim C18: when `NewGitignoreFilter` succeeds, the list of patterns it hands to the
matcher is the patterns of the gitignore file, in the order of its lines, followed by the
custom patterns, in the order of the arguments; so the custom patterns come after every
pattern of the file. -/
theorem newGitignoreFilter_pattern_order (lib : GitignoreLib) (fsys : FileSys)
    (baseDir gitignorePath : Str) (customPatterns : List Str) (g : GitignoreFilter)
    (h : NewGitignoreFilter lib fsys baseDir gitignorePath customPatterns = .ok g) :
    ∃ fp : List lib.Pattern,
      filePatterns lib fsys gitignorePath = some fp
      ∧ (∀ ls, gitignorePath ≠ [] → fsys gitignorePath = .lines ls none →
          fp = (ls.filter keepLine).map (fun l => lib.ParsePattern (strings.TrimSpace l)))
      ∧ parseLines lib customPatterns
          = (customPatterns.filter keepLine).map
              (fun l => lib.ParsePattern (strings.TrimSpace l))
      ∧ g = gitFilterOf lib (fp ++ parseLines lib customPatterns) baseDir
      ∧ (fp ++ parseLines lib customPatterns ≠ [] →
          g.matcher = some (lib.NewMatcher (fp ++ parseLines lib customPatterns))) := by
  cases hfp : filePatterns lib fsys gitignorePath with
  | none =>
    obtain ⟨e, he⟩ := newGitignoreFilter_error lib fsys baseDir gitignorePath customPatterns hfp
    rw [he] at h
    cases h
  | some fp =>
    rw [newGitignoreFilter_ok lib fsys baseDir gitignorePath customPatterns fp hfp] at h
    simp only [Except.ok.injEq] at h
    refine ⟨fp, rfl, ?_, parseLines_eq lib customPatterns, h.symm, ?_⟩
    · intro ls hg hf
      unfold filePatterns at hfp
      simp only [hg, if_false, hf, Option.isSome_none, Bool.false_eq_true,
        Option.some.injEq] at hfp
      rw [← hfp, parseLines_eq]
    · intro hne
      rw [← h]
      unfold gitFilterOf
      have hlen : (fp ++ parseLines lib customPatterns).length ≠ 0 := by
        intro h0
        exact hne (List.length_eq_zero.mp h0)
      simp only [hlen, if_false]

/-- Witness of C18: a gitignore file with the patterns `*.log` and `build/` and the
custom pattern `!important.log` give the matcher these three patterns in this order. -/
theorem newGitignoreFilter_pattern_order_witness :
    NewGitignoreFilter textPatterns
        (fileWith ["*.log".toList, "# comment".toList, "build/".toList])
        "/p".toList "/p/.gitignore".toList ["!important.log".toList]
      = .ok (gitFilterOf textPatterns
          (["*.log".toList, "build/".toList, "!important.log".toList] :
            List textPatterns.Pattern) "/p".toList)
    ∧ ∃ fp : List textPatterns.Pattern,
      filePatterns textPatterns (fileWith ["*.log".toList, "# comment".toList, "build/".toList])
          "/p/.gitignore".toList = some fp
      ∧ gitFilterOf textPatterns
          (["*.log".toList, "build/".toList, "!important.log".toList] :
            List textPatterns.Pattern) "/p".toList
        = gitFilterOf textPatterns (fp ++ parseLines textPatterns ["!important.log".toList])
            "/p".toList := by
  refine ⟨rfl, ?_⟩
  obtain ⟨fp, h1, _, _, h4, _⟩ := newGitignoreFilter_pattern_order textPatterns
    (fileWith ["*.log".toList, "# comment".toList, "build/".toList])
    "/p".toList "/p/.gitignore".toList ["!important.log".toList]
    (gitFilterOf textPatterns
      (["*.log".toList, "build/".toList, "!important.log".toList] :
        List textPatterns.Pattern) "/p".toList) rfl
  exact ⟨fp, h1, h4⟩

/-- Claim C19, amended: a line of the gitignore file, or a custom pattern string,
contributes exactly one pattern, the parse of the line without the white space around
it, when the line so trimmed is not empty and does not begin with `#`, and contributes
nothing otherwise; a file that can be read yields the patterns of its lines; the file of
three patterns, two comments and one empty line yields three patterns and the empty file
none. -/
theorem parseLines_contribution (lib : GitignoreLib) (before after : List Str) (line : Str) :
    parseLines lib (before ++ line :: after)
      = parseLines lib before
          ++ (if keepLine line then [lib.ParsePattern (strings.TrimSpace line)] else [])
          ++ parseLines lib after
    ∧ (keepLine line = true ↔
        strings.TrimSpace line ≠ [] ∧ (strings.TrimSpace line).head? ≠ some '#')
    ∧ (∀ (fsys : FileSys) (path baseDir : Str) (ls : List Str),
        fsys path = .lines ls none →
          loadGitignoreFile lib fsys path baseDir = .ok (parseLines lib ls))
    ∧ (parseLines lib validGitignore).length = 3
    ∧ (parseLines lib []).length = 0 := by
  refine ⟨?_, ?_, ?_, ?_, rfl⟩
  · rw [parseLines_append, parseLines_cons, List.append_assoc]
  · unfold keepLine strings.HasPrefix
    cases strings.TrimSpace line with
    | nil => simp
    | cons c cs =>
      by_cases hc : c = '#'
      · simp [hc, List.isPrefixOf]
      · have hc2 : ¬ ('#' = c) := fun e => hc e.symm
        simp [hc, hc2, List.isPrefixOf]
  · intro fsys path baseDir ls hf
    simp only [loadGitignoreFile, hf]
  · rw [parseLines_eq, List.length_map]
    decide

/-- Claim C19 on the line made of two spaces and `# note`: the line is not blank and does
not begin with `#`, and it contributes no pattern, because the test for `#` is made after
the white space around the line is removed. -/
theorem indented_comment_contributes_nothing :
    strings.TrimSpace "  # note".toList ≠ []
    ∧ "  # note".toList.head? ≠ some '#'
    ∧ parseLines textPatterns ["  # note".toList] = []
    ∧ loadGitignoreFile textPatterns (fileWith ["  # note".toList]) "/p/.gitignore".toList
        "/p".toList = .ok [] := by
  refine ⟨by decide, by decide, rfl, rfl⟩

theorem dropWhile_snoc_keep (p : Char → Bool) (l : Str) (x : Char) (hx : p x = false) :
    ∃ l2, (l ++ [x]).dropWhile p = l2 ++ [x] := by
  induction l with
  | nil => exact ⟨[], by simp [List.dropWhile_cons, hx]⟩
  | cons c cs ih =>
    by_cases hc : p c = true
    · obtain ⟨l2, h2⟩ := ih
      exact ⟨l2, by simp [List.dropWhile_cons, hc, h2]⟩
    · exact ⟨c :: cs, by simp [List.dropWhile_cons, hc]⟩

theorem trimSpace_hash (rest : Str) :
    (strings.TrimSpace ('#' :: rest)).head? = some '#' := by
  unfold strings.TrimSpace
  have h1 : ('#' :: rest).dropWhile strings.isSpace = '#' :: rest := by
    have : strings.isSpace '#' = false := by decide
    simp [List.dropWhile_cons, this]
  rw [h1, List.reverse_cons]
  obtain ⟨l2, h2⟩ := dropWhile_snoc_keep strings.isSpace rest.reverse '#' (by decide)
  rw [h2]
  simp

/-- Claim C20: when every custom pattern is blank or a `#` comment, `NewGitignoreFilter`
without a gitignore file succeeds and the filter it returns accepts every path and entry;
a string that is empty after trimming, or that begins with `#`, is such a pattern. -/
theorem newGitignoreFilter_no_patterns (lib : GitignoreLib) (fsys : FileSys) (baseDir : Str)
    (customPatterns : List Str) (h : ∀ p ∈ customPatterns, keepLine p = false) :
    (∃ g, NewGitignoreFilter lib fsys baseDir [] customPatterns = .ok g
        ∧ ∀ path d, g.ShouldInclude path d = true)
    ∧ (∀ p : Str, (strings.TrimSpace p = [] ∨ p.head? = some '#') → keepLine p = false) := by
  constructor
  · have hnone : parseLines lib customPatterns = [] := by
      rw [parseLines_eq, List.filter_eq_nil_iff.mpr (fun p hp => by simp [h p hp])]
      rfl
    refine ⟨_, newGitignoreFilter_ok lib fsys baseDir [] customPatterns [] rfl, ?_⟩
    intro path d
    simp [hnone, gitFilterOf, GitignoreFilter.ShouldInclude]
  · intro p hp
    unfold keepLine
    rcases hp with hp | hp
    · simp [hp]
    · cases p with
      | nil => simp at hp
      | cons c cs =>
        simp only [List.head?_cons, Option.some.injEq] at hp
        subst hp
        have hh := trimSpace_hash cs
        cases ht : strings.TrimSpace ('#' :: cs) with
        | nil => simp
        | cons x xs =>
          rw [ht] at hh
          simp only [List.head?_cons, Option.some.injEq] at hh
          simp [strings.HasPrefix, List.isPrefixOf, hh]

/-- Witness of C20: the custom patterns of the tests "empty pattern" and "comment
pattern", and a string of spaces. -/
theorem newGitignoreFilter_no_patterns_witness :
    ∃ g, NewGitignoreFilter textPatterns emptyFileSys "/project".toList []
          [[], "# this is a comment".toList, "   ".toList] = .ok g
        ∧ ∀ path d, g.ShouldInclude path d = true :=
  (newGitignoreFilter_no_patterns textPatterns emptyFileSys "/project".toList
    [[], "# this is a comment".toList, "   ".toList] (by decide)).1

theorem gitFilter_shouldInclude (ps : List gitignore.Pattern) (baseDir path : Str) (d : Entry) :
    (gitFilterOf goGit ps baseDir).ShouldInclude path d
      = !(gitignore.matchLoop (gitParts path baseDir) d.isDir ps.reverse) := by
  unfold gitFilterOf
  by_cases h : ps.length = 0
  · have hps : ps = [] := List.length_eq_zero.mp h
    subst hps
    rfl
  · simp only [h, if_false]
    rfl

theorem pattern_match_cases (p : gitignore.Pattern) (parts : List Str) (isDir : Bool) :
    p.Match parts isDir = .NoMatch
      ∨ p.Match parts isDir = (if p.inclusion then .Include else .Exclude) := by
  unfold gitignore.Pattern.Match
  split
  · exact Or.inl rfl
  · split
    · exact Or.inl rfl
    · simp only []
      split
      · exact Or.inl rfl
      · split
        · exact Or.inl rfl
        · right
          cases p.inclusion <;> rfl

theorem matchLoop_find (parts : List Str) (isDir : Bool) (l : List gitignore.Pattern) :
    gitignore.matchLoop parts isDir l
      = match l.find? (fun p => p.Match parts isDir != .NoMatch) with
        | none => false
        | some p => !p.inclusion := by
  induction l with
  | nil => rfl
  | cons p ps ih =>
    simp only [gitignore.matchLoop, List.find?_cons]
    rcases pattern_match_cases p parts isDir with h | h
    · rw [h]
      simpa using ih
    · have he : (gitignore.MatchResult.Exclude != gitignore.MatchResult.NoMatch) = true := rfl
      have hn : (gitignore.MatchResult.Include != gitignore.MatchResult.NoMatch) = true := rfl
      cases hi : p.inclusion <;> simp [h, hi, he, hn]

theorem getLast_filter_reverse {α : Type} (f : α → Bool) (l : List α) :
    (l.reverse.filter f).getLast? = l.find? f := by
  induction l with
  | nil => rfl
  | cons a t ih =>
    simp only [List.reverse_cons, List.filter_append, List.find?_cons]
    cases hf : f a
    · simp [List.filter_cons, hf, ih]
    · simp [List.filter_cons, hf]

theorem lastMatching_eq (ps : List gitignore.Pattern) (parts : List Str) (isDir : Bool) :
    lastMatching ps parts isDir
      = ps.reverse.find? (fun p => p.Match parts isDir != .NoMatch) := by
  unfold lastMatching
  have h := getLast_filter_reverse (fun p : gitignore.Pattern => p.Match parts isDir != .NoMatch)
    ps.reverse
  rw [List.reverse_reverse] at h
  exact h

/-- Claim C15: the decision of the gitignore filter over a list of patterns is fixed by
the last pattern of the list that matches the path: rejected when that pattern is plain,
accepted when it is negated (it began with `!`), accepted when no pattern matches; with
`*.log` then `!important.log` the file important.log is accepted and debug.log rejected,
and with the two in the other order important.log is rejected. -/
theorem gitignore_last_match_wins (ps : List gitignore.Pattern) (baseDir path : Str)
    (d : Entry) :
    (gitFilterOf goGit ps baseDir).ShouldInclude path d
        = (match lastMatching ps (gitParts path baseDir) d.isDir with
            | none => true
            | some p => p.inclusion)
    ∧ (∀ s : Str, (gitignore.ParsePattern ('!' :: s)).inclusion = true)
    ∧ (∀ s : Str, s.head? ≠ some '!' → (gitignore.ParsePattern s).inclusion = false)
    ∧ NewGitignoreFilter goGit emptyFileSys "/project".toList []
          ["*.log".toList, "!important.log".toList]
        = .ok (gitFilterOf goGit [gitignore.ParsePattern "*.log".toList,
            gitignore.ParsePattern "!important.log".toList] "/project".toList)
    ∧ (gitFilterOf goGit [gitignore.ParsePattern "*.log".toList,
          gitignore.ParsePattern "!important.log".toList] "/project".toList).ShouldInclude
        "/project/important.log".toList ⟨"important.log".toList, false⟩ = true
    ∧ (gitFilterOf goGit [gitignore.ParsePattern "*.log".toList,
          gitignore.ParsePattern "!important.log".toList] "/project".toList).ShouldInclude
        "/project/debug.log".toList ⟨"debug.log".toList, false⟩ = false
    ∧ (gitFilterOf goGit [gitignore.ParsePattern "!important.log".toList,
          gitignore.ParsePattern "*.log".toList] "/project".toList).ShouldInclude
        "/project/important.log".toList ⟨"important.log".toList, false⟩ = false := by
  refine ⟨?_, ?_, ?_, rfl, rfl, rfl, rfl⟩
  · rw [gitFilter_shouldInclude, matchLoop_find, lastMatching_eq]
    cases ps.reverse.find? (fun p => p.Match (gitParts path baseDir) d.isDir != .NoMatch) with
    | none => rfl
    | some p => simp
  · intro s
    simp [gitignore.ParsePattern, strings.HasPrefix, List.isPrefixOf]
  · intro s hs
    cases s with
    | nil => simp [gitignore.ParsePattern, strings.HasPrefix, List.isPrefixOf]
    | cons c cs =>
      have hc : ¬ ('!' = c) := by
        intro e
        apply hs
        rw [← e]
        rfl
      simp [gitignore.ParsePattern, strings.HasPrefix, List.isPrefixOf, hc]

theorem joinAll_eq (names : List Str) :
    ∀ b : Str, names ≠ [] → (∀ m ∈ names, niceName m) →
      joinAll b names = dirPrefix (filepath.Clean b) ++ strings.Join ['/'] names
      ∧ filepath.Clean (joinAll b names) = joinAll b names := by
  induction names with
  | nil => intro b h; exact absurd rfl h
  | cons n ns ih =>
    intro b _ hnice
    have hn : niceName n := hnice n (by simp)
    obtain ⟨h1, h2⟩ := join_child b n hn
    have hstep : joinAll b (n :: ns) = joinAll (filepath.Join b n) ns := rfl
    cases ns with
    | nil =>
      simp only [joinAll, List.foldl_cons, List.foldl_nil, strings.Join]
      exact ⟨h1, by rw [h1]; exact h2⟩
    | cons m ms =>
      obtain ⟨e1, e2⟩ := ih (filepath.Join b n) (by simp)
        (fun x hx => hnice x (List.mem_cons_of_mem _ hx))
      have hclean : filepath.Clean (filepath.Join b n) = filepath.Join b n := by
        rw [h1]; exact h2
      obtain ⟨hp1, hp2⟩ := joinClean_proper (filepath.Clean b) n hn
      rw [joinClean_eq, ← h1] at hp1 hp2
      rw [hstep]
      refine ⟨?_, e2⟩
      rw [e1, hclean, dirPrefix_proper _ hp1 hp2, h1, join_cons_cons]
      simp

theorem gitParts_joinAll (b : Str) (names : List Str) (hne : names ≠ [])
    (hnice : ∀ m ∈ names, niceName m) : gitParts (joinAll b names) b = names := by
  obtain ⟨h1, h2⟩ := joinAll_eq names b hne hnice
  cases names with
  | nil => exact absurd rfl hne
  | cons n ns =>
    have hn : niceName n := hnice n (by simp)
    have hrel : RelPath (joinAll b (n :: ns)) b = strings.Join ['/'] (n :: ns) := by
      rw [h1] at h2 ⊢
      cases ns with
      | nil =>
        have h := relPath_below b n [] hn (Or.inl rfl) (by simpa [strings.Join] using h2)
        simpa [strings.Join] using h
      | cons m ms =>
        rw [join_cons_cons] at h2 ⊢
        have e : dirPrefix (filepath.Clean b) ++ (n ++ ['/'] ++ strings.Join ['/'] (m :: ms))
            = dirPrefix (filepath.Clean b) ++ n ++ ('/' :: strings.Join ['/'] (m :: ms)) := by
          simp
        rw [e] at h2 ⊢
        rw [relPath_below b n _ hn (Or.inr ⟨_, rfl⟩) h2]
        simp
    unfold gitParts
    rw [hrel]
    exact split_join_kept (n :: ns) (by simp) (fun x hx => (hnice x hx).2.1)

theorem match_of_toks (pat name : Str) (toks : List filepath.GlobTok)
    (h : filepath.globToks pat = some toks) :
    filepath.Match pat name = some (filepath.matchToks toks name) := by
  simp [filepath.Match, h]

theorem simpleNameMatch_last (p : gitignore.Pattern) (isDir : Bool) (toks : List filepath.GlobTok)
    (htok : filepath.globToks (p.pattern.headD []) = some toks) (hd : p.dirOnly = false)
    (last : Str) (hlast : filepath.matchToks toks last = true) (pre : List Str) :
    gitignore.simpleNameMatch p isDir (pre ++ [last]) = true := by
  induction pre with
  | nil =>
    simp only [List.nil_append, gitignore.simpleNameMatch, match_of_toks _ _ _ htok, hlast, hd]
    rfl
  | cons e es ih =>
    simp only [List.cons_append, gitignore.simpleNameMatch, match_of_toks _ _ _ htok]
    cases filepath.matchToks toks e
    · exact ih
    · simp only [hd]
      rfl

theorem starLoop_suffix (f : Str → Bool) (stem suffix : Str) (hs : '/' ∉ stem)
    (hf : f suffix = true) : filepath.starLoop f (stem ++ suffix) = true := by
  induction stem with
  | nil =>
    cases suffix with
    | nil => simpa [filepath.starLoop] using hf
    | cons c cs => simp [filepath.starLoop, hf]
  | cons c cs ih =>
    simp only [List.mem_cons, not_or] at hs
    have hc : c ≠ '/' := fun e => hs.1 e.symm
    simp [filepath.starLoop, filepath.Separator, hc, ih hs.2]

theorem star_log_matches (stem : Str) (hs : '/' ∉ stem) :
    filepath.matchToks [.star, .lit '.', .lit 'l', .lit 'o', .lit 'g']
      (stem ++ ".log".toList) = true := by
  simp only [filepath.matchToks]
  exact starLoop_suffix _ stem _ hs (by decide)

theorem starLog_rejects (b : Str) (names : List Str) (last : Str) (d : Entry)
    (hnames : ∀ n ∈ names, niceName n) (hlast : niceName last)
    (hmatch : filepath.Match "*.log".toList last = some true) :
    (starLogFilter b).ShouldInclude (joinAll b (names ++ [last])) d = false := by
  have hnice : ∀ m ∈ names ++ [last], niceName m := by
    intro m hm
    rcases List.mem_append.mp hm with hm | hm
    · exact hnames m hm
    · simp only [List.mem_singleton] at hm
      exact hm ▸ hlast
  have htoks : filepath.globToks "*.log".toList
      = some [.star, .lit '.', .lit 'l', .lit 'o', .lit 'g'] := rfl
  rw [match_of_toks _ _ _ htoks, Option.some.injEq] at hmatch
  unfold starLogFilter
  rw [gitFilter_shouldInclude, gitParts_joinAll b _ (by simp) hnice]
  have hm : (gitignore.ParsePattern "*.log".toList).Match (names ++ [last])
      d.isDir = .Exclude := by
    have hsm := simpleNameMatch_last (gitignore.ParsePattern "*.log".toList) d.isDir
      [.star, .lit '.', .lit 'l', .lit 'o', .lit 'g'] rfl rfl last hmatch names
    have hlen : ¬ ((names ++ [last]).length ≤ 0) := by simp
    have hdom : (gitignore.ParsePattern "*.log".toList).domain = [] := rfl
    have hglob : (gitignore.ParsePattern "*.log".toList).isGlob = false := rfl
    have hinc : (gitignore.ParsePattern "*.log".toList).inclusion = false := rfl
    unfold gitignore.Pattern.Match
    simp only [hdom, List.length_nil, hlen, if_false, List.zip_nil_left, List.any_nil,
      Bool.false_eq_true, List.drop_zero, hglob, Bool.false_and, Bool.not_false, Bool.true_and,
      hsm, Bool.not_true, hinc]
  simp only [List.reverse_cons, List.reverse_nil, List.nil_append, gitignore.matchLoop, hm,
    Bool.not_true]

theorem star_log_match (stem : Str) (hs : '/' ∉ stem) :
    filepath.Match "*.log".toList (stem ++ ".log".toList) = some true := by
  have htoks : filepath.globToks "*.log".toList
      = some [.star, .lit '.', .lit 'l', .lit 'o', .lit 'g'] := rfl
  rw [match_of_toks _ _ _ htoks, star_log_matches stem hs]

/-- Claim C16: the gitignore filter built with the base directory `b` from the single
pattern `*.log` rejects, at any depth below `b`, every entry whose final path segment
matches `*.log`, as does every name that ends in `.log`: debug.log in `b` and in x/y
below `b` are rejected, and main.go is accepted. -/
theorem gitignore_star_log (fsys : FileSys) (b : Str) (names : List Str) (last : Str)
    (d : Entry) (hnames : ∀ n ∈ names, niceName n) (hlast : niceName last)
    (hmatch : filepath.Match "*.log".toList last = some true) :
    NewGitignoreFilter goGit fsys b [] ["*.log".toList] = .ok (starLogFilter b)
    ∧ (starLogFilter b).ShouldInclude (joinAll b (names ++ [last])) d = false
    ∧ (∀ stem : Str, '/' ∉ stem →
        filepath.Match "*.log".toList (stem ++ ".log".toList) = some true)
    ∧ (starLogFilter b).ShouldInclude (filepath.Join b "debug.log".toList)
        ⟨"debug.log".toList, false⟩ = false
    ∧ (starLogFilter b).ShouldInclude
        (filepath.Join (filepath.Join (filepath.Join b "x".toList) "y".toList)
          "debug.log".toList) ⟨"debug.log".toList, false⟩ = false
    ∧ (starLogFilter b).ShouldInclude (filepath.Join b "main.go".toList)
        ⟨"main.go".toList, false⟩ = true := by
  refine ⟨?_, starLog_rejects b names last d hnames hlast hmatch, star_log_match, ?_, ?_, ?_⟩
  · exact newGitignoreFilter_ok goGit fsys b [] ["*.log".toList] [] rfl
  · exact starLog_rejects b [] "debug.log".toList _ (by simp) (by decide) rfl
  · exact starLog_rejects b ["x".toList, "y".toList] "debug.log".toList _ (by decide)
      (by decide) rfl
  · unfold starLogFilter
    rw [gitFilter_shouldInclude]
    have hp : gitParts (filepath.Join b "main.go".toList) b = ["main.go".toList] :=
      gitParts_joinAll b ["main.go".toList] (by simp) (by decide)
    rw [hp]
    rfl

/-- Witness of C16 at the base directory /project and the file a/b/trace.log. -/
theorem gitignore_star_log_witness :
    (starLogFilter "/project".toList).ShouldInclude
      (joinAll "/project".toList (["a".toList, "b".toList] ++ ["trace.log".toList]))
      ⟨"trace.log".toList, false⟩ = false :=
  (gitignore_star_log emptyFileSys "/project".toList ["a".toList, "b".toList]
    "trace.log".toList ⟨"trace.log".toList, false⟩ (by decide) (by decide) rfl).2.1

/-- Claim C17: the gitignore filter built with the base directory `b` from the single
pattern `build/` rejects the entry build of `b` when it is a directory and accepts it
when it is a file. -/
theorem gitignore_build_dir (fsys : FileSys) (b : Str) :
    NewGitignoreFilter goGit fsys b [] ["build/".toList] = .ok (buildDirFilter b)
    ∧ (buildDirFilter b).ShouldInclude (filepath.Join b "build".toList)
        ⟨"build".toList, true⟩ = false
    ∧ (buildDirFilter b).ShouldInclude (filepath.Join b "build".toList)
        ⟨"build".toList, false⟩ = true := by
  have hp : gitParts (filepath.Join b "build".toList) b = ["build".toList] :=
    gitParts_joinAll b ["build".toList] (by simp) (by decide)
  refine ⟨newGitignoreFilter_ok goGit fsys b [] ["build/".toList] [] rfl, ?_, ?_⟩
  · unfold buildDirFilter
    rw [gitFilter_shouldInclude, hp]
    rfl
  · unfold buildDirFilter
    rw [gitFilter_shouldInclude, hp]
    rfl

/-! ## Reading errors during the walk -/

mutual
theorem emitted_clearErrors (F : Filter) :
    (n : Node) → (path : Str) → emitted F path n.clearErrors = emitted F path n
  | .file name, path => rfl
  | .dir name readErr children, path => by
    simp only [Node.clearErrors, emitted]
    rw [emittedOf_clearErrors F children path]
theorem emittedOf_clearErrors (F : Filter) :
    (cs : List Node) → (path : Str) → emittedOf F path (clearErrorsList cs) = emittedOf F path cs
  | [], path => rfl
  | c :: cs, path => by
    have he : c.clearErrors.entry = c.entry := by cases c <;> rfl
    simp only [clearErrorsList, emittedOf, he]
    rw [emitted_clearErrors F c _, emittedOf_clearErrors F cs path]
end

/-- Claim C21: whatever `ReadDir` or `Lstat` reports, `Scan` returns a list and no error;
the list holds the path of every file that was read, that the filter accepts and whose
directories on the way from the base directory are all accepted; it is the list that the
same entries give when they are read without error; when `Lstat` of the base directory
fails the list is empty; in a tree with a directory that cannot be read and one that is
read in part, the files outside and the file that was read are returned. -/
theorem scan_survives_read_errors (s : Scanner) (st : RootStat) :
    (∃ files, s.Scan st = .ok files ∧
      ∀ v ∈ st.visits s.baseDir,
        v.entry.isDir = false → s.filter.ShouldInclude v.path v.entry = true →
        (∀ a ∈ v.ancestors, s.filter.ShouldInclude a.1 a.2 = true) → v.path ∈ files)
    ∧ (∀ n : Node, s.Scan (.found n) = s.Scan (.found n.clearErrors))
    ∧ (∀ err : Str, s.Scan (.lstatErr err) = .ok [])
    ∧ (Scanner.New "/t".toList allowAllFilter).Scan (.found failingTree)
        = .ok ["/t/main.go".toList, "/t/partial/seen.go".toList] := by
  refine ⟨⟨_, scan_eq s st, ?_⟩, ?_, ?_, rfl⟩
  · intro v hv hd hF ha
    rw [mem_scan s st _ (scan_eq s st)]
    refine ⟨v, hv, ?_, rfl⟩
    simp only [Visit.collected, Visit.reached, Bool.and_eq_true, Bool.not_eq_true',
      List.all_eq_true]
    exact ⟨⟨hd, hF⟩, ha⟩
  · intro n
    rw [scan_eq_emitted, scan_eq_emitted, emitted_clearErrors]
  · intro err
    rfl

/-! ## Permutations of a chain -/

/-- Claim C29: two chains whose lists of filters are permutations of one another give the
same decision on every path and entry. -/
theorem chain_perm (fs gs : List Filter) (h : fs.Perm gs) (p : Str) (d : Entry) :
    (NewChain fs).ShouldInclude p d = (NewChain gs).ShouldInclude p d := by
  simp only [NewChain, Chain.ShouldInclude, chain_loop_eq_all]
  rw [Bool.eq_iff_iff, List.all_eq_true, List.all_eq_true]
  constructor
  · intro hall f hf
    exact hall f (h.mem_iff.mpr hf)
  · intro hall f hf
    exact hall f (h.mem_iff.mp hf)

/-- Witness of C29: the hidden filter and an extension filter in the two orders. -/
theorem chain_perm_witness :
    (NewChain [Filter.hidden, Filter.extension [".go".toList]]).ShouldInclude
        "/p/.env".toList ⟨".env".toList, false⟩
      = (NewChain [Filter.extension [".go".toList], Filter.hidden]).ShouldInclude
        "/p/.env".toList ⟨".env".toList, false⟩ :=
  chain_perm _ _ (List.Perm.swap _ _ _) _ _

/-! ## A gitignore file that cannot be read -/

/-- Claim C30: when the gitignore path names a file that does not exist,
`loadGitignoreFile` returns no pattern and no error, and `NewGitignoreFilter` without
custom patterns returns a filter that accepts every path and entry; when the file cannot
be opened, or the reading of its lines fails, `NewGitignoreFilter` returns an error. -/
theorem newGitignoreFilter_missing_file (lib : GitignoreLib) (fsys : FileSys)
    (baseDir gitignorePath : Str) (hp : gitignorePath ≠ []) :
    (fsys gitignorePath = .notExist →
        loadGitignoreFile lib fsys gitignorePath baseDir = .ok []
        ∧ ∃ g, NewGitignoreFilter lib fsys baseDir gitignorePath [] = .ok g
            ∧ ∀ path d, g.ShouldInclude path d = true)
    ∧ (∀ err customPatterns, fsys gitignorePath = .openErr err →
        loadGitignoreFile lib fsys gitignorePath baseDir = .error err
        ∧ ∃ e, NewGitignoreFilter lib fsys baseDir gitignorePath customPatterns = .error e)
    ∧ (∀ ls err customPatterns, fsys gitignorePath = .lines ls (some err) →
        loadGitignoreFile lib fsys gitignorePath baseDir = .error err
        ∧ ∃ e, NewGitignoreFilter lib fsys baseDir gitignorePath customPatterns = .error e) := by
  refine ⟨?_, ?_, ?_⟩
  · intro hf
    have hfp : filePatterns lib fsys gitignorePath = some [] := by
      simp [filePatterns, hp, hf]
    refine ⟨by simp [loadGitignoreFile, hf], _,
      newGitignoreFilter_ok lib fsys baseDir gitignorePath [] [] hfp, ?_⟩
    intro path d
    simp [parseLines, gitFilterOf, GitignoreFilter.ShouldInclude]
  · intro err customPatterns hf
    refine ⟨by simp [loadGitignoreFile, hf], ?_⟩
    exact newGitignoreFilter_error lib fsys baseDir gitignorePath customPatterns
      (by simp [filePatterns, hp, hf])
  · intro ls err customPatterns hf
    refine ⟨by simp [loadGitignoreFile, hf], ?_⟩
    exact newGitignoreFilter_error lib fsys baseDir gitignorePath customPatterns
      (by simp [filePatterns, hp, hf])

/-- Witness of C30: the path /nonexistent/.gitignore of the test, in a file system
without files. -/
theorem newGitignoreFilter_missing_file_witness :
    loadGitignoreFile textPatterns emptyFileSys "/nonexistent/.gitignore".toList
        "/project".toList = .ok []
    ∧ ∃ g, NewGitignoreFilter textPatterns emptyFileSys "/project".toList
          "/nonexistent/.gitignore".toList [] = .ok g
        ∧ ∀ path d, g.ShouldInclude path d = true :=
  (newGitignoreFilter_missing_file textPatterns emptyFileSys "/project".toList
    "/nonexistent/.gitignore".toList (by decide)).1 rfl
/-! ## The Markdown processor -/

theorem repeatStr_hash (n : Nat) : repeatStr ['#'] n = List.replicate n '#' := by
  induction n with
  | zero => rfl
  | succ n ih => simp only [repeatStr, ih, List.replicate_succ, List.singleton_append]

theorem clamp_eq_min_max (v : Int) : clamp v 1 6 = min (max v 1) 6 := by
  unfold clamp
  split_ifs <;> omega

theorem writeFile_eq (n : Int) (out : Str) (f : FileInfo) :
    writeFile (repeatStr ['#'] (clamp n 1 6).toNat) out f = out ++ fileBlock n f := by
  have hc : (f.Content.length = 0 || f.Content.getLast? != some '\n') = true
      ↔ (f.Content = [] ∨ f.Content.getLast? ≠ some '\n') := by
    simp only [Bool.or_eq_true, decide_eq_true_eq, List.length_eq_zero, bne_iff_ne]
  simp only [writeFile, fileBlock, repeatStr_hash, clamp_eq_min_max]
  by_cases h : (f.Content = [] ∨ f.Content.getLast? ≠ some '\n')
  · rw [if_pos (hc.mpr h), if_pos h]
    simp only [List.append_assoc]
    rfl
  · rw [if_neg (fun hh => h (hc.mp hh)), if_neg h]
    simp only [List.append_assoc, List.append_nil]

theorem foldl_writeFile (n : Int) (files : List FileInfo) (out : Str) :
    files.foldl (writeFile (repeatStr ['#'] (clamp n 1 6).toNat)) out
      = out ++ (files.map (fileBlock n)).flatten := by
  induction files generalizing out with
  | nil => simp
  | cons f fs ih =>
    simp only [List.foldl_cons, ih, writeFile_eq, List.map_cons, List.flatten_cons,
      List.append_assoc]

theorem process_eq (files : List FileInfo) (o : Options) (h : files ≠ []) :
    MarkdownProcessor.Process files o = .ok (files.map (fileBlock o.HeadingLevel)).flatten := by
  have hl : ¬ files.length = 0 := fun hh => h (List.length_eq_zero.mp hh)
  simp only [MarkdownProcessor.Process, if_neg hl, foldl_writeFile, List.nil_append]

/-- Claim C28: for every value of the options, `Process` on the empty list of files
returns, without error, the text _No files found._ followed by one newline; that
text holds no heading mark and no code fence. -/
theorem process_empty (o : Options) :
    MarkdownProcessor.Process [] o = .ok "_No files found._\n".toList
    ∧ "_No files found._\n".toList = "_No files found._".toList ++ ['\n']
    ∧ ∀ c ∈ "_No files found._\n".toList, c ≠ '#' ∧ c ∉ "`".toList := by
  refine ⟨rfl, rfl, ?_⟩
  decide

/-- Claim C26: for one file and any options, `Process` returns without error the heading
marks, a space, the slash-normalised `RelPath` and a newline; the fence with
`inferLanguage` of the extension and a newline; the content; one newline more exactly
when the content is empty or does not end in a newline; the closing fence and two
newlines.  The content no newline is followed by the added newline and the fence, the
content package main with its newline gets no other. -/
theorem process_single (f : FileInfo) (o : Options) :
    MarkdownProcessor.Process [f] o
      = .ok (List.replicate (clamp o.HeadingLevel 1 6).toNat '#' ++ " ".toList
          ++ filepath.ToSlash f.RelPath ++ "\n".toList
          ++ "```".toList ++ inferLanguage f.Ext ++ "\n".toList
          ++ f.Content
          ++ (if f.Content = [] ∨ f.Content.getLast? ≠ some '\n' then "\n".toList else [])
          ++ "```\n\n".toList)
    ∧ MarkdownProcessor.Process
        [⟨"/test/test.txt".toList, "test.txt".toList, "no newline".toList, ".txt".toList⟩]
        ⟨"/test".toList, 2, false⟩
        = .ok "## test.txt\n```text\nno newline\n```\n\n".toList
    ∧ MarkdownProcessor.Process
        [⟨"/test/main.go".toList, "main.go".toList, "package main\n".toList, ".go".toList⟩]
        ⟨"/test".toList, 2, false⟩
        = .ok "## main.go\n```go\npackage main\n```\n\n".toList := by
  refine ⟨?_, rfl, rfl⟩
  rw [process_eq [f] o (List.cons_ne_nil _ _)]
  simp only [List.map_cons, List.map_nil, List.flatten_cons, List.flatten_nil, List.append_nil,
    fileBlock, clamp_eq_min_max]

/-- Claim C27: for every heading level n and every list of files that is not empty,
the text of `Process` is the texts of the files one after the other, and the text of each
file starts with min(max(n, 1), 6) marks followed by a space; the levels 0 and 1 give
one mark, 3 gives three, 6 and 10 give six; `clamp v 1 6` lies between 1 and 6 and is v
when v lies between 1 and 6. -/
theorem process_heading_clamped (files : List FileInfo) (o : Options) (h : files ≠ []) :
    MarkdownProcessor.Process files o = .ok (files.map (fileBlock o.HeadingLevel)).flatten
    ∧ (∀ f : FileInfo, ∃ rest : Str,
        fileBlock o.HeadingLevel f
          = List.replicate (min (max o.HeadingLevel 1) 6).toNat '#' ++ ' ' :: rest)
    ∧ MarkdownProcessor.Process [headingTestFile] ⟨[], 0, false⟩
        = .ok "# test.go\n```go\ntest\n```\n\n".toList
    ∧ MarkdownProcessor.Process [headingTestFile] ⟨[], 1, false⟩
        = .ok "# test.go\n```go\ntest\n```\n\n".toList
    ∧ MarkdownProcessor.Process [headingTestFile] ⟨[], 3, false⟩
        = .ok "### test.go\n```go\ntest\n```\n\n".toList
    ∧ MarkdownProcessor.Process [headingTestFile] ⟨[], 6, false⟩
        = .ok "###### test.go\n```go\ntest\n```\n\n".toList
    ∧ MarkdownProcessor.Process [headingTestFile] ⟨[], 10, false⟩
        = .ok "###### test.go\n```go\ntest\n```\n\n".toList
    ∧ (∀ v : Int, 1 ≤ clamp v 1 6 ∧ clamp v 1 6 ≤ 6 ∧ clamp v 1 6 = min (max v 1) 6
        ∧ (1 ≤ v → v ≤ 6 → clamp v 1 6 = v)) := by
  refine ⟨process_eq files o h, ?_, rfl, rfl, rfl, rfl, rfl, ?_⟩
  · intro f
    refine ⟨filepath.ToSlash f.RelPath ++ "\n".toList
      ++ "```".toList ++ inferLanguage f.Ext ++ "\n".toList ++ f.Content
      ++ (if f.Content = [] ∨ f.Content.getLast? ≠ some '\n' then "\n".toList else [])
      ++ "```\n\n".toList, ?_⟩
    simp only [fileBlock, List.append_assoc]
    rfl
  · intro v
    refine ⟨?_, ?_, clamp_eq_min_max v, ?_⟩
    · unfold clamp
      split_ifs <;> omega
    · unfold clamp
      split_ifs <;> omega
    · intro h1 h6
      unfold clamp
      split_ifs <;> omega

/-- Witness of C27: two files at level 10. -/
theorem process_heading_clamped_witness :
    MarkdownProcessor.Process [headingTestFile, headingTestFile] ⟨[], 10, false⟩
      = .ok ([headingTestFile, headingTestFile].map (fileBlock 10)).flatten :=
  (process_heading_clamped [headingTestFile, headingTestFile] ⟨[], 10, false⟩
    (by decide)).1
/-! ## Loading the files -/

/-- The `FileInfo` that `LoadFiles` appends for one path. -/
theorem loadLoop_eq (readFile : ReadFile) (baseDir : Str) (paths : List Str)
    (infos : List FileInfo) :
    loadLoop readFile baseDir infos paths
      = infos ++ paths.map (fun path =>
          { Path := path, RelPath := relPathOr path baseDir,
            Content := match readFile path with
              | .error err => "ERROR: could not read file: ".toList ++ err
              | .ok content => content,
            Ext := filepath.Ext path }) := by
  induction paths generalizing infos with
  | nil => simp [loadLoop]
  | cons p ps ih =>
    simp only [loadLoop, List.map_cons]
    cases hr : readFile p with
    | error err => simp only [ih, List.append_assoc, List.singleton_append]
    | ok content => simp only [ih, List.append_assoc, List.singleton_append]

/-- Claim C25: for every list of paths and every state of the file system, `LoadFiles`
returns no error and one `FileInfo` for each path, in the order of the paths, with `Path`
the path; for a path that cannot be read the `Content` is the text
ERROR: could not read file: followed by the error, and for a path that is read it is
what was read; a file that does not exist gives one `FileInfo` with that text. -/
theorem loadFiles_total (readFile : ReadFile) (paths : List Str) (baseDir : Str) :
    (∃ infos, LoadFiles readFile paths baseDir = .ok infos
      ∧ infos.length = paths.length
      ∧ infos.map FileInfo.Path = paths
      ∧ List.Forall₂ (fun path info =>
          info.Path = path
          ∧ info.RelPath = relPathOr path baseDir
          ∧ info.Ext = filepath.Ext path
          ∧ (∀ err, readFile path = .error err →
              info.Content = "ERROR: could not read file: ".toList ++ err)
          ∧ (∀ content, readFile path = .ok content → info.Content = content))
        paths infos)
    ∧ LoadFiles noFiles ["/nonexistent/file.txt".toList] "/base".toList
        = .ok [⟨"/nonexistent/file.txt".toList, "../nonexistent/file.txt".toList,
            "ERROR: could not read file: no such file or directory".toList,
            ".txt".toList⟩] := by
  refine ⟨⟨_, rfl, ?_, ?_, ?_⟩, rfl⟩
  · rw [loadLoop_eq]
    simp
  · rw [loadLoop_eq]
    simp only [List.nil_append, List.map_map]
    induction paths with
    | nil => rfl
    | cons p ps ih => simp only [List.map_cons, Function.comp_apply, ih]
  · rw [loadLoop_eq]
    simp only [List.nil_append]
    induction paths with
    | nil => exact List.Forall₂.nil
    | cons p ps ih =>
      refine List.Forall₂.cons ⟨rfl, rfl, rfl, ?_, ?_⟩ ih
      · intro err he
        simp only [he]
      · intro content he
        simp only [he]
/-! ## Extension arguments -/

theorem dropWhile_head (p : Char → Bool) (l : Str) :
    ∀ c, (l.dropWhile p).head? = some c → p c = false := by
  induction l with
  | nil => intro c h; simp at h
  | cons x xs ih =>
    intro c h
    by_cases hx : p x = true
    · rw [List.dropWhile_cons_of_pos hx] at h
      exact ih c h
    · rw [List.dropWhile_cons_of_neg hx] at h
      simp only [List.head?_cons, Option.some.injEq] at h
      subst h
      simpa using hx

theorem dropWhile_eq_self (p : Char → Bool) (l : Str)
    (h : ∀ c, l.head? = some c → p c = false) : l.dropWhile p = l := by
  cases l with
  | nil => rfl
  | cons c cs =>
    have hc : ¬ p c = true := by simp [h c rfl]
    rw [List.dropWhile_cons_of_neg hc]

theorem trimSpace_idem (s : Str) :
    strings.TrimSpace (strings.TrimSpace s) = strings.TrimSpace s := by
  unfold strings.TrimSpace
  generalize ha : s.dropWhile strings.isSpace = a
  generalize hb : a.reverse.dropWhile strings.isSpace = b
  have hbhead : ∀ c, b.head? = some c → strings.isSpace c = false := by
    rw [← hb]
    exact dropWhile_head _ _
  have hpre : b.reverse <+: a := by
    have hsuf : b <:+ a.reverse := by
      rw [← hb]
      exact List.dropWhile_suffix _
    have := List.reverse_prefix.mpr hsuf
    rwa [List.reverse_reverse] at this
  have hahead : ∀ c, a.head? = some c → strings.isSpace c = false := by
    rw [← ha]
    exact dropWhile_head _ _
  have h1 : b.reverse.dropWhile strings.isSpace = b.reverse := by
    apply dropWhile_eq_self
    intro c hc
    obtain ⟨t, ht⟩ := hpre
    apply hahead c
    rw [← ht]
    cases hbr : b.reverse with
    | nil => rw [hbr] at hc; simp at hc
    | cons x xs =>
      rw [hbr] at hc
      simpa using hc
  rw [h1, List.reverse_reverse, dropWhile_eq_self _ b hbhead]

theorem toLower_idem (s : Str) : strings.ToLower (strings.ToLower s) = strings.ToLower s := by
  unfold strings.ToLower
  rw [List.map_map]
  apply List.map_congr_left
  intro c _
  exact toLower_toLower c

theorem normalizeExt_dot (tok : Str) (h : strings.TrimSpace tok ≠ []) :
    ∃ rest, normalizeExt tok = '.' :: rest := by
  unfold normalizeExt
  simp only [if_neg h]
  by_cases hp : strings.HasPrefix (strings.TrimSpace tok) ['.'] = true
  · cases ht : strings.TrimSpace tok with
    | nil => exact absurd ht h
    | cons c cs =>
      rw [ht] at hp
      have hc : c = '.' := by
        simp only [strings.HasPrefix, List.isPrefixOf, Bool.and_true, beq_iff_eq] at hp
        exact hp.symm
      subst hc
      refine ⟨cs.map unicode.ToLower, ?_⟩
      simp only [strings.HasPrefix, List.isPrefixOf, Bool.and_true, beq_self_eq_true,
        Bool.not_true, Bool.false_eq_true, if_false, strings.ToLower, List.map_cons]
      rfl
  · refine ⟨(strings.TrimSpace tok).map unicode.ToLower, ?_⟩
    have hp2 : strings.HasPrefix (strings.TrimSpace tok) ['.'] = false := by
      simpa using hp
    simp only [hp2, Bool.not_false, if_true, strings.ToLower, List.map_cons]
    rfl

theorem normalizeExt_blank (tok : Str) (h : strings.TrimSpace tok = []) :
    normalizeExt tok = [] := by
  unfold normalizeExt
  simp only [if_pos h]

theorem normalizeExt_lower (tok : Str) : strings.ToLower (normalizeExt tok) = normalizeExt tok := by
  unfold normalizeExt
  by_cases h : strings.TrimSpace tok = []
  · simp only [if_pos h]
    rfl
  · simp only [if_neg h, toLower_idem]

theorem normalizeExt_trim (tok : Str) : normalizeExt (strings.TrimSpace tok) = normalizeExt tok := by
  unfold normalizeExt
  simp only [trimSpace_idem]

theorem mem_commaLoop (parts : List Str) (t : Str) :
    t ∈ commaLoop parts ↔ t ≠ [] ∧ ∃ part ∈ parts, t = strings.TrimSpace part := by
  induction parts with
  | nil => simp [commaLoop]
  | cons p ps ih =>
    simp only [commaLoop]
    by_cases hp : strings.TrimSpace p ≠ []
    · rw [if_pos hp, List.mem_cons, ih]
      constructor
      · rintro (h | ⟨h1, q, hq, h2⟩)
        · exact ⟨h ▸ hp, p, List.mem_cons_self _ _, h⟩
        · exact ⟨h1, q, List.mem_cons_of_mem _ hq, h2⟩
      · rintro ⟨h1, q, hq, h2⟩
        rcases List.mem_cons.mp hq with hq | hq
        · left
          rw [h2, hq]
        · right
          exact ⟨h1, q, hq, h2⟩
    · rw [if_neg hp, ih]
      constructor
      · rintro ⟨h1, q, hq, h2⟩
        exact ⟨h1, q, List.mem_cons_of_mem _ hq, h2⟩
      · rintro ⟨h1, q, hq, h2⟩
        rcases List.mem_cons.mp hq with hq | hq
        · exfalso
          apply hp
          rw [← hq, ← h2]
          exact h1
        · exact ⟨h1, q, hq, h2⟩

theorem handle_token_not_blank (r t : Str) (h : t ∈ handleCommaSeparatedValues r) :
    strings.TrimSpace t ≠ [] := by
  obtain ⟨h1, q, _, h2⟩ := (mem_commaLoop _ _).mp h
  rw [h2, trimSpace_idem, ← h2]
  exact h1

theorem tokenLoop_ok (toks : List Str) (h : ∀ t ∈ toks, strings.TrimSpace t ≠ [])
    (extSet : List Str) :
    tokenLoop extSet toks
      = .ok (toks.foldl (fun s t => insertKey s (normalizeExt t)) extSet) := by
  induction toks generalizing extSet with
  | nil => rfl
  | cons t ts ih =>
    obtain ⟨rest, hr⟩ := normalizeExt_dot t (h t (List.mem_cons_self _ _))
    have hc : (normalizeExt t = [] || !strings.HasPrefix (normalizeExt t) ['.']) = false := by
      rw [hr]
      simp [strings.HasPrefix]
    simp only [tokenLoop, hc, Bool.false_eq_true, if_false, normalizeExt_lower, List.foldl_cons]
    exact ih (fun x hx => h x (List.mem_cons_of_mem _ hx)) _

theorem rawLoop_ok (raws : List Str) (extSet : List Str) :
    rawLoop extSet raws
      = .ok ((raws.map handleCommaSeparatedValues).flatten.foldl
          (fun s t => insertKey s (normalizeExt t)) extSet) := by
  induction raws generalizing extSet with
  | nil => rfl
  | cons r rs ih =>
    simp only [rawLoop, tokenLoop_ok _ (handle_token_not_blank r), ih, List.map_cons,
      List.flatten_cons, List.foldl_append]

theorem mem_insertAll (toks : List Str) (extSet : List Str) (k : Str) :
    k ∈ toks.foldl (fun s t => insertKey s (normalizeExt t)) extSet
      ↔ k ∈ extSet ∨ ∃ t ∈ toks, k = normalizeExt t := by
  induction toks generalizing extSet with
  | nil => simp
  | cons t ts ih =>
    rw [List.foldl_cons, ih]
    have hi : k ∈ insertKey extSet (normalizeExt t) ↔ k ∈ extSet ∨ k = normalizeExt t := by
      unfold insertKey
      by_cases hm : normalizeExt t ∈ extSet
      · rw [if_pos hm]
        constructor
        · exact Or.inl
        · rintro (h | h)
          · exact h
          · exact h ▸ hm
      · rw [if_neg hm]
        simp
    rw [hi]
    simp only [List.mem_cons, exists_eq_or_imp]
    tauto

theorem nodup_insertAll (toks : List Str) (extSet : List Str) (h : extSet.Nodup) :
    (toks.foldl (fun s t => insertKey s (normalizeExt t)) extSet).Nodup := by
  induction toks generalizing extSet with
  | nil => exact h
  | cons t ts ih =>
    rw [List.foldl_cons]
    apply ih
    unfold insertKey
    by_cases hm : normalizeExt t ∈ extSet
    · rw [if_pos hm]
      exact h
    · rw [if_neg hm]
      rw [List.nodup_append]
      refine ⟨h, List.nodup_singleton _, ?_⟩
      intro x hx hx2
      rw [List.mem_singleton] at hx2
      exact hm (hx2 ▸ hx)

theorem processExtensions_eq (raw : List Str) :
    processExtensions raw
      = if (raw.map handleCommaSeparatedValues).flatten = []
        then .error "no valid extensions provided".toList
        else .ok ((raw.map handleCommaSeparatedValues).flatten.foldl
          (fun s t => insertKey s (normalizeExt t)) []) := by
  unfold processExtensions
  rw [rawLoop_ok]
  simp only
  by_cases h : (raw.map handleCommaSeparatedValues).flatten = []
  · rw [h]
    rfl
  · rw [if_neg h, if_neg]
    intro hl
    obtain ⟨t, ht⟩ := List.exists_mem_of_ne_nil _ h
    have : normalizeExt t ∈ (raw.map handleCommaSeparatedValues).flatten.foldl
        (fun s t => insertKey s (normalizeExt t)) [] :=
      (mem_insertAll _ _ _).mpr (Or.inr ⟨t, ht, rfl⟩)
    rw [List.length_eq_zero.mp hl] at this
    exact List.not_mem_nil _ this

theorem tokens_nil_iff (raw : List Str) :
    (raw.map handleCommaSeparatedValues).flatten = []
      ↔ ∀ r ∈ raw, ∀ part ∈ strings.Split ',' r, strings.TrimSpace part = [] := by
  constructor
  · intro h r hr part hpart
    by_contra hne
    have : strings.TrimSpace part ∈ (raw.map handleCommaSeparatedValues).flatten := by
      rw [List.mem_flatten]
      exact ⟨_, List.mem_map_of_mem _ hr, (mem_commaLoop _ _).mpr ⟨hne, part, hpart, rfl⟩⟩
    rw [h] at this
    exact List.not_mem_nil _ this
  · intro h
    apply List.eq_nil_iff_forall_not_mem.mpr
    intro t ht
    rw [List.mem_flatten] at ht
    obtain ⟨l, hl, htl⟩ := ht
    obtain ⟨r, hr, hrl⟩ := List.mem_map.mp hl
    subst hrl
    obtain ⟨h1, part, hpart, h2⟩ := (mem_commaLoop _ _).mp htl
    exact h1 (h2 ▸ h r hr part hpart)
/-- Claim C22: `processExtensions` returns an error exactly when no argument holds a
comma-separated token that is not blank after trimming, and returns a set that is not
empty exactly when some argument holds such a token; the arguments [], [""] and
["  ", "\t"] give the error. -/
theorem processExtensions_error_iff (raw : List Str) :
    ((∃ err, processExtensions raw = .error err)
        ↔ ∀ r ∈ raw, ∀ part ∈ strings.Split ',' r, strings.TrimSpace part = [])
    ∧ ((∃ extSet, processExtensions raw = .ok extSet ∧ extSet ≠ [])
        ↔ ∃ r ∈ raw, ∃ part ∈ strings.Split ',' r, strings.TrimSpace part ≠ [])
    ∧ processExtensions [] = .error "no valid extensions provided".toList
    ∧ processExtensions ["".toList] = .error "no valid extensions provided".toList
    ∧ processExtensions ["  ".toList, "\t".toList]
        = .error "no valid extensions provided".toList := by
  refine ⟨?_, ?_, rfl, rfl, rfl⟩
  · rw [processExtensions_eq, ← tokens_nil_iff]
    by_cases h : (raw.map handleCommaSeparatedValues).flatten = []
    · rw [if_pos h]
      exact ⟨fun _ => h, fun _ => ⟨_, rfl⟩⟩
    · rw [if_neg h]
      constructor
      · rintro ⟨err, he⟩
        cases he
      · intro hh
        exact absurd hh h
  · have hiff : (∃ r ∈ raw, ∃ part ∈ strings.Split ',' r, strings.TrimSpace part ≠ [])
        ↔ ¬ (raw.map handleCommaSeparatedValues).flatten = [] := by
      rw [tokens_nil_iff]
      push_neg
      rfl
    rw [hiff, processExtensions_eq]
    by_cases h : (raw.map handleCommaSeparatedValues).flatten = []
    · rw [if_pos h]
      constructor
      · rintro ⟨extSet, he, _⟩
        cases he
      · intro hh
        exact absurd h hh
    · rw [if_neg h]
      refine ⟨fun _ => h, fun _ => ⟨_, rfl, ?_⟩⟩
      intro hnil
      obtain ⟨t, ht⟩ := List.exists_mem_of_ne_nil _ h
      have : normalizeExt t ∈ (raw.map handleCommaSeparatedValues).flatten.foldl
          (fun s t => insertKey s (normalizeExt t)) [] :=
        (mem_insertAll _ _ _).mpr (Or.inr ⟨t, ht, rfl⟩)
      rw [hnil] at this
      exact List.not_mem_nil _ this

/-- Claim C23 at the argument invalid: `processExtensions` returns the set holding
.invalid and no error, because `normalizeExt` puts the dot in front of a token before
`processExtensions` tests the dot; the only error that `processExtensions` ever returns
is the one of the empty set. -/
theorem processExtensions_accepts_dotless :
    processExtensions ["invalid".toList] = .ok [".invalid".toList]
    ∧ normalizeExt "invalid".toList = ".invalid".toList
    ∧ ∀ raw err, processExtensions raw = .error err
        → err = "no valid extensions provided".toList := by
  refine ⟨rfl, rfl, ?_⟩
  intro raw err h
  rw [processExtensions_eq] at h
  by_cases hn : (raw.map handleCommaSeparatedValues).flatten = []
  · rw [if_pos hn] at h
    cases h
    rfl
  · rw [if_neg hn] at h
    cases h

theorem processExtensions_of_keys (raw keys : List Str)
    (hne : (raw.map handleCommaSeparatedValues).flatten ≠ [])
    (hk : (raw.map handleCommaSeparatedValues).flatten.foldl
      (fun s t => insertKey s (normalizeExt t)) [] = keys) :
    processExtensions raw = .ok keys := by
  rw [processExtensions_eq, if_neg hne, hk]

/-- Claim C24, amended: when `processExtensions` succeeds, the keys of the set are the
values of `normalizeExt` on the comma-separated tokens of the arguments that are not
blank after trimming; no key is held twice; every key starts with a dot and is left as
it is by `strings.ToLower`, so that it holds no rune that has another lower-case form: no
letter from A to Z, and no upper-case letter that `unicode.ToLower` changes; .go three
times gives one key, .GO, .Rs and .PY give .go, .rs and .py, the arguments ".go,.rs"
and ".py" give three keys, go and rs give .go and .rs, and .É and .é give the one
key .é. -/
theorem processExtensions_set (raw extSet : List Str)
    (h : processExtensions raw = .ok extSet) :
    (∀ k, k ∈ extSet ↔ ∃ r ∈ raw, ∃ part ∈ strings.Split ',' r,
        strings.TrimSpace part ≠ [] ∧ k = normalizeExt part)
    ∧ extSet.Nodup
    ∧ (∀ k ∈ extSet, k.head? = some '.' ∧ strings.ToLower k = k
        ∧ (∀ c ∈ k, unicode.ToLower c = c)
        ∧ (∀ c ∈ k, ¬ ('A' ≤ c ∧ c ≤ 'Z'))
        ∧ (∀ c ∈ k, ¬ (unicode.IsUpper c = true ∧ unicode.ToLower c ≠ c)))
    ∧ processExtensions [".go".toList, ".go".toList, ".go".toList] = .ok [".go".toList]
    ∧ processExtensions [".GO".toList, ".Rs".toList, ".PY".toList]
        = .ok [".go".toList, ".rs".toList, ".py".toList]
    ∧ processExtensions [".go,.rs".toList, ".py".toList]
        = .ok [".go".toList, ".rs".toList, ".py".toList]
    ∧ processExtensions ["go".toList, "rs".toList] = .ok [".go".toList, ".rs".toList]
    ∧ processExtensions [".É".toList, ".é".toList] = .ok [".é".toList] := by
  have hmem : ∀ k, k ∈ extSet ↔ ∃ r ∈ raw, ∃ part ∈ strings.Split ',' r,
      strings.TrimSpace part ≠ [] ∧ k = normalizeExt part := by
    intro k
    rw [processExtensions_eq] at h
    by_cases hn : (raw.map handleCommaSeparatedValues).flatten = []
    · rw [if_pos hn] at h
      cases h
    · rw [if_neg hn] at h
      injection h with h
      rw [← h, mem_insertAll]
      constructor
      · rintro (hk | ⟨t, ht, hk⟩)
        · exact absurd hk (List.not_mem_nil _)
        · rw [List.mem_flatten] at ht
          obtain ⟨l, hl, htl⟩ := ht
          obtain ⟨r, hr, hrl⟩ := List.mem_map.mp hl
          subst hrl
          obtain ⟨h1, part, hpart, h2⟩ := (mem_commaLoop _ _).mp htl
          refine ⟨r, hr, part, hpart, h2 ▸ h1, ?_⟩
          rw [hk, h2, normalizeExt_trim]
      · rintro ⟨r, hr, part, hpart, hne, hk⟩
        right
        refine ⟨strings.TrimSpace part, ?_, ?_⟩
        · rw [List.mem_flatten]
          exact ⟨_, List.mem_map_of_mem _ hr, (mem_commaLoop _ _).mpr ⟨hne, part, hpart, rfl⟩⟩
        · rw [hk, normalizeExt_trim]
  refine ⟨hmem, ?_, ?_, rfl, rfl, rfl, rfl,
    processExtensions_of_keys _ _ (by decide) (by decide)⟩
  · rw [processExtensions_eq] at h
    by_cases hn : (raw.map handleCommaSeparatedValues).flatten = []
    · rw [if_pos hn] at h
      cases h
    · rw [if_neg hn] at h
      injection h with h
      rw [← h]
      exact nodup_insertAll _ _ List.nodup_nil
  · intro k hk
    obtain ⟨r, hr, part, hpart, hne, hkeq⟩ := (hmem k).mp hk
    obtain ⟨rest, hrest⟩ := normalizeExt_dot part hne
    have hfix : ∀ c ∈ k, unicode.ToLower c = c := by
      intro c hc
      rw [hkeq, ← normalizeExt_lower] at hc
      unfold strings.ToLower at hc
      obtain ⟨x, _, hx⟩ := List.mem_map.mp hc
      rw [← hx]
      exact toLower_toLower x
    refine ⟨by rw [hkeq, hrest]; rfl, by rw [hkeq]; exact normalizeExt_lower part, hfix, ?_, ?_⟩
    · intro c hc hu
      have h1 := toLower_not_ascii_upper c
      rw [hfix c hc] at h1
      exact h1 hu
    · intro c hc hu
      exact hu.2 (hfix c hc)

/-- Witness of C24: the arguments .GO, .Rs and .PY. -/
theorem processExtensions_set_witness :
    (∀ k, k ∈ [".go".toList, ".rs".toList, ".py".toList]
        ↔ ∃ r ∈ [".GO".toList, ".Rs".toList, ".PY".toList], ∃ part ∈ strings.Split ',' r,
          strings.TrimSpace part ≠ [] ∧ k = normalizeExt part)
    ∧ [".go".toList, ".rs".toList, ".py".toList].Nodup :=
  ⟨(processExtensions_set [".GO".toList, ".Rs".toList, ".PY".toList]
      [".go".toList, ".rs".toList, ".py".toList] rfl).1,
   (processExtensions_set [".GO".toList, ".Rs".toList, ".PY".toList]
      [".go".toList, ".rs".toList, ".py".toList] rfl).2.1⟩

/-- Claim C24 at the argument made of a dot and the rune U+1D400, the mathematical bold
capital A: the rune is an upper-case letter for `unicode.IsUpper` and has no lower-case
form, so `strings.ToLower` leaves it, and the key that `processExtensions` returns holds
an upper-case letter. -/
theorem processExtensions_keeps_upper_case :
    processExtensions [mathBoldA] = .ok [mathBoldA]
    ∧ mathBoldA = ['.', Char.ofNat 0x1D400]
    ∧ unicode.IsUpper (Char.ofNat 0x1D400) = true
    ∧ unicode.ToLower (Char.ofNat 0x1D400) = Char.ofNat 0x1D400
    ∧ ∃ k, processExtensions [mathBoldA] = .ok [k] ∧ ∃ c ∈ k, unicode.IsUpper c = true := by
  have hp : processExtensions [mathBoldA] = .ok [mathBoldA] :=
    processExtensions_of_keys _ _ (by decide) (by decide)
  refine ⟨hp, rfl, by decide, by decide, mathBoldA, hp, Char.ofNat 0x1D400, ?_, by decide⟩
  simp [mathBoldA]

/-! ## Comma-separated values and the normal form of an extension -/

theorem commaLoop_eq (parts : List Str) :
    commaLoop parts = (parts.map strings.TrimSpace).filter (fun t => decide (t ≠ [])) := by
  induction parts with
  | nil => rfl
  | cons p ps ih =>
    simp only [commaLoop, List.map_cons, List.filter_cons, ih]
    by_cases h : strings.TrimSpace p ≠ []
    · simp only [if_pos h, decide_eq_true h, if_true]
    · simp only [if_neg h, decide_eq_false h, Bool.false_eq_true, if_false]

theorem trimSpace_head (s : Str) :
    ∀ c, (strings.TrimSpace s).head? = some c → strings.isSpace c = false := by
  intro c hc
  have h := dropWhile_head strings.isSpace (strings.TrimSpace s) c
  have hd : (strings.TrimSpace s).dropWhile strings.isSpace = strings.TrimSpace s := by
    have hi := trimSpace_idem s
    unfold strings.TrimSpace at hi ⊢
    generalize hu : ((s.dropWhile strings.isSpace).reverse.dropWhile strings.isSpace).reverse
      = u at hi ⊢
    -- the second trimming leaves `u`, so its first step cannot drop anything
    have hlen : ((u.dropWhile strings.isSpace).reverse.dropWhile strings.isSpace).length
        = u.length := by
      have := congrArg List.length hi
      simpa using this
    have h1 : ((u.dropWhile strings.isSpace).reverse.dropWhile strings.isSpace).length
        ≤ (u.dropWhile strings.isSpace).length := by
      have := (List.dropWhile_suffix strings.isSpace
        (l := (u.dropWhile strings.isSpace).reverse)).length_le
      simpa using this
    have h2 : (u.dropWhile strings.isSpace).length ≤ u.length :=
      (List.dropWhile_suffix strings.isSpace (l := u)).length_le
    exact (List.dropWhile_suffix strings.isSpace (l := u)).eq_of_length (by omega)
  rw [hd] at h
  exact h hc

theorem trimSpace_last (s : Str) :
    ∀ c, (strings.TrimSpace s).getLast? = some c → strings.isSpace c = false := by
  intro c hc
  unfold strings.TrimSpace at hc
  rw [List.getLast?_reverse] at hc
  exact dropWhile_head _ _ c hc

theorem mem_trimSpace (s : Str) : ∀ c ∈ strings.TrimSpace s, c ∈ s := by
  intro c hc
  unfold strings.TrimSpace at hc
  rw [List.mem_reverse] at hc
  have h1 := (List.dropWhile_suffix strings.isSpace
    (l := (s.dropWhile strings.isSpace).reverse)).subset hc
  rw [List.mem_reverse] at h1
  exact (List.dropWhile_suffix strings.isSpace (l := s)).subset h1

theorem dropWhile_eq_nil (p : Char → Bool) (l : Str) :
    l.dropWhile p = [] ↔ ∀ c ∈ l, p c = true := by
  induction l with
  | nil => simp
  | cons x xs ih =>
    by_cases hx : p x = true
    · rw [List.dropWhile_cons_of_pos hx, ih]
      simp [hx]
    · rw [List.dropWhile_cons_of_neg hx]
      simp [hx]

theorem trimSpace_eq_nil (s : Str) :
    strings.TrimSpace s = [] ↔ ∀ c ∈ s, strings.isSpace c = true := by
  unfold strings.TrimSpace
  rw [List.reverse_eq_nil_iff]
  constructor
  · intro h
    by_contra hne
    have hd : s.dropWhile strings.isSpace ≠ [] := fun hh => hne ((dropWhile_eq_nil _ _).mp hh)
    -- the first character left is not a space, so the trimming from the right stops
    obtain ⟨x, xs, hx⟩ := List.exists_cons_of_ne_nil hd
    have hxs : strings.isSpace x = false :=
      dropWhile_head strings.isSpace s x (by rw [hx]; rfl)
    rw [hx, List.reverse_cons] at h
    obtain ⟨l2, h2⟩ := dropWhile_snoc_keep strings.isSpace xs.reverse x hxs
    rw [h2] at h
    simp at h
  · intro h
    rw [(dropWhile_eq_nil _ _).mpr h]
    rfl

/-- Claim C31: for every string s, `handleCommaSeparatedValues s` is the list, in the
order of s, of the trimmed comma-separated pieces of s that are not empty after
trimming; no element of it is empty, holds a comma, or starts or ends with white space;
" a , b , c " and "a,,b,,,c" give a, b, c, and the empty string and ",,," give the
empty list. -/
theorem handleCommaSeparatedValues_spec (s : Str) :
    handleCommaSeparatedValues s
      = ((strings.Split ',' s).map strings.TrimSpace).filter (fun t => decide (t ≠ []))
    ∧ (∀ t ∈ handleCommaSeparatedValues s,
        t ≠ [] ∧ ',' ∉ t
        ∧ (∀ c, t.head? = some c → strings.isSpace c = false)
        ∧ (∀ c, t.getLast? = some c → strings.isSpace c = false)
        ∧ strings.TrimSpace t = t)
    ∧ handleCommaSeparatedValues " a , b , c ".toList = ["a".toList, "b".toList, "c".toList]
    ∧ handleCommaSeparatedValues "a,,b,,,c".toList = ["a".toList, "b".toList, "c".toList]
    ∧ handleCommaSeparatedValues "".toList = []
    ∧ handleCommaSeparatedValues ",,,".toList = [] := by
  refine ⟨commaLoop_eq _, ?_, by decide, by decide, by decide, by decide⟩
  intro t ht
  obtain ⟨hne, part, hpart, hbt⟩ := (mem_commaLoop _ _).mp ht
  subst hbt
  refine ⟨hne, ?_, trimSpace_head part, trimSpace_last part, trimSpace_idem part⟩
  intro hc
  exact split_no_sep ',' s part hpart (mem_trimSpace part _ hc)

/-- Claim C32: for every string e, `normalizeExt e` is the empty string when e holds
white space only, and otherwise the trimmed e, with a dot in front unless it starts with
one, in lower case, which is `strings.ToLower` on every rune; go, .GO and "  .Go  "
give .go, and É gives .é; a result that is not empty starts with a dot, and
`strings.ToLower` leaves every result as it is. -/
theorem normalizeExt_spec (e : Str) :
    ((∀ c ∈ e, strings.isSpace c = true) → normalizeExt e = [])
    ∧ ((∃ c ∈ e, strings.isSpace c = false) →
        normalizeExt e
          = strings.ToLower
              (if (strings.TrimSpace e).head? = some '.' then strings.TrimSpace e
               else '.' :: strings.TrimSpace e))
    ∧ (normalizeExt e = [] ↔ ∀ c ∈ e, strings.isSpace c = true)
    ∧ (normalizeExt e ≠ [] → (normalizeExt e).head? = some '.')
    ∧ normalizeExt "go".toList = ".go".toList
    ∧ normalizeExt ".GO".toList = ".go".toList
    ∧ normalizeExt "  .Go  ".toList = ".go".toList
    ∧ normalizeExt "".toList = []
    ∧ normalizeExt "   ".toList = []
    ∧ normalizeExt "É".toList = ".é".toList
    ∧ normalizeExt ".É".toList = ".é".toList
    ∧ strings.ToLower (normalizeExt e) = normalizeExt e := by
  have hblank : (∀ c ∈ e, strings.isSpace c = true) → normalizeExt e = [] := fun h =>
    normalizeExt_blank e ((trimSpace_eq_nil e).mpr h)
  have hdot : strings.TrimSpace e ≠ [] → ∃ rest, normalizeExt e = '.' :: rest :=
    normalizeExt_dot e
  refine ⟨hblank, ?_, ⟨?_, hblank⟩, ?_, by decide, by decide, by decide, by decide, by decide,
    by decide, by decide, normalizeExt_lower e⟩
  · rintro ⟨c, hc, hcs⟩
    have hne : strings.TrimSpace e ≠ [] := by
      intro h
      have := (trimSpace_eq_nil e).mp h c hc
      rw [hcs] at this
      exact Bool.noConfusion this
    unfold normalizeExt
    simp only [if_neg hne]
    cases ht : strings.TrimSpace e with
    | nil => exact absurd ht hne
    | cons x xs =>
      by_cases hx : x = '.'
      · subst hx
        have h1 : strings.HasPrefix ('.' :: xs) ['.'] = true := by
          simp [strings.HasPrefix]
        have h2 : ('.' :: xs).head? = some '.' := rfl
        simp only [h1, Bool.not_true, Bool.false_eq_true, if_false, if_pos h2]
      · have h1 : strings.HasPrefix (x :: xs) ['.'] = false := by
          simp only [strings.HasPrefix, List.isPrefixOf, Bool.and_true, beq_eq_false_iff_ne,
            ne_eq]
          exact fun h => hx h.symm
        have h2 : ¬ (x :: xs).head? = some '.' := by
          simp only [List.head?_cons, Option.some.injEq]
          exact hx
        simp only [h1, Bool.not_false, if_true, if_neg h2]
  · intro h
    by_contra hne
    have hne2 : strings.TrimSpace e ≠ [] := fun hh => hne ((trimSpace_eq_nil e).mp hh)
    obtain ⟨rest, hr⟩ := hdot hne2
    rw [hr] at h
    exact List.cons_ne_nil _ _ h
  · intro hne
    have hne2 : strings.TrimSpace e ≠ [] := fun hh => hne (normalizeExt_blank e hh)
    obtain ⟨rest, hr⟩ := hdot hne2
    rw [hr]
    rfl

/-! ## The error of the walk -/

mutual
theorem walkDir_no_error {σ : Type} (fn : WalkDirFunc σ)
    (hfn : ∀ s p a, (fn s p a).2 = none ∨ (fn s p a).2 = some WalkErr.SkipDir) :
    (n : Node) → (path : Str) → (s : σ) →
      (walkDir fn path n s).2 = none ∨ (walkDir fn path n s).2 = some WalkErr.SkipDir
  | .file name, path, s => by
    simp only [walkDir]
    exact hfn _ _ _
  | .dir name readErr children, path, s => by
    simp only [walkDir]
    have h1 := hfn s path (.entry ⟨name, true⟩)
    cases hr : fn s path (.entry ⟨name, true⟩) with
    | mk s1 e1 =>
      rw [hr] at h1
      simp only at h1
      rcases h1 with h1 | h1
      · subst h1
        simp only
        cases readErr with
        | none =>
          simp only
          exact Or.inl (walkDirs_no_error fn hfn children path s1)
        | some e =>
          simp only
          have h2 := hfn s1 path (.failed (some ⟨name, true⟩) e)
          cases hr2 : fn s1 path (.failed (some ⟨name, true⟩) e) with
          | mk s2 e2 =>
            rw [hr2] at h2
            simp only at h2
            rcases h2 with h2 | h2
            · subst h2
              simp only
              exact Or.inl (walkDirs_no_error fn hfn children path s2)
            · subst h2
              simp only [if_true]
              exact Or.inl trivial
      · subst h1
        simp only [if_true]
        exact Or.inl trivial
theorem walkDirs_no_error {σ : Type} (fn : WalkDirFunc σ)
    (hfn : ∀ s p a, (fn s p a).2 = none ∨ (fn s p a).2 = some WalkErr.SkipDir) :
    (cs : List Node) → (path : Str) → (s : σ) → (walkDirs fn path cs s).2 = none
  | [], path, s => rfl
  | c :: cs, path, s => by
    simp only [walkDirs]
    have h1 := walkDir_no_error fn hfn c (filepath.Join path c.entry.name) s
    cases hr : walkDir fn (filepath.Join path c.entry.name) c s with
    | mk s1 e1 =>
      rw [hr] at h1
      simp only at h1
      rcases h1 with h1 | h1
      · subst h1
        simp only
        exact walkDirs_no_error fn hfn cs path s1
      · subst h1
        simp only [if_true]
end

theorem WalkDir_no_error {σ : Type} (fn : WalkDirFunc σ)
    (hfn : ∀ s p a, (fn s p a).2 = none ∨ (fn s p a).2 = some WalkErr.SkipDir)
    (root : Str) (st : RootStat) (s : σ) : (WalkDir fn root st s).2 = none := by
  unfold WalkDir
  have h : ∀ r : σ × Option WalkErr, (r.2 = none ∨ r.2 = some WalkErr.SkipDir) →
      (match r with
        | (s1, some .SkipDir) => (s1, none)
        | (s1, some .SkipAll) => (s1, none)
        | (s1, err) => (s1, err)).2 = none := by
    rintro ⟨s1, e⟩ he
    rcases he with he | he
    · simp only at he
      subst he
      rfl
    · simp only at he
      subst he
      rfl
  apply h
  cases st with
  | lstatErr e => exact hfn _ _ _
  | found n => exact walkDir_no_error fn hfn n root s

theorem visit_nil_or_skipDir (s : Scanner) (files : List Str) (path : Str) (a : WalkArg) :
    (s.visit files path a).2 = none ∨ (s.visit files path a).2 = some WalkErr.SkipDir := by
  unfold Scanner.visit
  cases a with
  | failed d e => exact Or.inl rfl
  | entry d =>
    simp only
    by_cases hF : s.filter.ShouldInclude path d = true
    · by_cases hd : d.isDir = true
      · simp [hF, hd]
      · simp [hF, hd]
    · by_cases hd : d.isDir = true
      · simp [hF, hd]
      · simp [hF, hd]

/-- Claim C33: `Scan` never returns an error.  For every base directory, whatever
`Lstat` and `ReadDir` report, and every filter, `Scan` returns a list; the function it
hands to `WalkDir` returns nil or `SkipDir` only, and `WalkDir` returns nil for every
function that does so, so the walk of `Scan` returns nil; when `Lstat` of the base
directory fails the list is empty. -/
theorem scan_never_errors (s : Scanner) (st : RootStat) :
    (∃ files, s.Scan st = .ok files)
    ∧ (∀ err, s.Scan st ≠ .error err)
    ∧ (∀ files path a,
        (s.visit files path a).2 = none ∨ (s.visit files path a).2 = some WalkErr.SkipDir)
    ∧ (∀ (σ : Type) (fn : WalkDirFunc σ),
        (∀ x p a, (fn x p a).2 = none ∨ (fn x p a).2 = some WalkErr.SkipDir) →
        ∀ root st0 x, (WalkDir fn root st0 x).2 = none)
    ∧ (WalkDir s.visit s.baseDir st []).2 = none
    ∧ (∀ err, s.Scan (.lstatErr err) = .ok []) := by
  refine ⟨⟨_, scan_eq s st⟩, ?_, visit_nil_or_skipDir s, ?_, ?_, fun _ => rfl⟩
  · intro err h
    rw [scan_eq s st] at h
    cases h
  · intro σ fn hfn root st0 x
    exact WalkDir_no_error fn hfn root st0 x
  · exact WalkDir_no_error s.visit (visit_nil_or_skipDir s) s.baseDir st []

/-! ## The filter on the base directory -/

theorem emitted_rejected (F : Filter) (b : Str) (n : Node)
    (h : F.ShouldInclude b n.entry = false) : emitted F b n = [] := by
  cases n with
  | file name =>
    simp only [Node.entry] at h
    simp only [emitted, h, Bool.false_eq_true, if_false]
  | dir name readErr children =>
    simp only [Node.entry] at h
    simp only [emitted, h, Bool.false_eq_true, if_false]

theorem scan_rejected (s : Scanner) (n : Node)
    (h : s.filter.ShouldInclude s.baseDir n.entry = false) : s.Scan (.found n) = .ok [] := by
  rw [scan_eq_emitted, emitted_rejected s.filter s.baseDir n h]
  rfl

theorem chain_rejects (chain : Chain) (f : Filter) (hf : f ∈ chain.filters) (p : Str)
    (d : Entry) (h : f.ShouldInclude p d = false) : chain.toFilter.ShouldInclude p d = false := by
  show Chain.loop p d chain.filters = false
  rw [chain_loop_eq_all, List.all_eq_false]
  exact ⟨f, hf, by simp [h]⟩

theorem buildChain_has_hidden (lib : GitignoreLib) (fsys : FileSys) (cfg : Config)
    (chain : Chain) (h : BuildChain lib fsys cfg = .ok chain) (hH : cfg.IncludeHidden = false) :
    Filter.hidden ∈ chain.filters := by
  rw [buildChain_eq] at h
  have hmem : Filter.hidden ∈ chainHead cfg := by
    simp [chainHead, hH]
  split_ifs at h
  · cases hg : NewGitignoreFilter lib fsys cfg.BaseDir cfg.GitignorePath cfg.CustomPatterns with
    | error e =>
      rw [hg] at h
      cases h
    | ok g =>
      rw [hg] at h
      injection h with h
      rw [← h]
      simp [hmem]
  · injection h with h
    rw [← h]
    simp [hmem]

/-- Claim C34: the filter is applied to the base directory itself.  When the filter
rejects the entry of the base directory, `Scan` returns the empty list and no error,
whatever lies in the tree; so it is with a chain of `BuildChain` that holds the hidden
filter and the base directory /home/u/.config, and with a chain of `BuildChain` whose
denylist holds vendor and the base directory vendor. -/
theorem scan_base_rejected (s : Scanner) (n : Node)
    (h : s.filter.ShouldInclude s.baseDir n.entry = false) :
    s.Scan (.found n) = .ok []
    ∧ (∀ (lib : GitignoreLib) (fsys : FileSys) (cfg : Config) (chain : Chain) (t : Node),
        BuildChain lib fsys cfg = .ok chain → cfg.IncludeHidden = false →
        (Scanner.New "/home/u/.config".toList chain.toFilter).Scan (.found t) = .ok [])
    ∧ (∀ (lib : GitignoreLib) (fsys : FileSys) (cfg : Config) (chain : Chain) (t : Node),
        BuildChain lib fsys cfg = .ok chain → "vendor".toList ∈ cfg.IgnoreDirs →
        (Scanner.New "vendor".toList chain.toFilter).Scan (.found t) = .ok []) := by
  refine ⟨scan_rejected s n h, ?_, ?_⟩
  · intro lib fsys cfg chain t hb hH
    apply scan_rejected
    exact chain_rejects chain Filter.hidden (buildChain_has_hidden lib fsys cfg chain hb hH)
      _ _ rfl
  · intro lib fsys cfg chain t hb hv
    apply scan_rejected
    have hne : cfg.IgnoreDirs ≠ [] := List.ne_nil_of_mem hv
    refine chain_rejects chain (Filter.dir cfg.IgnoreDirs)
      (buildChain_has_dirFilter lib fsys cfg chain hb hne) _ _ ?_
    show DirFilter.ShouldInclude cfg.IgnoreDirs "vendor".toList t.entry = false
    have hs : strings.Split '/' (filepath.ToSlash "vendor".toList) = ["vendor".toList] := by
      decide
    simp only [DirFilter.ShouldInclude, hs, if_pos hv]

/-- Witness of C34: the hidden filter on the base directory /home/u/.config that
holds the file main.go. -/
theorem scan_base_rejected_witness :
    (Scanner.New "/home/u/.config".toList Filter.hidden).Scan
      (.found (.dir ".config".toList none [.file "main.go".toList])) = .ok [] :=
  (scan_base_rejected (Scanner.New "/home/u/.config".toList Filter.hidden)
    (.dir ".config".toList none [.file "main.go".toList]) rfl).1

/-! ## The text of a list of files put together -/

/-- Claim C36: for all lists of files xs and ys that are not empty and every value of
the options, `Process` on xs followed by ys returns the text of xs followed by the
text of ys; each of the three texts is the texts of its files one after the other, and
the text of a file depends on the file and the heading level only. -/
theorem process_append (xs ys : List FileInfo) (o : Options) (hx : xs ≠ []) (hy : ys ≠ []) :
    (∃ a b, MarkdownProcessor.Process xs o = .ok a
        ∧ MarkdownProcessor.Process ys o = .ok b
        ∧ MarkdownProcessor.Process (xs ++ ys) o = .ok (a ++ b))
    ∧ MarkdownProcessor.Process xs o = .ok (xs.map (fileBlock o.HeadingLevel)).flatten
    ∧ MarkdownProcessor.Process ys o = .ok (ys.map (fileBlock o.HeadingLevel)).flatten
    ∧ MarkdownProcessor.Process (xs ++ ys) o
        = .ok ((xs ++ ys).map (fileBlock o.HeadingLevel)).flatten
    ∧ (∀ f : FileInfo, MarkdownProcessor.Process [f] o = .ok (fileBlock o.HeadingLevel f)) := by
  have hxy : xs ++ ys ≠ [] := by
    intro h
    exact hx (List.append_eq_nil.mp h).1
  refine ⟨⟨_, _, process_eq xs o hx, process_eq ys o hy, ?_⟩, process_eq xs o hx,
    process_eq ys o hy, process_eq _ o hxy, ?_⟩
  · rw [process_eq _ o hxy, List.map_append, List.flatten_append]
  · intro f
    rw [process_eq [f] o (List.cons_ne_nil _ _)]
    simp only [List.map_cons, List.map_nil, List.flatten_cons, List.flatten_nil,
      List.append_nil]

/-- Witness of C36: the file of the heading test, once and then twice. -/
theorem process_append_witness :
    ∃ a b, MarkdownProcessor.Process [headingTestFile] ⟨[], 2, false⟩ = .ok a
      ∧ MarkdownProcessor.Process [headingTestFile, headingTestFile] ⟨[], 2, false⟩ = .ok b
      ∧ MarkdownProcessor.Process ([headingTestFile] ++ [headingTestFile, headingTestFile])
          ⟨[], 2, false⟩ = .ok (a ++ b) :=
  (process_append [headingTestFile] [headingTestFile, headingTestFile] ⟨[], 2, false⟩
    (by decide) (by decide)).1

/-! ## Hidden segments below the base directory -/

theorem hidden_rejects_name (x n : Str) (d : Entry) (hn : niceName n)
    (hd : n.head? = some '.') : HiddenFilter.ShouldInclude (filepath.Join x n) d = false := by
  rw [hidden_join x n hn d]
  unfold HiddenFilter.ShouldInclude
  rw [base_of_name n hn.1 hn.2.1]
  have h1 : strings.HasPrefix n ['.'] = true := by
    cases n with
    | nil => simp at hd
    | cons c cs =>
      simp only [List.head?_cons, Option.some.injEq] at hd
      subst hd
      simp [strings.HasPrefix]
  have h2 : (n != ['.']) = true := by
    simp only [bne_iff_ne, ne_eq]
    exact hn.2.2.1
  have h3 : (n != ['.', '.']) = true := by
    simp only [bne_iff_ne, ne_eq]
    exact hn.2.2.2
  simp only [h1, h2, h3, Bool.and_self, if_true]

theorem joinAll_snoc (b : Str) (ns : List Str) (n : Str) :
    joinAll b (ns ++ [n]) = filepath.Join (joinAll b ns) n := by
  simp only [joinAll, List.foldl_append, List.foldl_cons, List.foldl_nil]

mutual
theorem visits_hidden (b : Str) :
    (n : Node) → (ns : List Str) → (anc : List (Str × Entry)) →
      n.wellFormed = true → niceName n.entry.name → (∀ m ∈ ns, niceName m) →
      (∀ m ∈ ns, m.head? = some '.' →
        ∃ a ∈ anc, HiddenFilter.ShouldInclude a.1 a.2 = false) →
      ∀ v ∈ n.visits (filepath.Join (joinAll b ns) n.entry.name) anc,
        ∃ ms, ms ≠ [] ∧ (∀ m ∈ ms, niceName m) ∧ v.path = joinAll b ms
          ∧ ∀ m ∈ ms, m.head? = some '.' →
              (HiddenFilter.ShouldInclude v.path v.entry = false
                ∨ ∃ a ∈ v.ancestors, HiddenFilter.ShouldInclude a.1 a.2 = false)
  | .file name, ns, anc, _, hname, hns, hanc => by
    intro v hv
    simp only [Node.visits, Node.entry, List.mem_singleton] at hv
    subst hv
    simp only [Node.entry] at hname
    refine ⟨ns ++ [name], by simp, ?_, (joinAll_snoc b ns name).symm, ?_⟩
    · intro m hm
      rcases List.mem_append.mp hm with hm | hm
      · exact hns m hm
      · rw [List.mem_singleton] at hm
        exact hm ▸ hname
    · intro m hm hd
      rcases List.mem_append.mp hm with hm | hm
      · exact Or.inr (hanc m hm hd)
      · rw [List.mem_singleton] at hm
        subst hm
        exact Or.inl (hidden_rejects_name _ _ _ hname hd)
  | .dir name readErr children, ns, anc, hwf, hname, hns, hanc => by
    intro v hv
    simp only [Node.entry] at hname
    simp only [Node.visits, Node.entry, List.mem_cons] at hv
    have hnice : ∀ m ∈ ns ++ [name], niceName m := by
      intro m hm
      rcases List.mem_append.mp hm with hm | hm
      · exact hns m hm
      · rw [List.mem_singleton] at hm
        exact hm ▸ hname
    rcases hv with hv | hv
    · subst hv
      refine ⟨ns ++ [name], by simp, hnice, (joinAll_snoc b ns name).symm, ?_⟩
      intro m hm hd
      rcases List.mem_append.mp hm with hm | hm
      · exact Or.inr (hanc m hm hd)
      · rw [List.mem_singleton] at hm
        subst hm
        exact Or.inl (hidden_rejects_name _ _ _ hname hd)
    · simp only [Node.wellFormed, Bool.and_eq_true] at hwf
      rw [← joinAll_snoc] at hv
      refine visitsOf_hidden b children (ns ++ [name])
        (anc ++ [(joinAll b (ns ++ [name]), ⟨name, true⟩)]) hwf.1 hnice ?_ v hv
      intro m hm hd
      rcases List.mem_append.mp hm with hm | hm
      · obtain ⟨a, ha, hr⟩ := hanc m hm hd
        exact ⟨a, List.mem_append_left _ ha, hr⟩
      · rw [List.mem_singleton] at hm
        subst hm
        refine ⟨_, List.mem_append_right _ (List.mem_singleton_self _), ?_⟩
        rw [joinAll_snoc]
        exact hidden_rejects_name _ _ _ hname hd
theorem visitsOf_hidden (b : Str) :
    (cs : List Node) → (ns : List Str) → (anc : List (Str × Entry)) →
      wellFormedList cs = true → (∀ m ∈ ns, niceName m) →
      (∀ m ∈ ns, m.head? = some '.' →
        ∃ a ∈ anc, HiddenFilter.ShouldInclude a.1 a.2 = false) →
      ∀ v ∈ visitsOf (joinAll b ns) anc cs,
        ∃ ms, ms ≠ [] ∧ (∀ m ∈ ms, niceName m) ∧ v.path = joinAll b ms
          ∧ ∀ m ∈ ms, m.head? = some '.' →
              (HiddenFilter.ShouldInclude v.path v.entry = false
                ∨ ∃ a ∈ v.ancestors, HiddenFilter.ShouldInclude a.1 a.2 = false)
  | [], ns, anc, _, _, _ => by
    intro v hv
    simp [visitsOf] at hv
  | c :: cs, ns, anc, hwf, hns, hanc => by
    intro v hv
    simp only [wellFormedList, Bool.and_eq_true, decide_eq_true_eq] at hwf
    simp only [visitsOf, List.mem_append] at hv
    rcases hv with hv | hv
    · exact visits_hidden b c ns anc hwf.1.2 hwf.1.1 hns hanc v hv
    · exact visitsOf_hidden b cs ns anc hwf.2 hns hanc v hv
end

theorem chain_accepts_hidden (chain : Chain) (hh : Filter.hidden ∈ chain.filters) (p : Str)
    (d : Entry) (h : chain.toFilter.ShouldInclude p d = true) :
    HiddenFilter.ShouldInclude p d = true := by
  cases hr : HiddenFilter.ShouldInclude p d with
  | true => rfl
  | false =>
    have := chain_rejects chain Filter.hidden hh p d hr
    rw [this] at h
    exact Bool.noConfusion h

/-- Claim C35: with a chain that holds the hidden filter, as every chain of `BuildChain`
with `IncludeHidden` false does, no path that `Scan` returns has a segment below the
base directory that starts with a dot, for every base directory and every tree of it;
the hidden filter alone accepts the path .git/config, whose last element is not
hidden, and the file is left out because the walk does not enter .git. -/
theorem scan_no_hidden_segment (chain : Chain) (b : Str) (name : Str)
    (readErr : Option Str) (children : List Node) (files : List Str)
    (hh : Filter.hidden ∈ chain.filters)
    (hwf : (Node.dir name readErr children).wellFormed = true)
    (hs : (Scanner.New b chain.toFilter).Scan (.found (.dir name readErr children))
      = .ok files) :
    (∀ p ∈ files, ∀ seg ∈ strings.Split '/' (RelPath p b), seg.head? ≠ some '.')
    ∧ (∀ (lib : GitignoreLib) (fsys : FileSys) (cfg : Config) (c : Chain),
        BuildChain lib fsys cfg = .ok c → cfg.IncludeHidden = false →
        Filter.hidden ∈ c.filters)
    ∧ HiddenFilter.ShouldInclude ".git/config".toList ⟨"config".toList, false⟩ = true
    ∧ (Scanner.New "/p".toList (NewChain [Filter.hidden]).toFilter).Scan (.found hiddenGitTree)
        = .ok ["/p/main.go".toList]
    ∧ (Scanner.New "/p".toList allowAllFilter).Scan (.found hiddenGitTree)
        = .ok ["/p/.git/config".toList, "/p/main.go".toList] := by
  refine ⟨?_, buildChain_has_hidden, rfl, rfl, rfl⟩
  intro p hp seg hseg hd
  obtain ⟨v, hv, hcol, hvp⟩ :=
    (mem_scan (Scanner.New b chain.toFilter) _ files hs p).mp hp
  simp only [Scanner.New] at hv hcol
  simp only [Visit.collected, Visit.reached, Bool.and_eq_true, Bool.not_eq_true',
    List.all_eq_true] at hcol
  obtain ⟨⟨hfile, hacc⟩, hanc⟩ := hcol
  simp only [RootStat.visits, Node.visits, List.mem_cons] at hv
  rcases hv with hv | hv
  · subst hv
    simp at hfile
  · simp only [Node.wellFormed, Bool.and_eq_true] at hwf
    have hq := visitsOf_hidden b children [] [(b, ⟨name, true⟩)] hwf.1
      (by intro m hm; simp at hm) (by intro m hm; simp at hm) v hv
    obtain ⟨ms, hne, hnice, hpath, hrej⟩ := hq
    have hparts : strings.Split '/' (RelPath p b) = ms := by
      have h := gitParts_joinAll b ms hne hnice
      rw [← hpath, hvp] at h
      simpa [gitParts, filepath.ToSlash, filepath.Separator] using h
    rw [hparts] at hseg
    rcases hrej seg hseg hd with hr | ⟨a, ha, hr⟩
    · rw [chain_accepts_hidden chain hh _ _ hacc] at hr
      exact Bool.noConfusion hr
    · rw [chain_accepts_hidden chain hh _ _ (hanc a ha)] at hr
      exact Bool.noConfusion hr

/-- Witness of C35: the chain of the hidden filter on the base directory /p that holds
main.go and .git/config; the segment main.go of the path returned does not start
with a dot. -/
theorem scan_no_hidden_segment_witness :
    (Scanner.New "/p".toList (NewChain [Filter.hidden]).toFilter).Scan (.found hiddenGitTree)
        = .ok ["/p/main.go".toList]
    ∧ "main.go".toList.head? ≠ some '.' :=
  ⟨rfl,
   (scan_no_hidden_segment (NewChain [Filter.hidden]) "/p".toList "p".toList none
      [.dir ".git".toList none [.file "config".toList], .file "main.go".toList]
      ["/p/main.go".toList] (by simp [NewChain]) (by decide) rfl).1
    "/p/main.go".toList (List.mem_singleton_self _) "main.go".toList (by decide)⟩

end Amalgo
